import Mathlib

/-!
# Verification of the format-template parser (`src/formatting/parse.rs`)

Shallow embedding of the nom-based recursive-descent parser over `List Char`.
Strings are modelled as `List Char`; nom's `IResult<&str, T, PError>` becomes
`Except NomErr (List Char × T)` where `NomErr` distinguishes recoverable
errors (`err`, nom's `Err::Error`) from committed failures (`fail`, nom's
`Err::Failure`, produced by `cut`).  The mutually recursive template grammar
is defined by structural recursion on a fuel parameter (the only modelling
artifact; fuel exhaustion is the distinguished value `NomErr.fuel`, which
every combinator propagates like a committed failure, and the default fuel
`4·|input| + 4` is far above what the grammar can consume).
-/

namespace FmtParse

abbrev Str := List Char

/-- The subset of `nom::error::ErrorKind` values this parser can produce,
with their Rust `Debug` names (used by `parse_full`'s diagnostics). -/
inductive ErrorKind where
  | takeWhile1
  | tag
  | notKind
  | escapedTransform
  | many0
  | separatedList
  | eof
  deriving DecidableEq, Repr

/-- `PError<'a>` from the source: either `Expected { expected, actual }`
(built by `from_char`) or `Other { input, kind }` (built by `from_error_kind`). -/
inductive PError where
  | expected (expected : Char) (actual : Option Char)
  | other (input : Str) (kind : ErrorKind)
  deriving DecidableEq, Repr

/-- `nom::Err`: recoverable `Error` vs committed `Failure`, plus the
fuel-exhaustion marker of the embedding (propagated like a `Failure`,
so it can never be confused with a grammar-level outcome). -/
inductive NomErr where
  | err (e : PError)
  | fail (e : PError)
  | fuel
  deriving DecidableEq, Repr

abbrev PResult (α : Type) := Except NomErr (Str × α)

/-- `nom::combinator::cut`: turn a recoverable error into a committed failure. -/
def cutR {α : Type} : PResult α → PResult α
  | .error (.err e) => .error (.fail e)
  | r => r

/-- `Arg<'a> { key, val }`. -/
structure Arg where
  key : Str
  val : Option Str
  deriving DecidableEq, Repr

/-- `Formatter<'a> { name, args }`. -/
structure Formatter where
  name : Str
  args : List Arg
  deriving DecidableEq, Repr

/-- `Placeholder<'a> { name, formatter }`. -/
structure Placeholder where
  name : Str
  formatter : Option Formatter
  deriving DecidableEq, Repr

/-- `Token<'a>`; `recursive` holds a `FormatTemplate` (the newtype wrappers
`TokenList(Vec<Token>)` and `FormatTemplate(Vec<TokenList>)` are flattened
to nested lists). -/
inductive Token where
  | text (s : Str)
  | placeholder (p : Placeholder)
  | icon (s : Str)
  | recursive (t : List (List Token))
  deriving Repr

abbrev TokenList := List Token
abbrev FormatTemplate := List TokenList

/-- Rust `char::is_ascii_whitespace`: space, `\t`, `\n`, form feed, `\r`. -/
def isAsciiWS (c : Char) : Bool :=
  c = ' ' || c = '\t' || c = '\n' || c = '\x0c' || c = '\r'

/-- Rust `char::is_alphanumeric` (Unicode `Alphabetic` or `Nd`/`Nl`/`No`).
Exact for every code point ≤ `0xFF` (ASCII letters and digits, `ª µ ² ³ ¹ º`,
the vulgar fractions `¼ ½ ¾`, and the Latin-1 letters `À`–`ÿ` except `×`
and `÷`); code points above `0xFF` are outside the modelled fragment and
mapped to `false` (no character above `0xFF` occurs in this development,
and no theorem below depends on the predicate's value there). -/
def rustAlnum (c : Char) : Bool :=
  (('a' ≤ c && c ≤ 'z') || ('A' ≤ c && c ≤ 'Z') || ('0' ≤ c && c ≤ '9'))
  || c.toNat = 0xAA || c.toNat = 0xB5 || c.toNat = 0xBA
  || c.toNat = 0xB2 || c.toNat = 0xB3 || c.toNat = 0xB9
  || (0xBC ≤ c.toNat && c.toNat ≤ 0xBE)
  || (0xC0 ≤ c.toNat && c.toNat ≤ 0xD6)
  || (0xD8 ≤ c.toNat && c.toNat ≤ 0xF6)
  || (0xF8 ≤ c.toNat && c.toNat ≤ 0xFF)

/-- The identifier class of `alphanum1`: `x.is_alphanumeric() || x == '_' || x == '-'`. -/
def identChar (c : Char) : Bool :=
  rustAlnum c || c = '_' || c = '-'

/-- The bare-value class of `arg1`'s first branch:
`x.is_alphanumeric() || x == '_' || x == '-' || x == '.' || x == '%'`. -/
def bareChar (c : Char) : Bool :=
  rustAlnum c || c = '_' || c = '-' || c = '.' || c = '%'

/-- The class taken by `escaped_transform`'s normal chunk in `parse_string`:
everything except the six specials `$ ^ { } | \`. -/
def textChar (c : Char) : Bool :=
  c ≠ '$' && c ≠ '^' && c ≠ '{' && c ≠ '}' && c ≠ '|' && c ≠ '\\'

/-- `nom::character::complete::char(c)`: consume exactly `c`; on mismatch an
`Error` built by `PError::from_char` (actual = first char of the input, if any). -/
def charP (c : Char) (i : Str) : PResult Char :=
  match i with
  | [] => .error (.err (.expected c none))
  | x :: rest =>
    if x = c then .ok (rest, c) else .error (.err (.expected c (some x)))

/-- `nom::bytes::complete::take_while1 p`: the maximal (non-empty) prefix
satisfying `p`; an `ErrorKind::TakeWhile1` `Error` when that prefix is empty. -/
def takeWhile1P (p : Char → Bool) (i : Str) : PResult Str :=
  match i with
  | [] => .error (.err (.other i .takeWhile1))
  | c :: _ =>
    if p c then .ok (i.dropWhile p, i.takeWhile p)
    else .error (.err (.other i .takeWhile1))

/-- `tag("icon_")` specialised: consume a literal prefix or fail with
`ErrorKind::Tag`. -/
def tagP (t : Str) (i : Str) : PResult Str :=
  if t.isPrefixOf i then .ok (i.drop t.length, t)
  else .error (.err (.other i .tag))

/-- `fn spaces`: `take_while(is_ascii_whitespace)`; never fails. -/
def spaces (i : Str) : PResult Str :=
  .ok (i.dropWhile isAsciiWS, i.takeWhile isAsciiWS)

/-- `fn alphanum1`: `take_while1(identChar)`. -/
def alphanum1 (i : Str) : PResult Str :=
  takeWhile1P identChar i

/-- `fn arg1`: `alt((take_while1(bareChar), preceded(char '\u{27}',
cut(terminated(take_while(≠ quote), char '\u{27}')))))`.  The second
branch's error wins the `alt` (`PError::or` keeps `other`), and once the
opening quote is consumed a missing closing quote is a committed failure. -/
def arg1 (i : Str) : PResult Str :=
  match takeWhile1P bareChar i with
  | .ok r => .ok r
  | .error (.err _) =>
    match charP '\'' i with
    | .error e => .error e
    | .ok (i1, _) =>
      cutR (match charP '\'' (i1.dropWhile (fun c => c ≠ '\'')) with
        | .error e => .error e
        | .ok (i2, _) => .ok (i2, i1.takeWhile (fun c => c ≠ '\'')))
  | .error e => .error e

/-- `fn parse_arg`: `alt((map(separated_pair(alphanum1, char ':', cut(arg1)), …),
map(alphanum1, bare-key)))`.  Once `:` is consumed, `cut` commits: a bad value
is a `Failure`, and `alt` does not fall back to the bare-key branch. -/
def parse_arg (i : Str) : PResult Arg :=
  match (match alphanum1 i with
    | .error e => .error e
    | .ok (i1, key) =>
      match charP ':' i1 with
      | .error e => .error e
      | .ok (i2, _) =>
        match cutR (arg1 i2) with
        | .error e => .error e
        | .ok (i3, v) => .ok (i3, Arg.mk key (some v)) : PResult Arg) with
  | .ok r => .ok r
  | .error (.err _) =>
    match alphanum1 i with
    | .error e => .error e
    | .ok (i1, key) => .ok (i1, Arg.mk key none)
  | .error e => .error e

/-- Loop of `separated_list0(preceded(spaces, char ','), preceded(spaces, parse_arg))`
after the first element: try the separator (on a recoverable error, stop with the
input as it was before the separator), then the element (same exit), else recurse.
nom's separator-must-consume check is included verbatim (dead here: `char ','`
always consumes).  Structural on fuel; one `,` is consumed per iteration, so
fuel `|input| + 1` (supplied by `parse_args`) can never run out. -/
def argListAux : Nat → Str → List Arg → PResult (List Arg)
  | 0, _, _ => .error .fuel
  | f + 1, i, acc =>
    match charP ',' (i.dropWhile isAsciiWS) with
    | .error (.err _) => .ok (i, acc)
    | .error e => .error e
    | .ok (i1, _) =>
      if i1.length = i.length then .error (.err (.other i1 .separatedList))
      else
        match parse_arg (i1.dropWhile isAsciiWS) with
        | .error (.err _) => .ok (i, acc)
        | .error e => .error e
        | .ok (i2, a) => argListAux f i2 (acc ++ [a])

/-- `separated_list0(preceded(spaces, char ','), preceded(spaces, parse_arg))`:
first element (a recoverable error yields the empty list), then `argListAux`. -/
def argsInner (fuel : Nat) (i : Str) : PResult (List Arg) :=
  match parse_arg (i.dropWhile isAsciiWS) with
  | .error (.err _) => .ok (i, [])
  | .error e => .error e
  | .ok (i1, a) => argListAux fuel i1 [a]

/-- `fn parse_args`: `preceded(char '(', cut(terminated(inner,
preceded(spaces, char ')'))))`. -/
def parse_args (i : Str) : PResult (List Arg) :=
  match charP '(' i with
  | .error e => .error e
  | .ok (i1, _) =>
    cutR (match argsInner (i1.length + 1) i1 with
      | .error e => .error e
      | .ok (i2, args) =>
        match charP ')' (i2.dropWhile isAsciiWS) with
        | .error e => .error e
        | .ok (i3, _) => .ok (i3, args))

/-- `nom::combinator::opt` applied to a result: a recoverable error becomes
`none` with the input untouched; failures propagate. -/
def optR {α : Type} (i : Str) : PResult α → PResult (Option α)
  | .ok (i1, a) => .ok (i1, some a)
  | .error (.err _) => .ok (i, none)
  | .error e => .error e

/-- `fn parse_formatter`: `preceded(char '.', cut(tuple((alphanum1, opt(parse_args)))))`. -/
def parse_formatter (i : Str) : PResult Formatter :=
  match charP '.' i with
  | .error e => .error e
  | .ok (i1, _) =>
    cutR (match alphanum1 i1 with
      | .error e => .error e
      | .ok (i2, name) =>
        match optR i2 (parse_args i2) with
        | .error e => .error e
        | .ok (i3, args) => .ok (i3, Formatter.mk name (args.getD [])))

/-- `fn parse_placeholder`: `preceded(char '$', cut(tuple((alphanum1, opt(parse_formatter)))))`. -/
def parse_placeholder (i : Str) : PResult Placeholder :=
  match charP '$' i with
  | .error e => .error e
  | .ok (i1, _) =>
    cutR (match alphanum1 i1 with
      | .error e => .error e
      | .ok (i2, name) =>
        match optR i2 (parse_formatter i2) with
        | .error e => .error e
        | .ok (i3, fmt) => .ok (i3, Placeholder.mk name fmt))

/-- The loop of `escaped_transform(take_while1 textChar, '\u{5c}', anychar)`,
unrolled one character at a time (a maximal normal chunk consumes its
characters one by one, producing the same output, remainder and errors as
nom's chunked loop): a `\` must be followed by one more character (emitted
verbatim); a dangling final `\` is an `ErrorKind::EscapedTransform` error
located at the backslash; a special character stops the scan (an error if
nothing was consumed yet, mirroring nom's `index == 0` check). -/
def escTransGo : Str → Bool → Str → PResult Str
  | [], _, acc => .ok ([], acc)
  | c :: rest, atStart, acc =>
    if c = '\\' then
      match rest with
      | [] => .error (.err (.other (c :: rest) .escapedTransform))
      | c2 :: rest2 => escTransGo rest2 false (acc ++ [c2])
    else if textChar c then escTransGo rest false (acc ++ [c])
    else if atStart then .error (.err (.other (c :: rest) .escapedTransform))
    else .ok (c :: rest, acc)

/-- `fn parse_string`: `preceded(not(eof), escaped_transform(…))`.  On empty
input `eof` succeeds, so `not` fails with `ErrorKind::Not`. -/
def parse_string (i : Str) : PResult Str :=
  match i with
  | [] => .error (.err (.other i .notKind))
  | _ :: _ => escTransGo i true []

/-- `fn parse_icon`: `preceded(char '^', cut(preceded(tag("icon_"), alphanum1)))`. -/
def parse_icon (i : Str) : PResult Str :=
  match charP '^' i with
  | .error e => .error e
  | .ok (i1, _) =>
    cutR (match tagP (("icon_").data) i1 with
      | .error e => .error e
      | .ok (i2, _) => alphanum1 i2)

/-! ## The mutually recursive template grammar

`parse_format_template = separated_list0(char '|', parse_token_list)`,
`parse_token_list = many0(alt((text, placeholder, icon, recursive)))`, and
`parse_recursive_template = preceded(char '{', cut(terminated(parse_format_template, char '}')))`
are mutually recursive.  They are packaged as one structure defined by plain
structural recursion on fuel, so that the kernel can evaluate them. -/

structure ParserPack where
  pft : Str → PResult FormatTemplate
  tmplAux : Str → FormatTemplate → PResult FormatTemplate
  tla : Str → List Token → PResult (List Token)
  prt : Str → PResult FormatTemplate

/-- All four functions at fuel 0: exhausted. -/
def packZero : ParserPack where
  pft := fun _ => .error .fuel
  tmplAux := fun _ _ => .error .fuel
  tla := fun _ _ => .error .fuel
  prt := fun _ => .error .fuel

/-- One step of fuel: the bodies, with every recursive call going through the
previous level `p`. -/
def packStep (p : ParserPack) : ParserPack where
  -- separated_list0(char '|', parse_token_list): first token list (a
  -- recoverable error would yield the empty list), then the separator loop.
  pft := fun i =>
    match p.tla i [] with
    | .error (.err _) => .ok (i, [])
    | .error e => .error e
    | .ok (i1, tl) => p.tmplAux i1 [tl]
  -- the separator loop: `char '|'`, nom's separator-must-consume check
  -- (dead: `char` always consumes one character), then the next token list;
  -- a recoverable error at either point stops the loop at the position
  -- saved before the separator.
  tmplAux := fun i acc =>
    match charP '|' i with
    | .error (.err _) => .ok (i, acc)
    | .error e => .error e
    | .ok (i1, _) =>
      if i1.length = i.length then .error (.err (.other i1 .separatedList))
      else
        match p.tla i1 [] with
        | .error (.err _) => .ok (i, acc)
        | .error e => .error e
        | .ok (i2, tl) => p.tmplAux i2 (acc ++ [tl])
  -- many0(alt((map(parse_string, Text), map(parse_placeholder, Placeholder),
  -- map(parse_icon, Icon), map(parse_recursive_template, Recursive)))):
  -- `alt` falls through on recoverable errors only; `many0` stops on a
  -- recoverable error and includes nom's must-consume check.
  tla := fun i acc =>
    let step : PResult Token :=
      match parse_string i with
      | .ok (r, s) => .ok (r, Token.text s)
      | .error (.err _) =>
        match parse_placeholder i with
        | .ok (r, ph) => .ok (r, Token.placeholder ph)
        | .error (.err _) =>
          match parse_icon i with
          | .ok (r, s) => .ok (r, Token.icon s)
          | .error (.err _) =>
            match p.prt i with
            | .ok (r, t) => .ok (r, Token.recursive t)
            | .error e => .error e
          | .error e => .error e
        | .error e => .error e
      | .error e => .error e
    match step with
    | .error (.err _) => .ok (i, acc)
    | .error e => .error e
    | .ok (i1, tok) =>
      if i1.length = i.length then .error (.err (.other i .many0))
      else p.tla i1 (acc ++ [tok])
  -- preceded(char '{', cut(terminated(parse_format_template, char '}')))
  prt := fun i =>
    match charP '{' i with
    | .error e => .error e
    | .ok (i1, _) =>
      cutR (match p.pft i1 with
        | .error e => .error e
        | .ok (i2, tpl) =>
          match charP '}' i2 with
          | .error e => .error e
          | .ok (i3, _) => .ok (i3, tpl))

/-- The fuel tower. -/
def pack : Nat → ParserPack
  | 0 => packZero
  | f + 1 => packStep (pack f)

/-- `fn parse_format_template`. -/
def parse_format_template (fuel : Nat) (i : Str) : PResult FormatTemplate :=
  (pack fuel).pft i

/-- `fn parse_token_list`. -/
def parse_token_list (fuel : Nat) (i : Str) : PResult TokenList :=
  (pack fuel).tla i []

/-- `fn parse_recursive_template`. -/
def parse_recursive_template (fuel : Nat) (i : Str) : PResult FormatTemplate :=
  (pack fuel).prt i

/-- Default fuel for `parse_full`: far above what the grammar can consume
(every loop iteration eats at least one input character, and fuel drops by
at most four between consecutive character consumptions). -/
def defaultFuel (i : Str) : Nat := 4 * i.length + 4

/-- Rust `Debug` names of the error kinds, as interpolated by `{kind:?}`. -/
def ErrorKind.debugStr : ErrorKind → Str
  | .takeWhile1 => ("TakeWhile1").data
  | .tag => ("Tag").data
  | .notKind => ("Not").data
  | .escapedTransform => ("EscapedTransform").data
  | .many0 => ("Many0").data
  | .separatedList => ("SeparatedList").data
  | .eof => ("Eof").data

/-- The diagnostic strings of `parse_full`'s `Err` arm. -/
def renderPError : PError → Str
  | .expected e (some a) =>
    ("expected ").data ++ ['\''] ++ [e] ++ ['\''] ++ (", got ").data ++ ['\''] ++ [a] ++ ['\'']
  | .expected e none =>
    ("expected ").data ++ ['\''] ++ [e] ++ ['\''] ++ (", got EOF").data
  | .other input kind =>
    kind.debugStr ++ (" error near ").data ++ ['\''] ++ input ++ ['\'']

/-- The trailing-junk diagnostic: `format!("unexpected '{}'", first_char)`. -/
def unexpectedMsg (c : Char) : Str :=
  ("unexpected ").data ++ ['\''] ++ [c] ++ ['\'']

/-- `pub fn parse_full`: run `parse_format_template` on the whole input,
require an empty remainder (else name the first unconsumed character), and
translate parser errors into diagnostics.  The fuel case is the embedding's
artifact and is unreachable at `defaultFuel`. -/
def parse_full (i : Str) : Except Str FormatTemplate :=
  match parse_format_template (defaultFuel i) i with
  | .ok (rest, template) =>
    match rest with
    | [] => .ok template
    | c :: _ => .error (unexpectedMsg c)
  | .error (.err e) => .error (renderPError e)
  | .error (.fail e) => .error (renderPError e)
  | .error .fuel => .error (("out of fuel").data)

/-- `errors::CollectionExt::or_error` message for a missing value. -/
def missingValMsg (key : Str) : Str :=
  ("missing value for argument ").data ++ ['\''] ++ key ++ ['\'']

/-- `errors::CollectionExt::or_error` message for an unparseable value. -/
def invalidValMsg (key : Str) : Str :=
  ("invalid value for argument ").data ++ ['\''] ++ key ++ ['\'']

/-- `Arg::parse_value::<T>`, monomorphised: `fromStr` models `T::from_str`
(`none` = `Err`), and `tIsBool` models the static test
`TypeId::of::<T>() == TypeId::of::<bool>()`.  In the bool-and-absent case the
source runs `"true".parse().expect(…)`; the `expect` panic is unreachable
(for `T = bool`, `fromStr` accepts `"true"`) and modelled as a distinguished
error. -/
def Arg.parse_value {α : Type} (fromStr : Str → Option α) (tIsBool : Bool)
    (a : Arg) : Except Str α :=
  if tIsBool && a.val.isNone then
    match fromStr (("true").data) with
    | some v => .ok v
    | none => .error (("panic: true is valid bool").data)
  else
    match a.val with
    | none => .error (missingValMsg a.key)
    | some v =>
      match fromStr v with
      | some x => .ok x
      | none => .error (invalidValMsg a.key)

/-- Rust `bool::from_str`: accepts exactly `"true"` and `"false"`. -/
def boolFromStr (s : Str) : Option Bool :=
  if s = ("true").data then some true
  else if s = ("false").data then some false
  else none

/-! ## Claim-side definitions

These do not model source code; they formalise the vocabulary the claims are
stated in (character classes, pipe counting, trailing-backslash runs,
identifier well-formedness of an output tree). -/

/-- The ASCII identifier class `[A-Za-z0-9_-]` named by claim C4. -/
def asciiIdentChar (c : Char) : Bool :=
  ('a' ≤ c && c ≤ 'z') || ('A' ≤ c && c ≤ 'Z') || ('0' ≤ c && c ≤ '9')
  || c = '_' || c = '-'

/-- Claim C2's count: unescaped `|` characters outside any brace-delimited
`{…}` region, as a left-to-right scan that skips the character following a
backslash and tracks brace depth (`d`); only pipes at depth 0 are counted. -/
def topPipes : Str → Nat → Nat
  | [], _ => 0
  | c :: r, d =>
    if c = '\\' then
      match r with
      | [] => 0
      | _ :: r2 => topPipes r2 d
    else if c = '{' then topPipes r (d + 1)
    else if c = '}' then topPipes r (d - 1)
    else if c = '|' then (if d = 0 then 1 else 0) + topPipes r d
    else topPipes r d

/-- Length of the trailing maximal run of backslashes (claim C10). -/
def trailingBS (i : Str) : Nat :=
  (i.reverse.takeWhile (fun c => c = '\\')).length

mutual

/-- Every `Placeholder.name`, `Formatter.name`, `Arg.key` and `Icon` payload
in a token is non-empty and drawn from the character class `p`
(claim C4 and its correction use this with different classes). -/
def tokenNamesOk (p : Char → Bool) : Token → Bool
  | .text _ => true
  | .placeholder ph =>
    (!ph.name.isEmpty && ph.name.all p)
    && (match ph.formatter with
        | none => true
        | some f =>
          (!f.name.isEmpty && f.name.all p)
          && f.args.all (fun a => !a.key.isEmpty && a.key.all p))
  | .icon s => !s.isEmpty && s.all p
  | .recursive t => tplNamesOk p t

/-- `tokenNamesOk` over a whole template. -/
def tplNamesOk (p : Char → Bool) : FormatTemplate → Bool
  | [] => true
  | tl :: rest => tlNamesOk p tl && tplNamesOk p rest

/-- `tokenNamesOk` over one token list. -/
def tlNamesOk (p : Char → Bool) : TokenList → Bool
  | [] => true
  | tok :: rest => tokenNamesOk p tok && tlNamesOk p rest

end

/-- The input `$x.str(a:'|')`: the pipe sits inside a single-quoted argument
value, unescaped and outside any braces. -/
def c2Input : Str := ("$x.str(a:").data ++ ['\''] ++ ['|'] ++ ['\''] ++ [')']

def c2Output : FormatTemplate :=
  [[Token.placeholder (Placeholder.mk (("x").data)
    (some (Formatter.mk (("str").data) [Arg.mk (("a").data) (some ['|'])])))]]

/-- The input `$é`: `é` (U+00E9) satisfies Rust's Unicode
`char::is_alphanumeric`, so `alphanum1` accepts it as a placeholder name. -/
def c4Input : Str := ['$', 'é']

def c4Output : FormatTemplate := [[Token.placeholder (Placeholder.mk ['é'] none)]]

/-- Scan-neutral consumed material: scanning it changes neither the brace
depth nor the pipe count, at any depth (claim C2's correction). -/
def scanNeutral (w : Str) : Prop :=
  ∀ (k : Str) (d : Nat), topPipes (w ++ k) d = topPipes k d

/-- Neutral at every depth ≥ 1: the consumed body of a brace-delimited
sub-template contributes no top-level pipes. -/
def deepNeutral (w : Str) : Prop :=
  ∀ (k : Str) (d : Nat), 1 ≤ d → topPipes (w ++ k) d = topPipes k d

/-- No single-quote character anywhere in the input (hypothesis of the
corrected claim C2). -/
def noQuote (i : Str) : Prop := ∀ c ∈ i, ¬(c = '\'')

/-! ## Unfolding equations for the fueled grammar -/

theorem pft_step (f : Nat) (i : Str) :
    (pack (f + 1)).pft i =
      (match (pack f).tla i [] with
        | .error (.err _) => .ok (i, ([] : FormatTemplate))
        | .error e => .error e
        | .ok (i1, tl) => (pack f).tmplAux i1 [tl]) := rfl

theorem tmplAux_step (f : Nat) (i : Str) (acc : FormatTemplate) :
    (pack (f + 1)).tmplAux i acc =
      (match charP '|' i with
        | .error (.err _) => .ok (i, acc)
        | .error e => .error e
        | .ok (i1, _) =>
          if i1.length = i.length then .error (.err (.other i1 .separatedList))
          else
            match (pack f).tla i1 [] with
            | .error (.err _) => .ok (i, acc)
            | .error e => .error e
            | .ok (i2, tl) => (pack f).tmplAux i2 (acc ++ [tl])) := rfl

theorem tla_step (f : Nat) (i : Str) (acc : List Token) :
    (pack (f + 1)).tla i acc =
      (match (match parse_string i with
        | .ok (r, s) => .ok (r, Token.text s)
        | .error (.err _) =>
          match parse_placeholder i with
          | .ok (r, ph) => .ok (r, Token.placeholder ph)
          | .error (.err _) =>
            match parse_icon i with
            | .ok (r, s) => .ok (r, Token.icon s)
            | .error (.err _) =>
              match (pack f).prt i with
              | .ok (r, t) => .ok (r, Token.recursive t)
              | .error e => .error e
            | .error e => .error e
          | .error e => .error e
        | .error e => .error e : PResult Token) with
      | .error (.err _) => .ok (i, acc)
      | .error e => .error e
      | .ok (i1, tok) =>
        if i1.length = i.length then .error (.err (.other i .many0))
        else (pack f).tla i1 (acc ++ [tok])) := rfl

theorem prt_step (f : Nat) (i : Str) :
    (pack (f + 1)).prt i =
      (match charP '{' i with
        | .error e => .error e
        | .ok (i1, _) =>
          cutR (match (pack f).pft i1 with
            | .error e => .error e
            | .ok (i2, tpl) =>
              match charP '}' i2 with
              | .error e => .error e
              | .ok (i3, _) => .ok (i3, tpl))) := rfl

/-- The token alternation fails recoverably on empty input (every branch
needs at least one character), so `many0` stops there. -/
theorem tla_nil (f : Nat) (acc : List Token) :
    (pack (f + 2)).tla [] acc = .ok ([], acc) := rfl

/-- The separator loop stops at empty input. -/
theorem tmplAux_nil (f : Nat) (acc : FormatTemplate) :
    (pack (f + 1)).tmplAux [] acc = .ok ([], acc) := rfl

/-! ## List helpers -/

theorem twSelf {p : Char → Bool} : ∀ {s : Str}, (∀ c ∈ s, p c) → s.takeWhile p = s
  | [], _ => rfl
  | c :: r, h => by
    have hc : p c := h c (by simp)
    simp only [List.takeWhile_cons, hc]
    exact congrArg (c :: ·) (twSelf fun x hx => h x (by simp [hx]))

theorem dwNil {p : Char → Bool} : ∀ {s : Str}, (∀ c ∈ s, p c) → s.dropWhile p = []
  | [], _ => rfl
  | c :: r, h => by
    have hc : p c := h c (by simp)
    simp only [List.dropWhile_cons, hc]
    exact dwNil fun x hx => h x (by simp [hx])

theorem twAppend {p : Char → Bool} :
    ∀ {a : Str} (b : Str), (∀ c ∈ a, p c) → (a ++ b).takeWhile p = a ++ b.takeWhile p
  | [], b, _ => rfl
  | c :: r, b, h => by
    have hc : p c := h c (by simp)
    simp only [List.cons_append, List.takeWhile_cons, hc]
    exact congrArg (c :: ·) (twAppend b fun x hx => h x (by simp [hx]))

theorem dwAppend {p : Char → Bool} :
    ∀ {a : Str} (b : Str), (∀ c ∈ a, p c) → (a ++ b).dropWhile p = b.dropWhile p
  | [], _, _ => rfl
  | c :: r, b, h => by
    have hc : p c := h c (by simp)
    simp only [List.cons_append, List.dropWhile_cons, hc]
    exact dwAppend b fun x hx => h x (by simp [hx])

/-- `r.head?` fails the class: `takeWhile` takes nothing, `dropWhile` drops nothing. -/
theorem twHeadFalse {p : Char → Bool} {r : Str}
    (h : ∀ c, r.head? = some c → p c = false) :
    r.takeWhile p = [] ∧ r.dropWhile p = r := by
  cases r with
  | nil => exact ⟨rfl, rfl⟩
  | cons c t =>
    have := h c rfl
    simp [List.takeWhile_cons, List.dropWhile_cons, this]

/-! ## Elementary evaluation lemmas -/

/-- `alphanum1` takes exactly a maximal identifier run. -/
theorem alphanum1_exact {k r : Str} (hne : k ≠ []) (hk : ∀ c ∈ k, identChar c)
    (hr : ∀ c, r.head? = some c → identChar c = false) :
    alphanum1 (k ++ r) = .ok (r, k) := by
  cases k with
  | nil => exact absurd rfl hne
  | cons a k' =>
    have ha : identChar a := hk a (by simp)
    have htw : ((a :: k') ++ r).takeWhile identChar = (a :: k') ++ r.takeWhile identChar :=
      twAppend r hk
    have hdw : ((a :: k') ++ r).dropWhile identChar = r.dropWhile identChar :=
      dwAppend r hk
    obtain ⟨hr1, hr2⟩ := twHeadFalse hr
    show takeWhile1P identChar (a :: (k' ++ r)) = .ok (r, a :: k')
    simp only [takeWhile1P, if_pos ha]
    rw [show a :: (k' ++ r) = (a :: k') ++ r from rfl, htw, hdw, hr1, hr2]
    simp

/-- `escaped_transform` on pure text consumes everything verbatim. -/
theorem escTransGo_all {s : Str} (h : ∀ c ∈ s, textChar c) :
    ∀ (b : Bool) (acc : Str), escTransGo s b acc = .ok ([], acc ++ s) := by
  induction s with
  | nil => intro b acc; simp [escTransGo]
  | cons c r ih =>
    intro b acc
    have hc : textChar c := h c (by simp)
    have hbs : ¬(c = '\\') := by
      intro hh; rw [hh] at hc; simp [textChar] at hc
    unfold escTransGo
    rw [if_neg hbs, if_pos hc, ih (fun x hx => h x (by simp [hx]))]
    simp

/-- `parse_string` on non-empty pure text succeeds, consuming everything. -/
theorem parse_string_all {s : Str} (hne : s ≠ []) (h : ∀ c ∈ s, textChar c) :
    parse_string s = .ok ([], s) := by
  cases s with
  | nil => exact absurd rfl hne
  | cons c r =>
    show escTransGo (c :: r) true [] = .ok ([], c :: r)
    rw [escTransGo_all h true []]
    simp

/-- A non-empty all-text input parses as a single `Text` token list. -/
theorem pft_text (f : Nat) {s : Str} (hne : s ≠ []) (h : ∀ c ∈ s, textChar c) :
    parse_format_template (f + 4) s = .ok ([], [[Token.text s]]) := by
  have hps := parse_string_all hne h
  have hlen : ¬(([] : Str).length = s.length) := by
    cases s with
    | nil => exact absurd rfl hne
    | cons c r => simp
  have h1 : (pack (f + 3)).tla s [] = .ok ([], [Token.text s]) := by
    rw [tla_step, hps]
    show (if ([] : Str).length = s.length then (.error (.err (.other s .many0)) : PResult (List Token))
      else (pack (f + 2)).tla [] ([] ++ [Token.text s])) = .ok ([], [Token.text s])
    rw [if_neg hlen]
    exact tla_nil f [Token.text s]
  show (pack (f + 3 + 1)).pft s = .ok ([], [[Token.text s]])
  rw [pft_step, h1]
  show (pack (f + 3)).tmplAux [] [[Token.text s]] = .ok ([], [[Token.text s]])
  exact tmplAux_nil (f + 2) [[Token.text s]]

/-! ## Claim C5: the empty input -/

/-- C5: `parse_full ""` succeeds with exactly one `TokenList`, which is empty.
(`separated_list0` sees its first `parse_token_list` succeed consuming
nothing, the separator `|` then fails, so the result is `[[]]`.) -/
theorem c5_empty_input : parse_full [] = .ok [[]] := rfl

/-! ## Claim C1: full consumption -/

/-- C1: `parse_full` returns `Ok` only when `parse_format_template` consumed
the entire input, and a non-empty remainder turns into an error naming the
first unconsumed character (`unexpected '<c>'`). -/
theorem c1_full_consumption : ∀ i : Str,
    (∀ t, parse_full i = .ok t →
      parse_format_template (defaultFuel i) i = .ok ([], t))
    ∧ (∀ t c r, parse_format_template (defaultFuel i) i = .ok (c :: r, t) →
      parse_full i = .error (unexpectedMsg c)) := by
  intro i
  constructor
  · intro t h
    unfold parse_full at h
    cases hp : parse_format_template (defaultFuel i) i with
    | ok pr =>
      obtain ⟨rest, tpl⟩ := pr
      rw [hp] at h
      cases rest with
      | nil =>
        have : tpl = t := by simpa using h
        rw [this]
      | cons c r => simp at h
    | error e =>
      rw [hp] at h
      cases e <;> simp at h
  · intro t c r hp
    unfold parse_full
    rw [hp]

/-- Witness for C1 at the concrete input `"}"`: the template grammar stops
before the stray `}`, and `parse_full` reports it. -/
theorem c1_witness : parse_full (("\x7d").data) = .error (unexpectedMsg '}') :=
  (c1_full_consumption (("\x7d").data)).2 [[]] '}' [] rfl

/-! ## Claim C3: escape round-trip -/

/-- C3: text without any of the six specials parses to a single `Text`
token (one alternative), and a backslash followed by any single character
parses to that character as text. -/
theorem c3_text_and_escape :
    (∀ s : Str, s ≠ [] → (∀ c ∈ s, textChar c) →
      parse_full s = .ok [[Token.text s]])
    ∧ (∀ c : Char, parse_full ['\\', c] = .ok [[Token.text [c]]]) := by
  constructor
  · intro s hne h
    have hp := pft_text (4 * s.length) hne h
    unfold parse_full defaultFuel
    rw [hp]
  · intro c
    rfl

/-- Witness for C3 at `"hi"` and at `'q'`. -/
theorem c3_witness :
    parse_full (("hi").data) = .ok [[Token.text (("hi").data)]]
    ∧ parse_full ['\\', 'q'] = .ok [[Token.text ['q']]] :=
  ⟨c3_text_and_escape.1 (("hi").data) (by decide) (by decide),
   c3_text_and_escape.2 'q'⟩

/-! ## Claim C7: argument commit discipline -/

/-- C7: a bare identifier key (not followed by `:`) parses with `val = none`;
once the `:` after a key is consumed, a recoverable value error becomes a
committed `Failure` of the whole parse (no fallback to the bare-key shape);
and `"( key:, )"` as an argument list fails expecting the quote opener at
the `,` (the bare-value branch's error having been superseded by the quoted
branch's, which `PError::or` keeps). -/
theorem c7_arg_commit :
    (∀ k r : Str, k ≠ [] → (∀ c ∈ k, identChar c) →
      (∀ c, r.head? = some c → identChar c = false ∧ c ≠ ':') →
      parse_arg (k ++ r) = .ok (r, Arg.mk k none))
    ∧ (∀ (k r : Str) (e : PError), k ≠ [] → (∀ c ∈ k, identChar c) →
      arg1 r = .error (.err e) →
      parse_arg (k ++ ':' :: r) = .error (.fail e))
    ∧ parse_args (("( key:, )").data) = .error (.fail (.expected '\'' (some ','))) := by
  refine ⟨?_, ?_, rfl⟩
  · intro k r hne hk hr
    have halph : alphanum1 (k ++ r) = .ok (r, k) :=
      alphanum1_exact hne hk (fun c hc => (hr c hc).1)
    have hcol : charP ':' r = .error (.err (.expected ':' r.head?)) := by
      cases r with
      | nil => rfl
      | cons c t =>
        have := (hr c rfl).2
        simp only [charP, if_neg this]
        rfl
    simp only [parse_arg, halph, hcol]
  · intro k r e hne hk harg
    have halph : alphanum1 (k ++ ':' :: r) = .ok (':' :: r, k) :=
      alphanum1_exact hne hk (by intro c hc; cases hc; decide)
    have hcp : charP ':' (':' :: r) = .ok (r, ':') := rfl
    simp only [parse_arg, halph, hcp, harg, cutR]

/-- Witness for C7: `"key,"` parses as a bare-key argument with `','`
remaining, and `"key:,"` is a committed failure expecting the quote opener. -/
theorem c7_witness :
    parse_arg ((("key").data) ++ ((",").data)) = .ok (((",").data), Arg.mk (("key").data) none)
    ∧ parse_arg ((("key").data) ++ ':' :: [',']) = .error (.fail (.expected '\'' (some ','))) :=
  ⟨c7_arg_commit.1 (("key").data) ((",").data) (by decide) (by decide) (by decide),
   c7_arg_commit.2.1 (("key").data) [','] (.expected '\'' (some ',')) (by decide) (by decide) rfl⟩

/-! ## Claim C8: committed prefixes `$` and `^` -/

/-- C8: after `$` (and the formatter dot) or `^` is consumed, the required
continuation is mandatory: `"$key."`, `"^icon_"` and `"^2"` all make the
whole parse fail (as committed `Failure`s of the sub-parsers, surfacing as
`parse_full` errors), instead of being reinterpreted as text or icon. -/
theorem c8_committed_prefixes :
    parse_placeholder (("$key.").data) = .error (.fail (.other [] .takeWhile1))
    ∧ parse_icon (("^icon_").data) = .error (.fail (.other [] .takeWhile1))
    ∧ parse_icon (("^2").data) = .error (.fail (.other (("2").data) .tag))
    ∧ parse_full (("$key.").data) = .error (renderPError (.other [] .takeWhile1))
    ∧ parse_full (("^icon_").data) = .error (renderPError (.other [] .takeWhile1))
    ∧ parse_full (("^2").data) = .error (renderPError (.other (("2").data) .tag)) :=
  ⟨rfl, rfl, rfl, rfl, rfl, rfl⟩

/-! ## Claim C9: `Arg::parse_value` -/

/-- C9: with the target type `bool` and an absent value, `parse_value`
yields `Ok(true)`; in every other case the value must be present and parse,
and the error message on absence or parse failure names the argument key. -/
theorem c9_parse_value :
    (∀ a : Arg, a.val = none → Arg.parse_value boolFromStr true a = .ok true)
    ∧ (∀ (α : Type) (fs : Str → Option α) (tb : Bool) (a : Arg),
      ¬(tb = true ∧ a.val = none) →
      (a.val = none → Arg.parse_value fs tb a = .error (missingValMsg a.key))
      ∧ (∀ v, a.val = some v → fs v = none →
          Arg.parse_value fs tb a = .error (invalidValMsg a.key))
      ∧ (∀ v x, a.val = some v → fs v = some x →
          Arg.parse_value fs tb a = .ok x)) := by
  constructor
  · intro a h
    simp [Arg.parse_value, h, boolFromStr]
  · intro α fs tb a hyp
    refine ⟨?_, ?_, ?_⟩
    · intro h
      have htb : tb = false := by
        cases tb with
        | false => rfl
        | true => exact absurd ⟨rfl, h⟩ hyp
      simp [Arg.parse_value, h, htb]
    · intro v hv hfs
      simp [Arg.parse_value, hv, hfs]
    · intro v x hv hfs
      simp [Arg.parse_value, hv, hfs]

/-- Witness for C9: a bare `show` argument coerced to `bool` is `true`; a
bare key coerced to a non-bool errors naming the key; `"3"` parses. -/
theorem c9_witness :
    Arg.parse_value boolFromStr true (Arg.mk (("show").data) none) = .ok true
    ∧ Arg.parse_value boolFromStr false (Arg.mk (("show").data) none)
      = .error (missingValMsg (("show").data))
    ∧ Arg.parse_value boolFromStr false (Arg.mk (("b").data) (some (("true").data)))
      = .ok true :=
  ⟨(c9_parse_value.1 (Arg.mk (("show").data) none) rfl),
   ((c9_parse_value.2 Bool boolFromStr false (Arg.mk (("show").data) none)
      (by simp)).1 rfl),
   ((c9_parse_value.2 Bool boolFromStr false (Arg.mk (("b").data) (some (("true").data)))
      (by simp)).2.2 (("true").data) true rfl rfl)⟩

/-! ## Claim C2, counterexample: a pipe inside a quoted argument value -/

/-- Counterexample to C2 as stated: `$x.str(a:'|')` parses successfully with
exactly one alternative, yet it contains one unescaped `|` outside any
braces, so the claimed count `n + 1 = 2` is wrong. -/
theorem c2_counterexample :
    parse_full c2Input = .ok c2Output
    ∧ topPipes c2Input 0 = 1
    ∧ c2Output.length ≠ topPipes c2Input 0 + 1 :=
  ⟨rfl, rfl, by decide⟩

/-! ## Claim C4, counterexample: a non-ASCII alphanumeric identifier -/

/-- Counterexample to C4 as stated: `$é` parses successfully, but the
placeholder name `é` is not in the ASCII class `[A-Za-z0-9_-]`. -/
theorem c4_counterexample :
    parse_full c4Input = .ok c4Output
    ∧ tplNamesOk asciiIdentChar c4Output = false :=
  ⟨rfl, by simp only [tplNamesOk, tlNamesOk, tokenNamesOk]; decide⟩

/-! ## Claim C10: trailing-backslash parity

Every parser in the grammar preserves the parity of the trailing backslash
run between its input and its remainder: consumed material is either
backslash-free, ends in a known non-backslash character, or (in
`parse_string`) eats backslashes in escape pairs.  Hence an input whose
trailing run is odd can never be consumed completely, and `parse_full`
always reports an error on it. -/

theorem twAppendLen {q : Char → Bool} : ∀ (xs ys : Str),
    (∀ c, ys.head? = some c → q c = false) →
    (xs ++ ys).takeWhile q = xs.takeWhile q
  | [], ys, hy => (twHeadFalse hy).1
  | c :: xs, ys, hy => by
    simp only [List.cons_append, List.takeWhile_cons]
    cases hq : q c with
    | false => rfl
    | true => rw [twAppendLen xs ys hy]

theorem twAppendStop {q : Char → Bool} : ∀ (xs ys : Str),
    xs.dropWhile q ≠ [] → (xs ++ ys).takeWhile q = xs.takeWhile q
  | [], _, h => absurd rfl h
  | c :: xs, ys, h => by
    simp only [List.dropWhile_cons] at h
    simp only [List.cons_append, List.takeWhile_cons]
    cases hq : q c with
    | false => rfl
    | true =>
      rw [hq] at h
      simp only [if_pos rfl] at h
      rw [twAppendStop xs ys h]

theorem dwNilAll {q : Char → Bool} : ∀ {xs : Str}, xs.dropWhile q = [] → ∀ c ∈ xs, q c
  | [], _, c, hc => absurd hc (by simp)
  | x :: xs, h, c, hc => by
    simp only [List.dropWhile_cons] at h
    cases hq : q x with
    | false => rw [hq] at h; simp at h
    | true =>
      rw [hq] at h
      simp only [if_pos rfl] at h
      rcases List.mem_cons.mp hc with hcx | hcs
      · rw [hcx]; exact hq
      · exact dwNilAll h c hcs

/-- Consumed material whose last character is not a backslash leaves the
trailing backslash run untouched. -/
theorem lastNB {w : Str} (r : Str) (hw : ∀ c, w.getLast? = some c → ¬(c = '\\')) :
    trailingBS (w ++ r) = trailingBS r := by
  unfold trailingBS
  rw [List.reverse_append, twAppendLen r.reverse w.reverse]
  intro c hc
  rw [List.head?_reverse] at hc
  exact decide_eq_false (hw c hc)

/-- An escape pair at the front preserves the parity of the trailing run. -/
theorem pairStep (c : Char) (r : Str) :
    trailingBS ('\\' :: c :: r) % 2 = trailingBS r % 2 := by
  unfold trailingBS
  have hrev : ('\\' :: c :: r).reverse = r.reverse ++ [c, '\\'] := by
    simp
  rw [hrev]
  by_cases hstop : r.reverse.dropWhile (fun x => (x = '\\' : Bool)) = []
  · have hall := dwNilAll hstop
    rw [twAppend [c, '\\'] hall]
    have hlen : (r.reverse.takeWhile (fun x => (x = '\\' : Bool))) = r.reverse :=
      twSelf hall
    rw [hlen, List.length_append]
    cases hc : (c = '\\' : Bool) with
    | true =>
      have : ([c, '\\'].takeWhile (fun x => (x = '\\' : Bool))) = [c, '\\'] := by
        simp only [List.takeWhile_cons, hc]
        simp
      rw [this]
      simp [Nat.add_mod_right]
    | false =>
      have : ([c, '\\'].takeWhile (fun x => (x = '\\' : Bool))) = [] := by
        simp only [List.takeWhile_cons, hc]
        simp
      rw [this]
      simp
  · rw [twAppendStop r.reverse [c, '\\'] hstop]

/-- Dropping a class that excludes backslash preserves the trailing run. -/
theorem twDwTrailing {p : Char → Bool} (hp : p '\\' = false) (i : Str) :
    trailingBS i = trailingBS (i.dropWhile p) := by
  conv_lhs => rw [← List.takeWhile_append_dropWhile (p := p) (l := i)]
  refine lastNB _ ?_
  intro c hc
  have hmem : c ∈ i.takeWhile p := by
    obtain ⟨hne, hc2⟩ := List.mem_getLast?_eq_getLast (l := i.takeWhile p) (x := c) hc
    rw [hc2]
    exact List.getLast_mem hne
  have hpc : p c := List.mem_takeWhile_imp hmem
  intro hbs
  rw [hbs] at hpc
  rw [hp] at hpc
  exact Bool.noConfusion hpc

theorem charP_ok {c : Char} {i r : Str} {v : Char} (h : charP c i = .ok (r, v)) :
    i = c :: r ∧ v = c := by
  cases i with
  | nil => simp [charP] at h
  | cons x rest =>
    simp only [charP] at h
    by_cases hx : x = c
    · rw [if_pos hx] at h
      injection h with h'
      obtain ⟨hr, hv⟩ := Prod.mk.inj h'
      exact ⟨by rw [hx, hr], hv.symm⟩
    · rw [if_neg hx] at h
      exact absurd h (by simp)

theorem charP_parity {c : Char} (hc : ¬(c = '\\')) {i r : Str} {v : Char}
    (h : charP c i = .ok (r, v)) : trailingBS i = trailingBS r := by
  obtain ⟨hi, -⟩ := charP_ok h
  rw [hi]
  refine lastNB (w := [c]) _ ?_
  intro a ha
  have hax : c = a := by
    simp only [List.getLast?_singleton, Option.some.injEq] at ha
    exact ha
  rw [← hax]
  exact hc

theorem takeWhile1P_ok {p : Char → Bool} {i r v : Str}
    (h : takeWhile1P p i = .ok (r, v)) :
    r = i.dropWhile p ∧ v = i.takeWhile p ∧ v ≠ [] := by
  cases i with
  | nil => simp [takeWhile1P] at h
  | cons x rest =>
    simp only [takeWhile1P] at h
    by_cases hx : p x
    · rw [if_pos hx] at h
      injection h with h'
      obtain ⟨hr, hv⟩ := Prod.mk.inj h'
      refine ⟨hr.symm, hv.symm, ?_⟩
      rw [← hv]
      simp [List.takeWhile_cons, hx]
    · rw [if_neg hx] at h
      exact absurd h (by simp)

theorem takeWhile1P_parity {p : Char → Bool} (hp : p '\\' = false) {i r v : Str}
    (h : takeWhile1P p i = .ok (r, v)) : trailingBS i = trailingBS r := by
  obtain ⟨hr, -, -⟩ := takeWhile1P_ok h
  rw [hr]
  exact twDwTrailing hp i

theorem alphanum1_parity {i r v : Str} (h : alphanum1 i = .ok (r, v)) :
    trailingBS i = trailingBS r :=
  takeWhile1P_parity (by decide) h

theorem tagP_ok {t i r v : Str} (h : tagP t i = .ok (r, v)) : i = t ++ r := by
  unfold tagP at h
  by_cases hpre : t.isPrefixOf i
  · rw [if_pos hpre] at h
    injection h with h'
    obtain ⟨s, hs⟩ := List.isPrefixOf_iff_prefix.mp hpre
    have hr : r = i.drop t.length := by
      have := congrArg Prod.fst h'
      simpa using this.symm
    rw [hr, ← hs, List.drop_left]
  · rw [if_neg hpre] at h
    exact absurd h (by simp)

theorem tagP_parity {t i r v : Str} (ht : ∀ c, t.getLast? = some c → ¬(c = '\\'))
    (h : tagP t i = .ok (r, v)) : trailingBS i = trailingBS r := by
  rw [tagP_ok h]
  exact lastNB r ht

theorem arg1_parity {i r v : Str} (h : arg1 i = .ok (r, v)) :
    trailingBS i = trailingBS r := by
  cases hb : takeWhile1P bareChar i with
  | ok pr =>
    obtain ⟨r1, v1⟩ := pr
    unfold arg1 at h
    rw [hb] at h
    injection h with h'
    obtain ⟨hr, -⟩ := Prod.mk.inj h'
    rw [← hr]
    exact takeWhile1P_parity (by decide) hb
  | error e =>
    cases e with
    | err pe =>
      cases hq : charP '\'' i with
      | error e2 =>
        simp only [arg1, hb, hq] at h
        exact absurd h (by cases e2 <;> simp)
      | ok pr2 =>
        obtain ⟨i1, q⟩ := pr2
        cases hq2 : charP '\'' (i1.dropWhile (fun c => c ≠ '\'')) with
        | error e3 =>
          simp only [arg1, hb, hq, hq2, cutR] at h
          exact absurd h (by cases e3 <;> simp [cutR])
        | ok pr3 =>
          obtain ⟨i2, q2⟩ := pr3
          simp only [arg1, hb, hq, hq2, cutR] at h
          injection h with h'
          obtain ⟨hr, -⟩ := Prod.mk.inj h'
          obtain ⟨hi, -⟩ := charP_ok hq
          obtain ⟨hi1, -⟩ := charP_ok hq2
          have hsplit : i1 = i1.takeWhile (fun c => c ≠ '\'') ++ ('\'' :: i2) := by
            conv_lhs => rw [← List.takeWhile_append_dropWhile
              (p := fun c => c ≠ '\'') (l := i1)]
            rw [hi1]
          have hw : i = (('\'' :: i1.takeWhile (fun c => c ≠ '\'')) ++ ['\'']) ++ i2 := by
            conv_lhs => rw [hi, hsplit]
            simp only [List.cons_append, List.append_assoc, List.singleton_append,
              List.nil_append]
          rw [← hr, hw]
          refine lastNB (w := ('\'' :: i1.takeWhile (fun c => c ≠ '\'')) ++ ['\'']) _ ?_
          intro a ha
          rw [List.getLast?_concat] at ha
          injection ha with ha'
          rw [← ha']
          decide
    | fail pe =>
      unfold arg1 at h
      rw [hb] at h
      exact absurd h (by simp)
    | fuel =>
      unfold arg1 at h
      rw [hb] at h
      exact absurd h (by simp)

theorem parse_arg_parity {i r : Str} {a : Arg} (h : parse_arg i = .ok (r, a)) :
    trailingBS i = trailingBS r := by
  cases h1 : alphanum1 i with
  | error e1 =>
    cases e1 <;> (simp only [parse_arg, h1] at h; exact Except.noConfusion h)
  | ok pr =>
    obtain ⟨i1, key⟩ := pr
    cases h2 : charP ':' i1 with
    | ok pr2 =>
      obtain ⟨i2, col⟩ := pr2
      cases h3 : arg1 i2 with
      | ok pr3 =>
        obtain ⟨i3, v⟩ := pr3
        simp only [parse_arg, h1, h2, h3, cutR] at h
        injection h with h'
        obtain ⟨hr, -⟩ := Prod.mk.inj h'
        rw [← hr]
        calc trailingBS i = trailingBS i1 := alphanum1_parity h1
          _ = trailingBS i2 := charP_parity (by decide) h2
          _ = trailingBS i3 := arg1_parity h3
      | error e3 =>
        cases e3 <;>
          (simp only [parse_arg, h1, h2, h3, cutR] at h; exact Except.noConfusion h)
    | error e2 =>
      cases e2 with
      | err pe =>
        simp only [parse_arg, h1, h2] at h
        injection h with h'
        obtain ⟨hr, -⟩ := Prod.mk.inj h'
        rw [← hr]
        exact alphanum1_parity h1
      | fail pe =>
        simp only [parse_arg, h1, h2] at h
        exact Except.noConfusion h
      | fuel =>
        simp only [parse_arg, h1, h2] at h
        exact Except.noConfusion h

theorem argListAux_parity : ∀ (f : Nat) (i : Str) (acc : List Arg) (r : Str) (v : List Arg),
    argListAux f i acc = .ok (r, v) → trailingBS i = trailingBS r := by
  intro f
  induction f with
  | zero => intro i acc r v h; exact Except.noConfusion h
  | succ f ih =>
    intro i acc r v h
    unfold argListAux at h
    cases h2 : charP ',' (i.dropWhile isAsciiWS) with
    | error e2 =>
      cases e2 with
      | err pe =>
        simp only [h2] at h
        injection h with h'
        obtain ⟨hr, -⟩ := Prod.mk.inj h'
        rw [← hr]
      | fail pe => simp only [h2] at h; exact Except.noConfusion h
      | fuel => simp only [h2] at h; exact Except.noConfusion h
    | ok pr2 =>
      obtain ⟨i1, comma⟩ := pr2
      simp only [h2] at h
      by_cases hlen : i1.length = i.length
      · rw [if_pos hlen] at h
        exact Except.noConfusion h
      · rw [if_neg hlen] at h
        cases h3 : parse_arg (i1.dropWhile isAsciiWS) with
        | error e3 =>
          cases e3 with
          | err pe =>
            simp only [h3] at h
            injection h with h'
            obtain ⟨hr, -⟩ := Prod.mk.inj h'
            rw [← hr]
          | fail pe => simp only [h3] at h; exact Except.noConfusion h
          | fuel => simp only [h3] at h; exact Except.noConfusion h
        | ok pr3 =>
          obtain ⟨i2, a⟩ := pr3
          simp only [h3] at h
          calc trailingBS i
              = trailingBS (i.dropWhile isAsciiWS) := twDwTrailing (by decide) i
            _ = trailingBS i1 := charP_parity (by decide) h2
            _ = trailingBS (i1.dropWhile isAsciiWS) := twDwTrailing (by decide) i1
            _ = trailingBS i2 := parse_arg_parity h3
            _ = trailingBS r := ih i2 (acc ++ [a]) r v h

theorem argsInner_parity {fuel : Nat} {i r : Str} {v : List Arg}
    (h : argsInner fuel i = .ok (r, v)) : trailingBS i = trailingBS r := by
  unfold argsInner at h
  cases h1 : parse_arg (i.dropWhile isAsciiWS) with
  | error e1 =>
    cases e1 with
    | err pe =>
      simp only [h1] at h
      injection h with h'
      obtain ⟨hr, -⟩ := Prod.mk.inj h'
      rw [← hr]
    | fail pe => simp only [h1] at h; exact Except.noConfusion h
    | fuel => simp only [h1] at h; exact Except.noConfusion h
  | ok pr =>
    obtain ⟨i1, a⟩ := pr
    simp only [h1] at h
    calc trailingBS i
        = trailingBS (i.dropWhile isAsciiWS) := twDwTrailing (by decide) i
      _ = trailingBS i1 := parse_arg_parity h1
      _ = trailingBS r := argListAux_parity fuel i1 [a] r v h

theorem parse_args_parity {i r : Str} {v : List Arg}
    (h : parse_args i = .ok (r, v)) : trailingBS i = trailingBS r := by
  unfold parse_args at h
  cases h1 : charP '(' i with
  | error e1 => simp only [h1] at h; exact Except.noConfusion h
  | ok pr =>
    obtain ⟨i1, paren⟩ := pr
    simp only [h1] at h
    cases h2 : argsInner (i1.length + 1) i1 with
    | error e2 =>
      cases e2 <;> (simp only [h2, cutR] at h; exact Except.noConfusion h)
    | ok pr2 =>
      obtain ⟨i2, args⟩ := pr2
      simp only [h2] at h
      cases h3 : charP ')' (i2.dropWhile isAsciiWS) with
      | error e3 =>
        cases e3 <;> (simp only [h3, cutR] at h; exact Except.noConfusion h)
      | ok pr3 =>
        obtain ⟨i3, paren2⟩ := pr3
        simp only [h3, cutR] at h
        injection h with h'
        obtain ⟨hr, -⟩ := Prod.mk.inj h'
        rw [← hr]
        calc trailingBS i = trailingBS i1 := charP_parity (by decide) h1
          _ = trailingBS i2 := argsInner_parity h2
          _ = trailingBS (i2.dropWhile isAsciiWS) := twDwTrailing (by decide) i2
          _ = trailingBS i3 := charP_parity (by decide) h3

theorem optR_parity {α : Type} {i0 : Str} {sub : PResult α} {r : Str} {o : Option α}
    (hsub : ∀ r' v', sub = .ok (r', v') → trailingBS i0 = trailingBS r')
    (h : optR i0 sub = .ok (r, o)) : trailingBS i0 = trailingBS r := by
  cases sub with
  | ok pr =>
    obtain ⟨r', v'⟩ := pr
    simp only [optR] at h
    injection h with h'
    obtain ⟨hr, -⟩ := Prod.mk.inj h'
    rw [← hr]
    exact hsub r' v' rfl
  | error e =>
    cases e with
    | err pe =>
      simp only [optR] at h
      injection h with h'
      obtain ⟨hr, -⟩ := Prod.mk.inj h'
      rw [← hr]
    | fail pe => simp only [optR] at h; exact Except.noConfusion h
    | fuel => simp only [optR] at h; exact Except.noConfusion h

theorem parse_formatter_parity {i r : Str} {v : Formatter}
    (h : parse_formatter i = .ok (r, v)) : trailingBS i = trailingBS r := by
  unfold parse_formatter at h
  cases h1 : charP '.' i with
  | error e1 => simp only [h1] at h; exact Except.noConfusion h
  | ok pr =>
    obtain ⟨i1, dot⟩ := pr
    simp only [h1] at h
    cases h2 : alphanum1 i1 with
    | error e2 =>
      cases e2 <;> (simp only [h2, cutR] at h; exact Except.noConfusion h)
    | ok pr2 =>
      obtain ⟨i2, name⟩ := pr2
      simp only [h2] at h
      cases h3 : optR i2 (parse_args i2) with
      | error e3 =>
        cases e3 <;> (simp only [h3, cutR] at h; exact Except.noConfusion h)
      | ok pr3 =>
        obtain ⟨i3, args⟩ := pr3
        simp only [h3, cutR] at h
        injection h with h'
        obtain ⟨hr, -⟩ := Prod.mk.inj h'
        rw [← hr]
        calc trailingBS i = trailingBS i1 := charP_parity (by decide) h1
          _ = trailingBS i2 := alphanum1_parity h2
          _ = trailingBS i3 := optR_parity (fun r' v' hs => parse_args_parity hs) h3

theorem parse_placeholder_parity {i r : Str} {v : Placeholder}
    (h : parse_placeholder i = .ok (r, v)) : trailingBS i = trailingBS r := by
  unfold parse_placeholder at h
  cases h1 : charP '$' i with
  | error e1 => simp only [h1] at h; exact Except.noConfusion h
  | ok pr =>
    obtain ⟨i1, dollar⟩ := pr
    simp only [h1] at h
    cases h2 : alphanum1 i1 with
    | error e2 =>
      cases e2 <;> (simp only [h2, cutR] at h; exact Except.noConfusion h)
    | ok pr2 =>
      obtain ⟨i2, name⟩ := pr2
      simp only [h2] at h
      cases h3 : optR i2 (parse_formatter i2) with
      | error e3 =>
        cases e3 <;> (simp only [h3, cutR] at h; exact Except.noConfusion h)
      | ok pr3 =>
        obtain ⟨i3, fmt⟩ := pr3
        simp only [h3, cutR] at h
        injection h with h'
        obtain ⟨hr, -⟩ := Prod.mk.inj h'
        rw [← hr]
        calc trailingBS i = trailingBS i1 := charP_parity (by decide) h1
          _ = trailingBS i2 := alphanum1_parity h2
          _ = trailingBS i3 := optR_parity (fun r' v' hs => parse_formatter_parity hs) h3

theorem parse_icon_parity {i r v : Str}
    (h : parse_icon i = .ok (r, v)) : trailingBS i = trailingBS r := by
  unfold parse_icon at h
  cases h1 : charP '^' i with
  | error e1 => simp only [h1] at h; exact Except.noConfusion h
  | ok pr =>
    obtain ⟨i1, caret⟩ := pr
    simp only [h1] at h
    cases h2 : tagP (("icon_").data) i1 with
    | error e2 =>
      cases e2 <;> (simp only [h2, cutR] at h; exact Except.noConfusion h)
    | ok pr2 =>
      obtain ⟨i2, tg⟩ := pr2
      simp only [h2] at h
      cases h3 : alphanum1 i2 with
      | error e3 =>
        cases e3 <;> (simp only [h3, cutR] at h; exact Except.noConfusion h)
      | ok pr3 =>
        obtain ⟨i3, name⟩ := pr3
        simp only [h3, cutR] at h
        injection h with h'
        obtain ⟨hr, -⟩ := Prod.mk.inj h'
        rw [← hr]
        calc trailingBS i = trailingBS i1 := charP_parity (by decide) h1
          _ = trailingBS i2 := tagP_parity (by decide) h2
          _ = trailingBS i3 := alphanum1_parity h3

theorem escTransGo_parity : ∀ (n : Nat) (i : Str), i.length ≤ n →
    ∀ (b : Bool) (acc r s : Str), escTransGo i b acc = .ok (r, s) →
    trailingBS i % 2 = trailingBS r % 2 := by
  intro n
  induction n with
  | zero =>
    intro i hlen b acc r s h
    have : i = [] := List.length_eq_zero.mp (Nat.le_zero.mp hlen)
    subst this
    simp only [escTransGo] at h
    injection h with h'
    obtain ⟨hr, -⟩ := Prod.mk.inj h'
    rw [← hr]
  | succ n ih =>
    intro i hlen b acc r s h
    cases i with
    | nil =>
      simp only [escTransGo] at h
      injection h with h'
      obtain ⟨hr, -⟩ := Prod.mk.inj h'
      rw [← hr]
    | cons c rest =>
      have hcstep : ¬(c = '\\') → trailingBS (c :: rest) = trailingBS rest := by
        intro hbs
        refine lastNB (w := [c]) _ ?_
        intro a ha
        have hax : c = a := by
          simp only [List.getLast?_singleton, Option.some.injEq] at ha
          exact ha
        rw [← hax]
        exact hbs
      cases rest with
      | nil =>
        simp only [escTransGo] at h
        by_cases hbs : c = '\\'
        · rw [if_pos hbs] at h
          exact Except.noConfusion h
        · rw [if_neg hbs] at h
          by_cases htc : textChar c
          · rw [if_pos htc] at h
            injection h with h'
            obtain ⟨hr, -⟩ := Prod.mk.inj h'
            rw [← hr, hcstep hbs]
          · rw [if_neg htc] at h
            cases b with
            | true => exact Except.noConfusion h
            | false =>
              rw [if_neg Bool.false_ne_true] at h
              injection h with h'
              obtain ⟨hr, -⟩ := Prod.mk.inj h'
              rw [← hr]
      | cons c2 rest2 =>
        simp only [escTransGo] at h
        by_cases hbs : c = '\\'
        · rw [if_pos hbs] at h
          have hlen2 : rest2.length ≤ n := by
            simp only [List.length_cons] at hlen
            omega
          have hrec := ih rest2 hlen2 false (acc ++ [c2]) r s h
          rw [hbs, pairStep c2 rest2]
          exact hrec
        · rw [if_neg hbs] at h
          by_cases htc : textChar c
          · rw [if_pos htc] at h
            have hlen2 : (c2 :: rest2).length ≤ n := by
              simp only [List.length_cons] at hlen
              simp only [List.length_cons]
              omega
            have hrec := ih (c2 :: rest2) hlen2 false (acc ++ [c]) r s h
            rw [hcstep hbs]
            exact hrec
          · rw [if_neg htc] at h
            cases b with
            | true => exact Except.noConfusion h
            | false =>
              rw [if_neg Bool.false_ne_true] at h
              injection h with h'
              obtain ⟨hr, -⟩ := Prod.mk.inj h'
              rw [← hr]

theorem parse_string_parity {i r s : Str}
    (h : parse_string i = .ok (r, s)) : trailingBS i % 2 = trailingBS r % 2 := by
  cases i with
  | nil => exact Except.noConfusion h
  | cons c rest =>
    exact escTransGo_parity (c :: rest).length (c :: rest) (Nat.le_refl _) true [] r s h

/-- Every level of the fueled grammar preserves the parity of the trailing
backslash run between input and remainder. -/
theorem pack_parity : ∀ f : Nat,
    (∀ i r v, (pack f).pft i = .ok (r, v) → trailingBS i % 2 = trailingBS r % 2)
    ∧ (∀ i acc r v, (pack f).tmplAux i acc = .ok (r, v) →
        trailingBS i % 2 = trailingBS r % 2)
    ∧ (∀ i acc r v, (pack f).tla i acc = .ok (r, v) →
        trailingBS i % 2 = trailingBS r % 2)
    ∧ (∀ i r v, (pack f).prt i = .ok (r, v) → trailingBS i % 2 = trailingBS r % 2) := by
  intro f
  induction f with
  | zero =>
    refine ⟨?_, ?_, ?_, ?_⟩ <;> · intros
                                  exact Except.noConfusion (by assumption : _ = Except.ok _)
  | succ f ih =>
    obtain ⟨ihpft, ihtmpl, ihtla, ihprt⟩ := ih
    refine ⟨?_, ?_, ?_, ?_⟩
    · intro i r v h
      rw [pft_step] at h
      cases h1 : (pack f).tla i [] with
      | error e1 =>
        cases e1 with
        | err pe =>
          simp only [h1] at h
          injection h with h'
          obtain ⟨hr, -⟩ := Prod.mk.inj h'
          rw [← hr]
        | fail pe => simp only [h1] at h; exact Except.noConfusion h
        | fuel => simp only [h1] at h; exact Except.noConfusion h
      | ok pr =>
        obtain ⟨i1, tl⟩ := pr
        simp only [h1] at h
        rw [ihtla i [] i1 tl h1]
        exact ihtmpl i1 [tl] r v h
    · intro i acc r v h
      rw [tmplAux_step] at h
      cases h1 : charP '|' i with
      | error e1 =>
        cases e1 with
        | err pe =>
          simp only [h1] at h
          injection h with h'
          obtain ⟨hr, -⟩ := Prod.mk.inj h'
          rw [← hr]
        | fail pe => simp only [h1] at h; exact Except.noConfusion h
        | fuel => simp only [h1] at h; exact Except.noConfusion h
      | ok pr =>
        obtain ⟨i1, sep⟩ := pr
        simp only [h1] at h
        by_cases hlen : i1.length = i.length
        · rw [if_pos hlen] at h
          exact Except.noConfusion h
        · rw [if_neg hlen] at h
          cases h2 : (pack f).tla i1 [] with
          | error e2 =>
            cases e2 with
            | err pe =>
              simp only [h2] at h
              injection h with h'
              obtain ⟨hr, -⟩ := Prod.mk.inj h'
              rw [← hr]
            | fail pe => simp only [h2] at h; exact Except.noConfusion h
            | fuel => simp only [h2] at h; exact Except.noConfusion h
          | ok pr2 =>
            obtain ⟨i2, tl⟩ := pr2
            simp only [h2] at h
            rw [charP_parity (by decide) h1, ihtla i1 [] i2 tl h2]
            exact ihtmpl i2 (acc ++ [tl]) r v h
    · intro i acc r v h
      rw [tla_step] at h
      cases hs : parse_string i with
      | ok pr =>
        obtain ⟨r1, s1⟩ := pr
        simp only [hs] at h
        by_cases hlen : r1.length = i.length
        · rw [if_pos hlen] at h
          exact Except.noConfusion h
        · rw [if_neg hlen] at h
          rw [parse_string_parity hs]
          exact ihtla r1 (acc ++ [Token.text s1]) r v h
      | error es =>
        cases es with
        | fail pe => simp only [hs] at h; exact Except.noConfusion h
        | fuel => simp only [hs] at h; exact Except.noConfusion h
        | err pe =>
          cases hp : parse_placeholder i with
          | ok pr =>
            obtain ⟨r1, ph⟩ := pr
            simp only [hs, hp] at h
            by_cases hlen : r1.length = i.length
            · rw [if_pos hlen] at h
              exact Except.noConfusion h
            · rw [if_neg hlen] at h
              rw [parse_placeholder_parity hp]
              exact ihtla r1 (acc ++ [Token.placeholder ph]) r v h
          | error ep =>
            cases ep with
            | fail pe2 => simp only [hs, hp] at h; exact Except.noConfusion h
            | fuel => simp only [hs, hp] at h; exact Except.noConfusion h
            | err pe2 =>
              cases hi : parse_icon i with
              | ok pr =>
                obtain ⟨r1, s1⟩ := pr
                simp only [hs, hp, hi] at h
                by_cases hlen : r1.length = i.length
                · rw [if_pos hlen] at h
                  exact Except.noConfusion h
                · rw [if_neg hlen] at h
                  rw [parse_icon_parity hi]
                  exact ihtla r1 (acc ++ [Token.icon s1]) r v h
              | error ei =>
                cases ei with
                | fail pe3 => simp only [hs, hp, hi] at h; exact Except.noConfusion h
                | fuel => simp only [hs, hp, hi] at h; exact Except.noConfusion h
                | err pe3 =>
                  cases hr : (pack f).prt i with
                  | ok pr =>
                    obtain ⟨r1, t1⟩ := pr
                    simp only [hs, hp, hi, hr] at h
                    by_cases hlen : r1.length = i.length
                    · rw [if_pos hlen] at h
                      exact Except.noConfusion h
                    · rw [if_neg hlen] at h
                      rw [ihprt i r1 t1 hr]
                      exact ihtla r1 (acc ++ [Token.recursive t1]) r v h
                  | error er =>
                    cases er with
                    | fail pe4 =>
                      simp only [hs, hp, hi, hr] at h
                      exact Except.noConfusion h
                    | fuel =>
                      simp only [hs, hp, hi, hr] at h
                      exact Except.noConfusion h
                    | err pe4 =>
                      simp only [hs, hp, hi, hr] at h
                      injection h with h'
                      obtain ⟨hrr, -⟩ := Prod.mk.inj h'
                      rw [← hrr]
    · intro i r v h
      rw [prt_step] at h
      cases h1 : charP '{' i with
      | error e1 => simp only [h1] at h; exact Except.noConfusion h
      | ok pr =>
        obtain ⟨i1, brace⟩ := pr
        simp only [h1] at h
        cases h2 : (pack f).pft i1 with
        | error e2 =>
          cases e2 <;> (simp only [h2, cutR] at h; exact Except.noConfusion h)
        | ok pr2 =>
          obtain ⟨i2, tpl⟩ := pr2
          simp only [h2] at h
          cases h3 : charP '}' i2 with
          | error e3 =>
            cases e3 <;> (simp only [h3, cutR] at h; exact Except.noConfusion h)
          | ok pr3 =>
            obtain ⟨i3, brace2⟩ := pr3
            simp only [h3, cutR] at h
            injection h with h'
            obtain ⟨hr, -⟩ := Prod.mk.inj h'
            rw [← hr]
            rw [charP_parity (by decide) h1, ihpft i1 i2 tpl h2,
              charP_parity (by decide) h3]

/-! ## Claim C10 -/

/-- C10: an input whose trailing maximal run of backslashes has odd length
(a dangling escape) is never parsed successfully: the dangling backslash
cannot be consumed, so `parse_full` reports an error. -/
theorem c10_dangling_escape : ∀ (i : Str) (tpl : FormatTemplate),
    trailingBS i % 2 = 1 → parse_full i ≠ .ok tpl := by
  intro i tpl hodd hok
  unfold parse_full at hok
  cases hp : parse_format_template (defaultFuel i) i with
  | ok pr =>
    obtain ⟨rest, t⟩ := pr
    rw [hp] at hok
    cases rest with
    | nil =>
      have := (pack_parity (defaultFuel i)).1 i [] t hp
      rw [hodd] at this
      exact absurd this.symm (by decide)
    | cons c rs => simp at hok
  | error e =>
    rw [hp] at hok
    cases e <;> simp at hok

/-- Witness for C10 at the concrete input `"\\"`. -/
theorem c10_witness :
    trailingBS ['\\'] % 2 = 1 ∧ parse_full ['\\'] ≠ .ok [[]] :=
  ⟨by decide, c10_dangling_escape ['\\'] [[]] (by decide)⟩

/-! ## Claim C4, amended: identifier well-formedness of parse output -/

theorem tlNamesOk_append (p : Char → Bool) (a b : TokenList) :
    tlNamesOk p (a ++ b) = (tlNamesOk p a && tlNamesOk p b) := by
  induction a with
  | nil => simp [tlNamesOk]
  | cons t ts ih => simp [tlNamesOk, ih, Bool.and_assoc]

theorem tplNamesOk_append (p : Char → Bool) (a b : FormatTemplate) :
    tplNamesOk p (a ++ b) = (tplNamesOk p a && tplNamesOk p b) := by
  induction a with
  | nil => simp [tplNamesOk]
  | cons t ts ih => simp [tplNamesOk, ih, Bool.and_assoc]

theorem alphanum1_names {i r v : Str} (h : alphanum1 i = .ok (r, v)) :
    (!v.isEmpty && v.all identChar) = true := by
  obtain ⟨-, hv, hne⟩ := takeWhile1P_ok h
  have h1 : v.isEmpty = false := by
    cases v with
    | nil => exact absurd rfl hne
    | cons c t => rfl
  have h2 : v.all identChar = true := by
    rw [hv]
    exact List.all_eq_true.mpr fun x hx => List.mem_takeWhile_imp hx
  simp [h1, h2]

theorem parse_arg_names {i r : Str} {a : Arg} (h : parse_arg i = .ok (r, a)) :
    (!a.key.isEmpty && a.key.all identChar) = true := by
  cases h1 : alphanum1 i with
  | error e1 =>
    cases e1 <;> (simp only [parse_arg, h1] at h; exact Except.noConfusion h)
  | ok pr =>
    obtain ⟨i1, key⟩ := pr
    cases h2 : charP ':' i1 with
    | ok pr2 =>
      obtain ⟨i2, col⟩ := pr2
      cases h3 : arg1 i2 with
      | ok pr3 =>
        obtain ⟨i3, v⟩ := pr3
        simp only [parse_arg, h1, h2, h3, cutR] at h
        injection h with h'
        obtain ⟨-, ha⟩ := Prod.mk.inj h'
        rw [← ha]
        exact alphanum1_names h1
      | error e3 =>
        cases e3 <;>
          (simp only [parse_arg, h1, h2, h3, cutR] at h; exact Except.noConfusion h)
    | error e2 =>
      cases e2 with
      | err pe =>
        simp only [parse_arg, h1, h2] at h
        injection h with h'
        obtain ⟨-, ha⟩ := Prod.mk.inj h'
        rw [← ha]
        exact alphanum1_names h1
      | fail pe => simp only [parse_arg, h1, h2] at h; exact Except.noConfusion h
      | fuel => simp only [parse_arg, h1, h2] at h; exact Except.noConfusion h

theorem argListAux_names : ∀ (f : Nat) (i : Str) (acc : List Arg) (r : Str) (v : List Arg),
    argListAux f i acc = .ok (r, v) →
    acc.all (fun a => !a.key.isEmpty && a.key.all identChar) = true →
    v.all (fun a => !a.key.isEmpty && a.key.all identChar) = true := by
  intro f
  induction f with
  | zero => intro i acc r v h; exact absurd h (by simp [argListAux])
  | succ f ih =>
    intro i acc r v h hacc
    unfold argListAux at h
    cases h2 : charP ',' (i.dropWhile isAsciiWS) with
    | error e2 =>
      cases e2 with
      | err pe =>
        simp only [h2] at h
        injection h with h'
        obtain ⟨-, hv⟩ := Prod.mk.inj h'
        rw [← hv]
        exact hacc
      | fail pe => simp only [h2] at h; exact Except.noConfusion h
      | fuel => simp only [h2] at h; exact Except.noConfusion h
    | ok pr2 =>
      obtain ⟨i1, comma⟩ := pr2
      simp only [h2] at h
      by_cases hlen : i1.length = i.length
      · rw [if_pos hlen] at h
        exact Except.noConfusion h
      · rw [if_neg hlen] at h
        cases h3 : parse_arg (i1.dropWhile isAsciiWS) with
        | error e3 =>
          cases e3 with
          | err pe =>
            simp only [h3] at h
            injection h with h'
            obtain ⟨-, hv⟩ := Prod.mk.inj h'
            rw [← hv]
            exact hacc
          | fail pe => simp only [h3] at h; exact Except.noConfusion h
          | fuel => simp only [h3] at h; exact Except.noConfusion h
        | ok pr3 =>
          obtain ⟨i2, a⟩ := pr3
          simp only [h3] at h
          refine ih i2 (acc ++ [a]) r v h ?_
          rw [List.all_append]
          simp [hacc, parse_arg_names h3]

theorem argsInner_names {fuel : Nat} {i r : Str} {v : List Arg}
    (h : argsInner fuel i = .ok (r, v)) :
    v.all (fun a => !a.key.isEmpty && a.key.all identChar) = true := by
  unfold argsInner at h
  cases h1 : parse_arg (i.dropWhile isAsciiWS) with
  | error e1 =>
    cases e1 with
    | err pe =>
      simp only [h1] at h
      injection h with h'
      obtain ⟨-, hv⟩ := Prod.mk.inj h'
      rw [← hv]
      rfl
    | fail pe => simp only [h1] at h; exact Except.noConfusion h
    | fuel => simp only [h1] at h; exact Except.noConfusion h
  | ok pr =>
    obtain ⟨i1, a⟩ := pr
    simp only [h1] at h
    refine argListAux_names fuel i1 [a] r v h ?_
    simp [parse_arg_names h1]

theorem parse_args_names {i r : Str} {v : List Arg}
    (h : parse_args i = .ok (r, v)) :
    v.all (fun a => !a.key.isEmpty && a.key.all identChar) = true := by
  unfold parse_args at h
  cases h1 : charP '(' i with
  | error e1 => simp only [h1] at h; exact Except.noConfusion h
  | ok pr =>
    obtain ⟨i1, paren⟩ := pr
    simp only [h1] at h
    cases h2 : argsInner (i1.length + 1) i1 with
    | error e2 =>
      cases e2 <;> (simp only [h2, cutR] at h; exact Except.noConfusion h)
    | ok pr2 =>
      obtain ⟨i2, args⟩ := pr2
      simp only [h2] at h
      cases h3 : charP ')' (i2.dropWhile isAsciiWS) with
      | error e3 =>
        cases e3 <;> (simp only [h3, cutR] at h; exact Except.noConfusion h)
      | ok pr3 =>
        obtain ⟨i3, paren2⟩ := pr3
        simp only [h3, cutR] at h
        injection h with h'
        obtain ⟨-, hv⟩ := Prod.mk.inj h'
        rw [← hv]
        exact argsInner_names h2

theorem parse_formatter_names {i r : Str} {v : Formatter}
    (h : parse_formatter i = .ok (r, v)) :
    ((!v.name.isEmpty && v.name.all identChar)
      && v.args.all (fun a => !a.key.isEmpty && a.key.all identChar)) = true := by
  unfold parse_formatter at h
  cases h1 : charP '.' i with
  | error e1 => simp only [h1] at h; exact Except.noConfusion h
  | ok pr =>
    obtain ⟨i1, dot⟩ := pr
    simp only [h1] at h
    cases h2 : alphanum1 i1 with
    | error e2 =>
      cases e2 <;> (simp only [h2, cutR] at h; exact Except.noConfusion h)
    | ok pr2 =>
      obtain ⟨i2, name⟩ := pr2
      simp only [h2] at h
      cases h3 : optR i2 (parse_args i2) with
      | error e3 =>
        cases e3 <;> (simp only [h3, cutR] at h; exact Except.noConfusion h)
      | ok pr3 =>
        obtain ⟨i3, args⟩ := pr3
        simp only [h3, cutR] at h
        injection h with h'
        obtain ⟨-, hv⟩ := Prod.mk.inj h'
        rw [← hv]
        have hargs : (args.getD []).all
            (fun a => !a.key.isEmpty && a.key.all identChar) = true := by
          cases hsub : parse_args i2 with
          | ok prs =>
            obtain ⟨rs, vs⟩ := prs
            rw [hsub] at h3
            simp only [optR] at h3
            injection h3 with h3'
            obtain ⟨-, hargs'⟩ := Prod.mk.inj h3'
            rw [← hargs']
            exact parse_args_names hsub
          | error es =>
            cases es with
            | err pe =>
              rw [hsub] at h3
              simp only [optR] at h3
              injection h3 with h3'
              obtain ⟨-, hargs'⟩ := Prod.mk.inj h3'
              rw [← hargs']
              rfl
            | fail pe =>
              rw [hsub] at h3
              simp only [optR] at h3
              exact Except.noConfusion h3
            | fuel =>
              rw [hsub] at h3
              simp only [optR] at h3
              exact Except.noConfusion h3
        simp only [alphanum1_names h2, hargs, Bool.and_self]

theorem optR_ok_some {α : Type} {i0 : Str} {sub : PResult α} {r : Str} {x : α}
    (h : optR i0 sub = .ok (r, some x)) : sub = .ok (r, x) := by
  cases sub with
  | ok pr =>
    obtain ⟨r', v'⟩ := pr
    simp only [optR] at h
    injection h with h'
    obtain ⟨hr, hx⟩ := Prod.mk.inj h'
    injection hx with hx'
    rw [hr, hx']
  | error e =>
    cases e with
    | err pe =>
      simp only [optR] at h
      injection h with h'
      obtain ⟨-, hx⟩ := Prod.mk.inj h'
      exact Option.noConfusion hx
    | fail pe => simp only [optR] at h; exact Except.noConfusion h
    | fuel => simp only [optR] at h; exact Except.noConfusion h

theorem parse_placeholder_names {i r : Str} {v : Placeholder}
    (h : parse_placeholder i = .ok (r, v)) :
    tokenNamesOk identChar (Token.placeholder v) = true := by
  unfold parse_placeholder at h
  cases h1 : charP '$' i with
  | error e1 => simp only [h1] at h; exact Except.noConfusion h
  | ok pr =>
    obtain ⟨i1, dollar⟩ := pr
    simp only [h1] at h
    cases h2 : alphanum1 i1 with
    | error e2 =>
      cases e2 <;> (simp only [h2, cutR] at h; exact Except.noConfusion h)
    | ok pr2 =>
      obtain ⟨i2, name⟩ := pr2
      simp only [h2] at h
      cases h3 : optR i2 (parse_formatter i2) with
      | error e3 =>
        cases e3 <;> (simp only [h3, cutR] at h; exact Except.noConfusion h)
      | ok pr3 =>
        obtain ⟨i3, fmt⟩ := pr3
        simp only [h3, cutR] at h
        injection h with h'
        obtain ⟨-, hv⟩ := Prod.mk.inj h'
        rw [← hv]
        simp only [tokenNamesOk]
        cases fmt with
        | none => simp [alphanum1_names h2]
        | some f =>
          have hsub : parse_formatter i2 = .ok (i3, f) := optR_ok_some h3
          simp [alphanum1_names h2, parse_formatter_names hsub]

theorem parse_icon_names {i r v : Str}
    (h : parse_icon i = .ok (r, v)) :
    tokenNamesOk identChar (Token.icon v) = true := by
  unfold parse_icon at h
  cases h1 : charP '^' i with
  | error e1 => simp only [h1] at h; exact Except.noConfusion h
  | ok pr =>
    obtain ⟨i1, caret⟩ := pr
    simp only [h1] at h
    cases h2 : tagP (("icon_").data) i1 with
    | error e2 =>
      cases e2 <;> (simp only [h2, cutR] at h; exact Except.noConfusion h)
    | ok pr2 =>
      obtain ⟨i2, tg⟩ := pr2
      simp only [h2] at h
      cases h3 : alphanum1 i2 with
      | error e3 =>
        cases e3 <;> (simp only [h3, cutR] at h; exact Except.noConfusion h)
      | ok pr3 =>
        obtain ⟨i3, name⟩ := pr3
        simp only [h3, cutR] at h
        injection h with h'
        obtain ⟨-, hv⟩ := Prod.mk.inj h'
        rw [← hv]
        simp only [tokenNamesOk]
        exact alphanum1_names h3

/-- Every level of the fueled grammar produces identifier-well-formed trees. -/
theorem pack_names : ∀ f : Nat,
    (∀ i r v, (pack f).pft i = .ok (r, v) → tplNamesOk identChar v = true)
    ∧ (∀ i acc r v, (pack f).tmplAux i acc = .ok (r, v) →
        tplNamesOk identChar acc = true → tplNamesOk identChar v = true)
    ∧ (∀ i acc r v, (pack f).tla i acc = .ok (r, v) →
        tlNamesOk identChar acc = true → tlNamesOk identChar v = true)
    ∧ (∀ i r v, (pack f).prt i = .ok (r, v) → tplNamesOk identChar v = true) := by
  intro f
  induction f with
  | zero =>
    refine ⟨?_, ?_, ?_, ?_⟩ <;> · intros
                                  exact Except.noConfusion (by assumption : _ = Except.ok _)
  | succ f ih =>
    obtain ⟨ihpft, ihtmpl, ihtla, ihprt⟩ := ih
    refine ⟨?_, ?_, ?_, ?_⟩
    · intro i r v h
      rw [pft_step] at h
      cases h1 : (pack f).tla i [] with
      | error e1 =>
        cases e1 with
        | err pe =>
          simp only [h1] at h
          injection h with h'
          obtain ⟨-, hv⟩ := Prod.mk.inj h'
          rw [← hv]
          rfl
        | fail pe => simp only [h1] at h; exact Except.noConfusion h
        | fuel => simp only [h1] at h; exact Except.noConfusion h
      | ok pr =>
        obtain ⟨i1, tl⟩ := pr
        simp only [h1] at h
        refine ihtmpl i1 [tl] r v h ?_
        have := ihtla i [] i1 tl h1 rfl
        simp [tplNamesOk, this]
    · intro i acc r v h hacc
      rw [tmplAux_step] at h
      cases h1 : charP '|' i with
      | error e1 =>
        cases e1 with
        | err pe =>
          simp only [h1] at h
          injection h with h'
          obtain ⟨-, hv⟩ := Prod.mk.inj h'
          rw [← hv]
          exact hacc
        | fail pe => simp only [h1] at h; exact Except.noConfusion h
        | fuel => simp only [h1] at h; exact Except.noConfusion h
      | ok pr =>
        obtain ⟨i1, sep⟩ := pr
        simp only [h1] at h
        by_cases hlen : i1.length = i.length
        · rw [if_pos hlen] at h
          exact Except.noConfusion h
        · rw [if_neg hlen] at h
          cases h2 : (pack f).tla i1 [] with
          | error e2 =>
            cases e2 with
            | err pe =>
              simp only [h2] at h
              injection h with h'
              obtain ⟨-, hv⟩ := Prod.mk.inj h'
              rw [← hv]
              exact hacc
            | fail pe => simp only [h2] at h; exact Except.noConfusion h
            | fuel => simp only [h2] at h; exact Except.noConfusion h
          | ok pr2 =>
            obtain ⟨i2, tl⟩ := pr2
            simp only [h2] at h
            refine ihtmpl i2 (acc ++ [tl]) r v h ?_
            rw [tplNamesOk_append]
            have := ihtla i1 [] i2 tl h2 rfl
            simp [tplNamesOk, hacc, this]
    · intro i acc r v h hacc
      rw [tla_step] at h
      cases hs : parse_string i with
      | ok pr =>
        obtain ⟨r1, s1⟩ := pr
        simp only [hs] at h
        by_cases hlen : r1.length = i.length
        · rw [if_pos hlen] at h
          exact Except.noConfusion h
        · rw [if_neg hlen] at h
          refine ihtla r1 (acc ++ [Token.text s1]) r v h ?_
          rw [tlNamesOk_append]
          simp [tlNamesOk, tokenNamesOk, hacc]
      | error es =>
        cases es with
        | fail pe => simp only [hs] at h; exact Except.noConfusion h
        | fuel => simp only [hs] at h; exact Except.noConfusion h
        | err pe =>
          cases hp : parse_placeholder i with
          | ok pr =>
            obtain ⟨r1, ph⟩ := pr
            simp only [hs, hp] at h
            by_cases hlen : r1.length = i.length
            · rw [if_pos hlen] at h
              exact Except.noConfusion h
            · rw [if_neg hlen] at h
              refine ihtla r1 (acc ++ [Token.placeholder ph]) r v h ?_
              rw [tlNamesOk_append]
              simp [tlNamesOk, hacc, parse_placeholder_names hp]
          | error ep =>
            cases ep with
            | fail pe2 => simp only [hs, hp] at h; exact Except.noConfusion h
            | fuel => simp only [hs, hp] at h; exact Except.noConfusion h
            | err pe2 =>
              cases hi : parse_icon i with
              | ok pr =>
                obtain ⟨r1, s1⟩ := pr
                simp only [hs, hp, hi] at h
                by_cases hlen : r1.length = i.length
                · rw [if_pos hlen] at h
                  exact Except.noConfusion h
                · rw [if_neg hlen] at h
                  refine ihtla r1 (acc ++ [Token.icon s1]) r v h ?_
                  rw [tlNamesOk_append]
                  simp [tlNamesOk, hacc, parse_icon_names hi]
              | error ei =>
                cases ei with
                | fail pe3 => simp only [hs, hp, hi] at h; exact Except.noConfusion h
                | fuel => simp only [hs, hp, hi] at h; exact Except.noConfusion h
                | err pe3 =>
                  cases hr : (pack f).prt i with
                  | ok pr =>
                    obtain ⟨r1, t1⟩ := pr
                    simp only [hs, hp, hi, hr] at h
                    by_cases hlen : r1.length = i.length
                    · rw [if_pos hlen] at h
                      exact Except.noConfusion h
                    · rw [if_neg hlen] at h
                      refine ihtla r1 (acc ++ [Token.recursive t1]) r v h ?_
                      rw [tlNamesOk_append]
                      have := ihprt i r1 t1 hr
                      simp [tlNamesOk, tokenNamesOk, hacc, this]
                  | error er =>
                    cases er with
                    | fail pe4 =>
                      simp only [hs, hp, hi, hr] at h
                      exact Except.noConfusion h
                    | fuel =>
                      simp only [hs, hp, hi, hr] at h
                      exact Except.noConfusion h
                    | err pe4 =>
                      simp only [hs, hp, hi, hr] at h
                      injection h with h'
                      obtain ⟨-, hv⟩ := Prod.mk.inj h'
                      rw [← hv]
                      exact hacc
    · intro i r v h
      rw [prt_step] at h
      cases h1 : charP '{' i with
      | error e1 => simp only [h1] at h; exact Except.noConfusion h
      | ok pr =>
        obtain ⟨i1, brace⟩ := pr
        simp only [h1] at h
        cases h2 : (pack f).pft i1 with
        | error e2 =>
          cases e2 <;> (simp only [h2, cutR] at h; exact Except.noConfusion h)
        | ok pr2 =>
          obtain ⟨i2, tpl⟩ := pr2
          simp only [h2] at h
          cases h3 : charP '}' i2 with
          | error e3 =>
            cases e3 <;> (simp only [h3, cutR] at h; exact Except.noConfusion h)
          | ok pr3 =>
            obtain ⟨i3, brace2⟩ := pr3
            simp only [h3, cutR] at h
            injection h with h'
            obtain ⟨-, hv⟩ := Prod.mk.inj h'
            rw [← hv]
            exact ihpft i1 i2 tpl h2

/-- C4, amended: every successfully parsed template (nested templates
included) has all its `Arg.key`, `Formatter.name`, `Placeholder.name` and
`Icon` payloads non-empty and drawn from the code's identifier class —
Rust `char::is_alphanumeric` (Unicode), `_`, or `-`. -/
theorem c4_names_wellformed : ∀ (i : Str) (tpl : FormatTemplate),
    parse_full i = .ok tpl → tplNamesOk identChar tpl = true := by
  intro i tpl h
  have hp := (c1_full_consumption i).1 tpl h
  exact (pack_names (defaultFuel i)).1 i [] tpl hp

/-- Witness for C4's amended theorem at `"$a"`. -/
theorem c4_witness :
    tplNamesOk identChar [[Token.placeholder (Placeholder.mk ['a'] none)]] = true :=
  c4_names_wellformed (("$a").data) [[Token.placeholder (Placeholder.mk ['a'] none)]] rfl

/-! ## Claim C2, amended: counting alternatives -/

theorem topPipes_cons_plain {c : Char} (h1 : ¬(c = '\\')) (h2 : ¬(c = '{'))
    (h3 : ¬(c = '}')) (h4 : ¬(c = '|')) (r : Str) (d : Nat) :
    topPipes (c :: r) d = topPipes r d := by
  cases r with
  | nil => simp only [topPipes, if_neg h1, if_neg h2, if_neg h3, if_neg h4]
  | cons c2 r2 => simp only [topPipes, if_neg h1, if_neg h2, if_neg h3, if_neg h4]

theorem topPipes_esc (c : Char) (r : Str) (d : Nat) :
    topPipes ('\\' :: c :: r) d = topPipes r d := by
  simp [topPipes]

theorem topPipes_open (r : Str) (d : Nat) :
    topPipes ('{' :: r) d = topPipes r (d + 1) := by
  cases r <;> simp [topPipes]

theorem topPipes_close (r : Str) (d : Nat) :
    topPipes ('}' :: r) d = topPipes r (d - 1) := by
  cases r <;> simp [topPipes]

theorem topPipes_pipe (r : Str) (d : Nat) :
    topPipes ('|' :: r) d = (if d = 0 then 1 else 0) + topPipes r d := by
  cases r <;> simp [topPipes]

theorem snNil : scanNeutral [] := fun k d => rfl

theorem snCons {c : Char} (h1 : ¬(c = '\\')) (h2 : ¬(c = '{'))
    (h3 : ¬(c = '}')) (h4 : ¬(c = '|')) {w : Str} (hw : scanNeutral w) :
    scanNeutral (c :: w) := by
  intro k d
  rw [List.cons_append, topPipes_cons_plain h1 h2 h3 h4]
  exact hw k d

theorem snApp {a b : Str} (ha : scanNeutral a) (hb : scanNeutral b) :
    scanNeutral (a ++ b) := by
  intro k d
  rw [List.append_assoc, ha (b ++ k) d]
  exact hb k d

theorem snEsc (c : Char) {w : Str} (hw : scanNeutral w) :
    scanNeutral ('\\' :: c :: w) := by
  intro k d
  rw [List.cons_append, List.cons_append, topPipes_esc]
  exact hw k d

theorem snAll {w : Str}
    (h : ∀ c ∈ w, ¬(c = '\\') ∧ ¬(c = '{') ∧ ¬(c = '}') ∧ ¬(c = '|')) :
    scanNeutral w := by
  induction w with
  | nil => exact snNil
  | cons c t ih =>
    obtain ⟨h1, h2, h3, h4⟩ := h c (by simp)
    exact snCons h1 h2 h3 h4 (ih fun x hx => h x (by simp [hx]))

theorem snDeep {w : Str} (h : scanNeutral w) : deepNeutral w :=
  fun k d _ => h k d

theorem deepApp {a b : Str} (ha : deepNeutral a) (hb : deepNeutral b) :
    deepNeutral (a ++ b) := by
  intro k d hd
  rw [List.append_assoc, ha (b ++ k) d hd]
  exact hb k d hd

/-- The consumed body of a recursive template is scan-neutral at any depth:
the `{` raises the depth, the body is deep-neutral, the `}` lowers it back. -/
theorem snBrace {w : Str} (hw : deepNeutral w) :
    scanNeutral ('{' :: (w ++ ['}'])) := by
  intro k d
  rw [List.cons_append, topPipes_open, List.append_assoc, List.singleton_append,
    hw ('}' :: k) (d + 1) (by omega), topPipes_close]
  simp

theorem identChar_plain {c : Char} (hc : identChar c = true) :
    ¬(c = '\\') ∧ ¬(c = '{') ∧ ¬(c = '}') ∧ ¬(c = '|') := by
  refine ⟨?_, ?_, ?_, ?_⟩ <;> (intro he; rw [he] at hc; exact absurd hc (by decide))

theorem bareChar_plain {c : Char} (hc : bareChar c = true) :
    ¬(c = '\\') ∧ ¬(c = '{') ∧ ¬(c = '}') ∧ ¬(c = '|') := by
  refine ⟨?_, ?_, ?_, ?_⟩ <;> (intro he; rw [he] at hc; exact absurd hc (by decide))

theorem isAsciiWS_plain {c : Char} (hc : isAsciiWS c = true) :
    ¬(c = '\\') ∧ ¬(c = '{') ∧ ¬(c = '}') ∧ ¬(c = '|') := by
  refine ⟨?_, ?_, ?_, ?_⟩ <;> (intro he; rw [he] at hc; exact absurd hc (by decide))

theorem textChar_plain {c : Char} (hc : textChar c = true) :
    ¬(c = '\\') ∧ ¬(c = '{') ∧ ¬(c = '}') ∧ ¬(c = '|') := by
  refine ⟨?_, ?_, ?_, ?_⟩ <;> (intro he; rw [he] at hc; exact absurd hc (by decide))

theorem noQuote_suffix {a b : Str} (h : noQuote (a ++ b)) : noQuote b :=
  fun c hc => h c (List.mem_append.mpr (Or.inr hc))

/-- `takeWhile`-consumed material of a backslash/brace/pipe-free class is
scan-neutral. -/
theorem snTakeWhile {p : Char → Bool}
    (hp : ∀ c, p c = true → ¬(c = '\\') ∧ ¬(c = '{') ∧ ¬(c = '}') ∧ ¬(c = '|'))
    (i : Str) : scanNeutral (i.takeWhile p) :=
  snAll fun c hc => hp c (List.mem_takeWhile_imp hc)

/-- Decomposition of `takeWhile`/`dropWhile`. -/
theorem twdw (p : Char → Bool) (i : Str) : i = i.takeWhile p ++ i.dropWhile p :=
  (List.takeWhile_append_dropWhile p i).symm

/-- Scan-neutral decomposition transitivity. -/
theorem snTrans {i i1 r w1 w2 : Str} (h1 : i = w1 ++ i1) (h2 : i1 = w2 ++ r)
    (n1 : scanNeutral w1) (n2 : scanNeutral w2) :
    ∃ w, i = w ++ r ∧ scanNeutral w :=
  ⟨w1 ++ w2, by rw [h1, h2, List.append_assoc], snApp n1 n2⟩

theorem alphanum1_count {i r v : Str} (h : alphanum1 i = .ok (r, v)) :
    ∃ w, i = w ++ r ∧ scanNeutral w := by
  obtain ⟨hr, -, -⟩ := takeWhile1P_ok h
  refine ⟨i.takeWhile identChar, ?_, snTakeWhile (fun c hc => identChar_plain hc) i⟩
  rw [hr]
  exact twdw identChar i

theorem spaces_count (i : Str) :
    ∃ w, i = w ++ i.dropWhile isAsciiWS ∧ scanNeutral w :=
  ⟨i.takeWhile isAsciiWS, twdw isAsciiWS i,
    snTakeWhile (fun c hc => isAsciiWS_plain hc) i⟩

theorem charP_count {c : Char} (h1 : ¬(c = '\\')) (h2 : ¬(c = '{'))
    (h3 : ¬(c = '}')) (h4 : ¬(c = '|')) {i r : Str} {v : Char}
    (h : charP c i = .ok (r, v)) :
    ∃ w, i = w ++ r ∧ scanNeutral w := by
  obtain ⟨hi, -⟩ := charP_ok h
  exact ⟨[c], by rw [hi]; rfl, snCons h1 h2 h3 h4 snNil⟩

theorem arg1_count {i r v : Str} (hnq : noQuote i) (h : arg1 i = .ok (r, v)) :
    ∃ w, i = w ++ r ∧ scanNeutral w := by
  cases hb : takeWhile1P bareChar i with
  | ok pr =>
    obtain ⟨r1, v1⟩ := pr
    unfold arg1 at h
    rw [hb] at h
    injection h with h'
    obtain ⟨hr, -⟩ := Prod.mk.inj h'
    obtain ⟨hr1, -, -⟩ := takeWhile1P_ok hb
    refine ⟨i.takeWhile bareChar, ?_, snTakeWhile (fun c hc => bareChar_plain hc) i⟩
    rw [← hr, hr1]
    exact twdw bareChar i
  | error e =>
    cases e with
    | err pe =>
      cases hq : charP '\'' i with
      | error e2 =>
        simp only [arg1, hb, hq] at h
        exact absurd h (by cases e2 <;> simp)
      | ok pr2 =>
        obtain ⟨i1, q⟩ := pr2
        obtain ⟨hi, -⟩ := charP_ok hq
        exact absurd (hnq '\'' (by rw [hi]; simp)) (fun hf => hf rfl)
    | fail pe =>
      unfold arg1 at h
      rw [hb] at h
      exact absurd h (by simp)
    | fuel =>
      unfold arg1 at h
      rw [hb] at h
      exact absurd h (by simp)

theorem parse_arg_count {i r : Str} {a : Arg} (hnq : noQuote i)
    (h : parse_arg i = .ok (r, a)) :
    ∃ w, i = w ++ r ∧ scanNeutral w := by
  cases h1 : alphanum1 i with
  | error e1 =>
    cases e1 <;> (simp only [parse_arg, h1] at h; exact Except.noConfusion h)
  | ok pr =>
    obtain ⟨i1, key⟩ := pr
    obtain ⟨w1, hw1, n1⟩ := alphanum1_count h1
    cases h2 : charP ':' i1 with
    | ok pr2 =>
      obtain ⟨i2, col⟩ := pr2
      cases h3 : arg1 i2 with
      | ok pr3 =>
        obtain ⟨i3, v⟩ := pr3
        simp only [parse_arg, h1, h2, h3, cutR] at h
        injection h with h'
        obtain ⟨hr, -⟩ := Prod.mk.inj h'
        obtain ⟨w2, hw2, n2⟩ := charP_count (by decide) (by decide) (by decide)
          (by decide) h2
        have hnq2 : noQuote i2 := by
          rw [hw1, hw2] at hnq
          exact noQuote_suffix (noQuote_suffix hnq)
        obtain ⟨w3, hw3, n3⟩ := arg1_count hnq2 h3
        obtain ⟨w12, hw12, n12⟩ := snTrans hw1 hw2 n1 n2
        rw [← hr]
        exact snTrans hw12 hw3 n12 n3
      | error e3 =>
        cases e3 <;>
          (simp only [parse_arg, h1, h2, h3, cutR] at h; exact Except.noConfusion h)
    | error e2 =>
      cases e2 with
      | err pe =>
        simp only [parse_arg, h1, h2] at h
        injection h with h'
        obtain ⟨hr, -⟩ := Prod.mk.inj h'
        rw [← hr]
        exact ⟨w1, hw1, n1⟩
      | fail pe =>
        simp only [parse_arg, h1, h2] at h
        exact Except.noConfusion h
      | fuel =>
        simp only [parse_arg, h1, h2] at h
        exact Except.noConfusion h

theorem argListAux_count : ∀ (f : Nat) (i : Str) (acc : List Arg) (r : Str)
    (v : List Arg), noQuote i → argListAux f i acc = .ok (r, v) →
    ∃ w, i = w ++ r ∧ scanNeutral w := by
  intro f
  induction f with
  | zero => intro i acc r v _ h; exact Except.noConfusion h
  | succ f ih =>
    intro i acc r v hnq h
    unfold argListAux at h
    cases h2 : charP ',' (i.dropWhile isAsciiWS) with
    | error e2 =>
      cases e2 with
      | err pe =>
        simp only [h2] at h
        injection h with h'
        obtain ⟨hr, -⟩ := Prod.mk.inj h'
        rw [← hr]
        exact ⟨[], rfl, snNil⟩
      | fail pe => simp only [h2] at h; exact Except.noConfusion h
      | fuel => simp only [h2] at h; exact Except.noConfusion h
    | ok pr2 =>
      obtain ⟨i1, comma⟩ := pr2
      simp only [h2] at h
      by_cases hlen : i1.length = i.length
      · rw [if_pos hlen] at h
        exact Except.noConfusion h
      · rw [if_neg hlen] at h
        obtain ⟨ws1, hws1, nws1⟩ := spaces_count i
        obtain ⟨wc, hwc, nwc⟩ := charP_count (by decide) (by decide) (by decide)
          (by decide) h2
        obtain ⟨w01, hw01, n01⟩ := snTrans hws1 hwc nws1 nwc
        cases h3 : parse_arg (i1.dropWhile isAsciiWS) with
        | error e3 =>
          cases e3 with
          | err pe =>
            simp only [h3] at h
            injection h with h'
            obtain ⟨hr, -⟩ := Prod.mk.inj h'
            rw [← hr]
            exact ⟨[], rfl, snNil⟩
          | fail pe => simp only [h3] at h; exact Except.noConfusion h
          | fuel => simp only [h3] at h; exact Except.noConfusion h
        | ok pr3 =>
          obtain ⟨i2, a⟩ := pr3
          simp only [h3] at h
          obtain ⟨ws2, hws2, nws2⟩ := spaces_count i1
          have hnq1 : noQuote i1 := by
            rw [hw01] at hnq
            exact noQuote_suffix hnq
          have hnqd : noQuote (i1.dropWhile isAsciiWS) := by
            rw [hws2] at hnq1
            exact noQuote_suffix hnq1
          obtain ⟨wa, hwa, nwa⟩ := parse_arg_count hnqd h3
          have hnq2 : noQuote i2 := by
            rw [hwa] at hnqd
            exact noQuote_suffix hnqd
          obtain ⟨w2, hw2, n2⟩ := snTrans hws2 hwa nws2 nwa
          obtain ⟨w02, hw02, n02⟩ := snTrans hw01 hw2 n01 n2
          obtain ⟨wrec, hwrec, nwrec⟩ := ih i2 (acc ++ [a]) r v hnq2 h
          exact snTrans hw02 hwrec n02 nwrec

theorem argsInner_count {fuel : Nat} {i r : Str} {v : List Arg}
    (hnq : noQuote i) (h : argsInner fuel i = .ok (r, v)) :
    ∃ w, i = w ++ r ∧ scanNeutral w := by
  unfold argsInner at h
  cases h1 : parse_arg (i.dropWhile isAsciiWS) with
  | error e1 =>
    cases e1 with
    | err pe =>
      simp only [h1] at h
      injection h with h'
      obtain ⟨hr, -⟩ := Prod.mk.inj h'
      rw [← hr]
      exact ⟨[], rfl, snNil⟩
    | fail pe => simp only [h1] at h; exact Except.noConfusion h
    | fuel => simp only [h1] at h; exact Except.noConfusion h
  | ok pr =>
    obtain ⟨i1, a⟩ := pr
    simp only [h1] at h
    obtain ⟨ws, hws, nws⟩ := spaces_count i
    have hnqd : noQuote (i.dropWhile isAsciiWS) := by
      rw [hws] at hnq
      exact noQuote_suffix hnq
    obtain ⟨wa, hwa, nwa⟩ := parse_arg_count hnqd h1
    have hnq1 : noQuote i1 := by
      rw [hwa] at hnqd
      exact noQuote_suffix hnqd
    obtain ⟨w0, hw0, n0⟩ := snTrans hws hwa nws nwa
    obtain ⟨wrec, hwrec, nwrec⟩ := argListAux_count fuel i1 [a] r v hnq1 h
    exact snTrans hw0 hwrec n0 nwrec

theorem parse_args_count {i r : Str} {v : List Arg} (hnq : noQuote i)
    (h : parse_args i = .ok (r, v)) :
    ∃ w, i = w ++ r ∧ scanNeutral w := by
  unfold parse_args at h
  cases h1 : charP '(' i with
  | error e1 => simp only [h1] at h; exact Except.noConfusion h
  | ok pr =>
    obtain ⟨i1, paren⟩ := pr
    simp only [h1] at h
    obtain ⟨w1, hw1, n1⟩ := charP_count (by decide) (by decide) (by decide)
      (by decide) h1
    have hnq1 : noQuote i1 := by
      rw [hw1] at hnq
      exact noQuote_suffix hnq
    cases h2 : argsInner (i1.length + 1) i1 with
    | error e2 =>
      cases e2 <;> (simp only [h2, cutR] at h; exact Except.noConfusion h)
    | ok pr2 =>
      obtain ⟨i2, args⟩ := pr2
      simp only [h2] at h
      obtain ⟨w2, hw2, n2⟩ := argsInner_count hnq1 h2
      cases h3 : charP ')' (i2.dropWhile isAsciiWS) with
      | error e3 =>
        cases e3 <;> (simp only [h3, cutR] at h; exact Except.noConfusion h)
      | ok pr3 =>
        obtain ⟨i3, paren2⟩ := pr3
        simp only [h3, cutR] at h
        injection h with h'
        obtain ⟨hr, -⟩ := Prod.mk.inj h'
        obtain ⟨ws, hws, nws⟩ := spaces_count i2
        obtain ⟨w3, hw3, n3⟩ := charP_count (by decide) (by decide) (by decide)
          (by decide) h3
        obtain ⟨wa, hwa, na⟩ := snTrans hw1 hw2 n1 n2
        obtain ⟨wb, hwb, nb⟩ := snTrans hws hw3 nws n3
        rw [← hr]
        exact snTrans hwa hwb na nb

theorem optR_count {α : Type} {i0 : Str} {sub : PResult α} {r : Str} {o : Option α}
    (hsub : ∀ r' v', sub = .ok (r', v') → ∃ w, i0 = w ++ r' ∧ scanNeutral w)
    (h : optR i0 sub = .ok (r, o)) :
    ∃ w, i0 = w ++ r ∧ scanNeutral w := by
  cases sub with
  | ok pr =>
    obtain ⟨r', v'⟩ := pr
    simp only [optR] at h
    injection h with h'
    obtain ⟨hr, -⟩ := Prod.mk.inj h'
    rw [← hr]
    exact hsub r' v' rfl
  | error e =>
    cases e with
    | err pe =>
      simp only [optR] at h
      injection h with h'
      obtain ⟨hr, -⟩ := Prod.mk.inj h'
      rw [← hr]
      exact ⟨[], rfl, snNil⟩
    | fail pe => simp only [optR] at h; exact Except.noConfusion h
    | fuel => simp only [optR] at h; exact Except.noConfusion h

theorem parse_formatter_count {i r : Str} {v : Formatter} (hnq : noQuote i)
    (h : parse_formatter i = .ok (r, v)) :
    ∃ w, i = w ++ r ∧ scanNeutral w := by
  unfold parse_formatter at h
  cases h1 : charP '.' i with
  | error e1 => simp only [h1] at h; exact Except.noConfusion h
  | ok pr =>
    obtain ⟨i1, dot⟩ := pr
    simp only [h1] at h
    obtain ⟨w1, hw1, n1⟩ := charP_count (by decide) (by decide) (by decide)
      (by decide) h1
    have hnq1 : noQuote i1 := by
      rw [hw1] at hnq
      exact noQuote_suffix hnq
    cases h2 : alphanum1 i1 with
    | error e2 =>
      cases e2 <;> (simp only [h2, cutR] at h; exact Except.noConfusion h)
    | ok pr2 =>
      obtain ⟨i2, name⟩ := pr2
      simp only [h2] at h
      obtain ⟨w2, hw2, n2⟩ := alphanum1_count h2
      have hnq2 : noQuote i2 := by
        rw [hw2] at hnq1
        exact noQuote_suffix hnq1
      cases h3 : optR i2 (parse_args i2) with
      | error e3 =>
        cases e3 <;> (simp only [h3, cutR] at h; exact Except.noConfusion h)
      | ok pr3 =>
        obtain ⟨i3, args⟩ := pr3
        simp only [h3, cutR] at h
        injection h with h'
        obtain ⟨hr, -⟩ := Prod.mk.inj h'
        obtain ⟨w3, hw3, n3⟩ := optR_count
          (fun r' v' hs => parse_args_count hnq2 hs) h3
        obtain ⟨wa, hwa, na⟩ := snTrans hw1 hw2 n1 n2
        rw [← hr]
        exact snTrans hwa hw3 na n3

theorem parse_placeholder_count {i r : Str} {v : Placeholder} (hnq : noQuote i)
    (h : parse_placeholder i = .ok (r, v)) :
    ∃ w, i = w ++ r ∧ scanNeutral w ∧ w ≠ [] := by
  unfold parse_placeholder at h
  cases h1 : charP '$' i with
  | error e1 => simp only [h1] at h; exact Except.noConfusion h
  | ok pr =>
    obtain ⟨i1, dollar⟩ := pr
    simp only [h1] at h
    obtain ⟨w1, hw1, n1⟩ := charP_count (by decide) (by decide) (by decide)
      (by decide) h1
    have hnq1 : noQuote i1 := by
      rw [hw1] at hnq
      exact noQuote_suffix hnq
    cases h2 : alphanum1 i1 with
    | error e2 =>
      cases e2 <;> (simp only [h2, cutR] at h; exact Except.noConfusion h)
    | ok pr2 =>
      obtain ⟨i2, name⟩ := pr2
      simp only [h2] at h
      obtain ⟨w2, hw2, n2⟩ := alphanum1_count h2
      have hnq2 : noQuote i2 := by
        rw [hw2] at hnq1
        exact noQuote_suffix hnq1
      cases h3 : optR i2 (parse_formatter i2) with
      | error e3 =>
        cases e3 <;> (simp only [h3, cutR] at h; exact Except.noConfusion h)
      | ok pr3 =>
        obtain ⟨i3, fmt⟩ := pr3
        simp only [h3, cutR] at h
        injection h with h'
        obtain ⟨hr, -⟩ := Prod.mk.inj h'
        obtain ⟨w3, hw3, n3⟩ := optR_count
          (fun r' v' hs => parse_formatter_count hnq2 hs) h3
        obtain ⟨wa, hwa, na⟩ := snTrans hw2 hw3 n2 n3
        rw [← hr]
        refine ⟨'$' :: wa, ?_, ?_, by simp⟩
        · obtain ⟨hi, -⟩ := charP_ok h1
          rw [hi, hwa]
          rfl
        · exact snCons (by decide) (by decide) (by decide) (by decide) na

theorem parse_icon_count {i r v : Str} (h : parse_icon i = .ok (r, v)) :
    ∃ w, i = w ++ r ∧ scanNeutral w ∧ w ≠ [] := by
  unfold parse_icon at h
  cases h1 : charP '^' i with
  | error e1 => simp only [h1] at h; exact Except.noConfusion h
  | ok pr =>
    obtain ⟨i1, caret⟩ := pr
    simp only [h1] at h
    cases h2 : tagP (("icon_").data) i1 with
    | error e2 =>
      cases e2 <;> (simp only [h2, cutR] at h; exact Except.noConfusion h)
    | ok pr2 =>
      obtain ⟨i2, tg⟩ := pr2
      simp only [h2] at h
      cases h3 : alphanum1 i2 with
      | error e3 =>
        cases e3 <;> (simp only [h3, cutR] at h; exact Except.noConfusion h)
      | ok pr3 =>
        obtain ⟨i3, name⟩ := pr3
        simp only [h3, cutR] at h
        injection h with h'
        obtain ⟨hr, -⟩ := Prod.mk.inj h'
        have htag : i1 = (("icon_").data) ++ i2 := tagP_ok h2
        have ntag : scanNeutral (("icon_").data) := snAll (by decide)
        obtain ⟨w3, hw3, n3⟩ := alphanum1_count h3
        obtain ⟨wa, hwa, na⟩ := snTrans htag hw3 ntag n3
        rw [← hr]
        refine ⟨'^' :: wa, ?_, ?_, by simp⟩
        · obtain ⟨hi, -⟩ := charP_ok h1
          rw [hi, hwa]
          rfl
        · exact snCons (by decide) (by decide) (by decide) (by decide) na

theorem escTransGo_count : ∀ (n : Nat) (i : Str), i.length ≤ n →
    ∀ (b : Bool) (acc r s : Str), escTransGo i b acc = .ok (r, s) →
    ∃ w, i = w ++ r ∧ scanNeutral w ∧ (b = true → i ≠ [] → w ≠ []) := by
  intro n
  induction n with
  | zero =>
    intro i hlen b acc r s h
    have hi : i = [] := List.length_eq_zero.mp (Nat.le_zero.mp hlen)
    subst hi
    simp only [escTransGo] at h
    injection h with h'
    obtain ⟨hr, -⟩ := Prod.mk.inj h'
    exact ⟨[], by rw [← hr]; rfl, snNil, fun _ hne => absurd rfl hne⟩
  | succ n ih =>
    intro i hlen b acc r s h
    cases i with
    | nil =>
      simp only [escTransGo] at h
      injection h with h'
      obtain ⟨hr, -⟩ := Prod.mk.inj h'
      exact ⟨[], by rw [← hr]; rfl, snNil, fun _ hne => absurd rfl hne⟩
    | cons c rest =>
      cases rest with
      | nil =>
        simp only [escTransGo] at h
        by_cases hbs : c = '\\'
        · rw [if_pos hbs] at h
          exact Except.noConfusion h
        · rw [if_neg hbs] at h
          by_cases htc : textChar c
          · rw [if_pos htc] at h
            injection h with h'
            obtain ⟨hr, -⟩ := Prod.mk.inj h'
            obtain ⟨p1, p2, p3, p4⟩ := textChar_plain htc
            refine ⟨[c], by rw [← hr]; rfl, snCons p1 p2 p3 p4 snNil, fun _ _ => by simp⟩
          · rw [if_neg htc] at h
            cases b with
            | true => exact Except.noConfusion h
            | false =>
              rw [if_neg Bool.false_ne_true] at h
              injection h with h'
              obtain ⟨hr, -⟩ := Prod.mk.inj h'
              exact ⟨[], by rw [← hr]; rfl, snNil, fun hb _ => Bool.noConfusion hb⟩
      | cons c2 rest2 =>
        simp only [escTransGo] at h
        by_cases hbs : c = '\\'
        · rw [if_pos hbs] at h
          have hlen2 : rest2.length ≤ n := by
            simp only [List.length_cons] at hlen
            omega
          obtain ⟨w2, hw2, n2, -⟩ := ih rest2 hlen2 false (acc ++ [c2]) r s h
          refine ⟨c :: c2 :: w2, by rw [hw2]; rfl, ?_, fun _ _ => by simp⟩
          rw [hbs]
          exact snEsc c2 n2
        · rw [if_neg hbs] at h
          by_cases htc : textChar c
          · rw [if_pos htc] at h
            have hlen2 : (c2 :: rest2).length ≤ n := by
              simp only [List.length_cons] at hlen
              simp only [List.length_cons]
              omega
            obtain ⟨w2, hw2, n2, -⟩ := ih (c2 :: rest2) hlen2 false (acc ++ [c]) r s h
            obtain ⟨p1, p2, p3, p4⟩ := textChar_plain htc
            exact ⟨c :: w2, by rw [hw2]; rfl, snCons p1 p2 p3 p4 n2, fun _ _ => by simp⟩
          · rw [if_neg htc] at h
            cases b with
            | true => exact Except.noConfusion h
            | false =>
              rw [if_neg Bool.false_ne_true] at h
              injection h with h'
              obtain ⟨hr, -⟩ := Prod.mk.inj h'
              exact ⟨[], by rw [← hr]; rfl, snNil, fun hb _ => Bool.noConfusion hb⟩

theorem parse_string_count {i r s : Str} (h : parse_string i = .ok (r, s)) :
    ∃ w, i = w ++ r ∧ scanNeutral w ∧ w ≠ [] := by
  cases i with
  | nil => exact Except.noConfusion h
  | cons c rest =>
    obtain ⟨w, hw, nw, hne⟩ :=
      escTransGo_count (c :: rest).length (c :: rest) (Nat.le_refl _) true [] r s h
    exact ⟨w, hw, nw, hne rfl (by simp)⟩

/-- The fueled grammar: consumed segments, alternative counts and pipe
counts, for quote-free inputs.  The token-list conjunct also shows `many0`
never fails recoverably (every token parser consumes input). -/
theorem pack_count : ∀ f : Nat,
    (∀ i r v, noQuote i → (pack f).pft i = .ok (r, v) →
      ∃ w n, i = w ++ r ∧ v.length = n + 1
        ∧ (∀ k, topPipes (w ++ k) 0 = n + topPipes k 0) ∧ deepNeutral w)
    ∧ (∀ i acc r v, noQuote i → (pack f).tmplAux i acc = .ok (r, v) →
      ∃ w n, i = w ++ r ∧ v.length = acc.length + n
        ∧ (∀ k, topPipes (w ++ k) 0 = n + topPipes k 0) ∧ deepNeutral w)
    ∧ (∀ i acc, noQuote i →
      (∀ r v, (pack f).tla i acc = .ok (r, v) → ∃ w, i = w ++ r ∧ scanNeutral w)
      ∧ (∀ e, (pack f).tla i acc ≠ .error (.err e)))
    ∧ (∀ i r v, noQuote i → (pack f).prt i = .ok (r, v) →
      ∃ w, i = w ++ r ∧ scanNeutral w ∧ w ≠ []) := by
  intro f
  induction f with
  | zero =>
    refine ⟨?_, ?_, ?_, ?_⟩
    · intro i r v _ h
      exact Except.noConfusion h
    · intro i acc r v _ h
      exact Except.noConfusion h
    · intro i acc _
      refine ⟨fun r v h => Except.noConfusion h, fun e heq => ?_⟩
      injection heq with h'
      exact NomErr.noConfusion h'
    · intro i r v _ h
      exact Except.noConfusion h
  | succ f ih =>
    obtain ⟨ihpft, ihtmpl, ihtla, ihprt⟩ := ih
    refine ⟨?_, ?_, ?_, ?_⟩
    · -- pft
      intro i r v hnq h
      rw [pft_step] at h
      cases h1 : (pack f).tla i [] with
      | error e1 =>
        cases e1 with
        | err pe => exact absurd h1 ((ihtla i [] hnq).2 pe)
        | fail pe => simp only [h1] at h; exact Except.noConfusion h
        | fuel => simp only [h1] at h; exact Except.noConfusion h
      | ok pr =>
        obtain ⟨i1, tl⟩ := pr
        simp only [h1] at h
        obtain ⟨w1, hw1, n1⟩ := (ihtla i [] hnq).1 i1 tl h1
        have hnq1 : noQuote i1 := by
          rw [hw1] at hnq
          exact noQuote_suffix hnq
        obtain ⟨w2, n, hw2, hlenv, hcnt, hdeep⟩ := ihtmpl i1 [tl] r v hnq1 h
        refine ⟨w1 ++ w2, n, ?_, ?_, ?_, ?_⟩
        · rw [hw1, hw2, List.append_assoc]
        · simp only [List.length_singleton] at hlenv
          omega
        · intro k
          rw [List.append_assoc, n1 (w2 ++ k) 0]
          exact hcnt k
        · exact deepApp (snDeep n1) hdeep
    · -- tmplAux
      intro i acc r v hnq h
      rw [tmplAux_step] at h
      cases h1 : charP '|' i with
      | error e1 =>
        cases e1 with
        | err pe =>
          simp only [h1] at h
          injection h with h'
          obtain ⟨hr, hv⟩ := Prod.mk.inj h'
          refine ⟨[], 0, by rw [← hr]; rfl, by rw [← hv]; omega, ?_, ?_⟩
          · intro k
            simp
          · intro k d _
            rfl
        | fail pe => simp only [h1] at h; exact Except.noConfusion h
        | fuel => simp only [h1] at h; exact Except.noConfusion h
      | ok pr =>
        obtain ⟨i1, sep⟩ := pr
        obtain ⟨hi, -⟩ := charP_ok h1
        simp only [h1] at h
        by_cases hlen : i1.length = i.length
        · rw [if_pos hlen] at h
          exact Except.noConfusion h
        · rw [if_neg hlen] at h
          cases h2 : (pack f).tla i1 [] with
          | error e2 =>
            cases e2 with
            | err pe =>
              simp only [h2] at h
              injection h with h'
              obtain ⟨hr, hv⟩ := Prod.mk.inj h'
              refine ⟨[], 0, by rw [← hr]; rfl, by rw [← hv]; omega, ?_, ?_⟩
              · intro k
                simp
              · intro k d _
                rfl
            | fail pe => simp only [h2] at h; exact Except.noConfusion h
            | fuel => simp only [h2] at h; exact Except.noConfusion h
          | ok pr2 =>
            obtain ⟨i2, tl⟩ := pr2
            simp only [h2] at h
            have hnq1 : noQuote i1 := fun c hc => hnq c (by rw [hi]; simp [hc])
            obtain ⟨w2, hw2, n2⟩ := (ihtla i1 [] hnq1).1 i2 tl h2
            have hnq2 : noQuote i2 := by
              rw [hw2] at hnq1
              exact noQuote_suffix hnq1
            obtain ⟨w3, n, hw3, hlenv, hcnt, hdeep⟩ := ihtmpl i2 (acc ++ [tl]) r v hnq2 h
            refine ⟨'|' :: (w2 ++ w3), n + 1, ?_, ?_, ?_, ?_⟩
            · rw [hi, hw2, hw3]
              simp
            · simp only [List.length_append, List.length_singleton] at hlenv
              omega
            · intro k
              rw [List.cons_append, topPipes_pipe, List.append_assoc,
                n2 (w3 ++ k) 0, hcnt k]
              simp
              omega
            · intro k d hd
              rw [List.cons_append, topPipes_pipe, List.append_assoc,
                n2 (w3 ++ k) d, hdeep k d hd]
              have hd0 : ¬(d = 0) := by omega
              rw [if_neg hd0]
              simp
    · -- tla
      intro i acc hnq
      constructor
      · intro r v h
        rw [tla_step] at h
        cases hs : parse_string i with
        | ok pr =>
          obtain ⟨r1, s1⟩ := pr
          simp only [hs] at h
          by_cases hlen : r1.length = i.length
          · rw [if_pos hlen] at h
            exact Except.noConfusion h
          · rw [if_neg hlen] at h
            obtain ⟨w1, hw1, n1, -⟩ := parse_string_count hs
            have hnq1 : noQuote r1 := by
              rw [hw1] at hnq
              exact noQuote_suffix hnq
            obtain ⟨w2, hw2, n2⟩ := (ihtla r1 (acc ++ [Token.text s1]) hnq1).1 r v h
            exact snTrans hw1 hw2 n1 n2
        | error es =>
          cases es with
          | fail pe => simp only [hs] at h; exact Except.noConfusion h
          | fuel => simp only [hs] at h; exact Except.noConfusion h
          | err pe =>
            cases hp : parse_placeholder i with
            | ok pr =>
              obtain ⟨r1, ph⟩ := pr
              simp only [hs, hp] at h
              by_cases hlen : r1.length = i.length
              · rw [if_pos hlen] at h
                exact Except.noConfusion h
              · rw [if_neg hlen] at h
                obtain ⟨w1, hw1, n1, -⟩ := parse_placeholder_count hnq hp
                have hnq1 : noQuote r1 := by
                  rw [hw1] at hnq
                  exact noQuote_suffix hnq
                obtain ⟨w2, hw2, n2⟩ :=
                  (ihtla r1 (acc ++ [Token.placeholder ph]) hnq1).1 r v h
                exact snTrans hw1 hw2 n1 n2
            | error ep =>
              cases ep with
              | fail pe2 => simp only [hs, hp] at h; exact Except.noConfusion h
              | fuel => simp only [hs, hp] at h; exact Except.noConfusion h
              | err pe2 =>
                cases hic : parse_icon i with
                | ok pr =>
                  obtain ⟨r1, s1⟩ := pr
                  simp only [hs, hp, hic] at h
                  by_cases hlen : r1.length = i.length
                  · rw [if_pos hlen] at h
                    exact Except.noConfusion h
                  · rw [if_neg hlen] at h
                    obtain ⟨w1, hw1, n1, -⟩ := parse_icon_count hic
                    have hnq1 : noQuote r1 := by
                      rw [hw1] at hnq
                      exact noQuote_suffix hnq
                    obtain ⟨w2, hw2, n2⟩ :=
                      (ihtla r1 (acc ++ [Token.icon s1]) hnq1).1 r v h
                    exact snTrans hw1 hw2 n1 n2
                | error ei =>
                  cases ei with
                  | fail pe3 => simp only [hs, hp, hic] at h; exact Except.noConfusion h
                  | fuel => simp only [hs, hp, hic] at h; exact Except.noConfusion h
                  | err pe3 =>
                    cases hr : (pack f).prt i with
                    | ok pr =>
                      obtain ⟨r1, t1⟩ := pr
                      simp only [hs, hp, hic, hr] at h
                      by_cases hlen : r1.length = i.length
                      · rw [if_pos hlen] at h
                        exact Except.noConfusion h
                      · rw [if_neg hlen] at h
                        obtain ⟨w1, hw1, n1, -⟩ := ihprt i r1 t1 hnq hr
                        have hnq1 : noQuote r1 := by
                          rw [hw1] at hnq
                          exact noQuote_suffix hnq
                        obtain ⟨w2, hw2, n2⟩ :=
                          (ihtla r1 (acc ++ [Token.recursive t1]) hnq1).1 r v h
                        exact snTrans hw1 hw2 n1 n2
                    | error er =>
                      cases er with
                      | fail pe4 =>
                        simp only [hs, hp, hic, hr] at h
                        exact Except.noConfusion h
                      | fuel =>
                        simp only [hs, hp, hic, hr] at h
                        exact Except.noConfusion h
                      | err pe4 =>
                        simp only [hs, hp, hic, hr] at h
                        injection h with h'
                        obtain ⟨hrr, -⟩ := Prod.mk.inj h'
                        exact ⟨[], by rw [← hrr]; rfl, snNil⟩
      · intro e heq
        rw [tla_step] at heq
        cases hs : parse_string i with
        | ok pr =>
          obtain ⟨r1, s1⟩ := pr
          simp only [hs] at heq
          obtain ⟨w1, hw1, -, hne1⟩ := parse_string_count hs
          have hw1len : i.length = w1.length + r1.length := by
            rw [hw1, List.length_append]
          have hpos : 0 < w1.length := List.length_pos.mpr hne1
          by_cases hlen : r1.length = i.length
          · omega
          · rw [if_neg hlen] at heq
            have hnq1 : noQuote r1 := by
              rw [hw1] at hnq
              exact noQuote_suffix hnq
            exact (ihtla r1 (acc ++ [Token.text s1]) hnq1).2 e heq
        | error es =>
          cases es with
          | fail pe => simp only [hs] at heq; injection heq with h'; exact NomErr.noConfusion h'
          | fuel => simp only [hs] at heq; injection heq with h'; exact NomErr.noConfusion h'
          | err pe =>
            cases hp : parse_placeholder i with
            | ok pr =>
              obtain ⟨r1, ph⟩ := pr
              simp only [hs, hp] at heq
              obtain ⟨w1, hw1, -, hne1⟩ := parse_placeholder_count hnq hp
              have hw1len : i.length = w1.length + r1.length := by
                rw [hw1, List.length_append]
              have hpos : 0 < w1.length := List.length_pos.mpr hne1
              by_cases hlen : r1.length = i.length
              · omega
              · rw [if_neg hlen] at heq
                have hnq1 : noQuote r1 := by
                  rw [hw1] at hnq
                  exact noQuote_suffix hnq
                exact (ihtla r1 (acc ++ [Token.placeholder ph]) hnq1).2 e heq
            | error ep =>
              cases ep with
              | fail pe2 =>
                simp only [hs, hp] at heq
                injection heq with h'
                exact NomErr.noConfusion h'
              | fuel =>
                simp only [hs, hp] at heq
                injection heq with h'
                exact NomErr.noConfusion h'
              | err pe2 =>
                cases hic : parse_icon i with
                | ok pr =>
                  obtain ⟨r1, s1⟩ := pr
                  simp only [hs, hp, hic] at heq
                  obtain ⟨w1, hw1, -, hne1⟩ := parse_icon_count hic
                  have hw1len : i.length = w1.length + r1.length := by
                    rw [hw1, List.length_append]
                  have hpos : 0 < w1.length := List.length_pos.mpr hne1
                  by_cases hlen : r1.length = i.length
                  · omega
                  · rw [if_neg hlen] at heq
                    have hnq1 : noQuote r1 := by
                      rw [hw1] at hnq
                      exact noQuote_suffix hnq
                    exact (ihtla r1 (acc ++ [Token.icon s1]) hnq1).2 e heq
                | error ei =>
                  cases ei with
                  | fail pe3 =>
                    simp only [hs, hp, hic] at heq
                    injection heq with h'
                    exact NomErr.noConfusion h'
                  | fuel =>
                    simp only [hs, hp, hic] at heq
                    injection heq with h'
                    exact NomErr.noConfusion h'
                  | err pe3 =>
                    cases hr : (pack f).prt i with
                    | ok pr =>
                      obtain ⟨r1, t1⟩ := pr
                      simp only [hs, hp, hic, hr] at heq
                      obtain ⟨w1, hw1, -, hne1⟩ := ihprt i r1 t1 hnq hr
                      have hw1len : i.length = w1.length + r1.length := by
                        rw [hw1, List.length_append]
                      have hpos : 0 < w1.length := List.length_pos.mpr hne1
                      by_cases hlen : r1.length = i.length
                      · omega
                      · rw [if_neg hlen] at heq
                        have hnq1 : noQuote r1 := by
                          rw [hw1] at hnq
                          exact noQuote_suffix hnq
                        exact (ihtla r1 (acc ++ [Token.recursive t1]) hnq1).2 e heq
                    | error er =>
                      cases er with
                      | fail pe4 =>
                        simp only [hs, hp, hic, hr] at heq
                        injection heq with h'
                        exact NomErr.noConfusion h'
                      | fuel =>
                        simp only [hs, hp, hic, hr] at heq
                        injection heq with h'
                        exact NomErr.noConfusion h'
                      | err pe4 =>
                        simp only [hs, hp, hic, hr] at heq
                        exact Except.noConfusion heq
    · -- prt
      intro i r v hnq h
      rw [prt_step] at h
      cases h1 : charP '{' i with
      | error e1 => simp only [h1] at h; exact Except.noConfusion h
      | ok pr =>
        obtain ⟨i1, brace⟩ := pr
        obtain ⟨hi, -⟩ := charP_ok h1
        simp only [h1] at h
        have hnq1 : noQuote i1 := fun c hc => hnq c (by rw [hi]; simp [hc])
        cases h2 : (pack f).pft i1 with
        | error e2 =>
          cases e2 <;> (simp only [h2, cutR] at h; exact Except.noConfusion h)
        | ok pr2 =>
          obtain ⟨i2, tpl⟩ := pr2
          simp only [h2] at h
          obtain ⟨w2, n, hw2, -, -, hdeep⟩ := ihpft i1 i2 tpl hnq1 h2
          cases h3 : charP '}' i2 with
          | error e3 =>
            cases e3 <;> (simp only [h3, cutR] at h; exact Except.noConfusion h)
          | ok pr3 =>
            obtain ⟨i3, brace2⟩ := pr3
            obtain ⟨hi2, -⟩ := charP_ok h3
            simp only [h3, cutR] at h
            injection h with h'
            obtain ⟨hr, -⟩ := Prod.mk.inj h'
            refine ⟨'{' :: (w2 ++ ['}']), ?_, snBrace hdeep, by simp⟩
            rw [← hr, hi, hw2, hi2]
            simp

/-- C2, amended: for a quote-free input, a successful parse has exactly
`n + 1` alternatives, where `n` is the number of unescaped top-level `|`
characters outside braces. -/
theorem c2_alternative_count : ∀ (s : Str) (tpl : FormatTemplate),
    noQuote s → parse_full s = .ok tpl → tpl.length = topPipes s 0 + 1 := by
  intro s tpl hnq h
  have hp := (c1_full_consumption s).1 tpl h
  obtain ⟨w, n, hw, hlen, hcnt, -⟩ := (pack_count (defaultFuel s)).1 s [] tpl hnq hp
  have hws : w = s := by
    rw [hw]
    simp
  have := hcnt []
  rw [hws] at this
  simp only [List.append_nil] at this
  have htp : topPipes s 0 = n := by
    rw [this]
    rfl
  rw [hlen, htp]

/-- Witness for the amended C2 at `"a|b"`: two alternatives, one pipe. -/
theorem c2_witness :
    parse_full (("a|b").data)
      = .ok [[Token.text (("a").data)], [Token.text (("b").data)]]
    ∧ ([[Token.text (("a").data)], [Token.text (("b").data)]] : FormatTemplate).length
      = topPipes (("a|b").data) 0 + 1 :=
  ⟨rfl, c2_alternative_count (("a|b").data)
    [[Token.text (("a").data)], [Token.text (("b").data)]]
    (show ∀ c ∈ (("a|b").data), ¬(c = '\'') by decide) rfl⟩

/-! ## Claim C6: nesting

First, fuel monotonicity: any result other than fuel exhaustion is stable
under extra fuel.  Then an extension lemma: appending material that starts
with `}` to an input does not disturb a successful parse whose remainder is
empty or starts with `}` (or `|` inside a token list).  C6 composes the two. -/

theorem errNeFuel {α : Type} (e : PError) :
    (.error (.err e) : PResult α) ≠ .error .fuel := by
  intro h
  injection h with h'
  exact NomErr.noConfusion h'

theorem failNeFuel {α : Type} (e : PError) :
    (.error (.fail e) : PResult α) ≠ .error .fuel := by
  intro h
  injection h with h'
  exact NomErr.noConfusion h'

theorem okNeFuel {α : Type} (p : Str × α) : (.ok p : PResult α) ≠ .error .fuel :=
  fun h => Except.noConfusion h

theorem pack_mono : ∀ f f' : Nat, f ≤ f' →
    (∀ i, (pack f).pft i ≠ .error .fuel → (pack f').pft i = (pack f).pft i)
    ∧ (∀ i acc, (pack f).tmplAux i acc ≠ .error .fuel →
        (pack f').tmplAux i acc = (pack f).tmplAux i acc)
    ∧ (∀ i acc, (pack f).tla i acc ≠ .error .fuel →
        (pack f').tla i acc = (pack f).tla i acc)
    ∧ (∀ i, (pack f).prt i ≠ .error .fuel → (pack f').prt i = (pack f).prt i) := by
  intro f
  induction f with
  | zero =>
    intro f' _
    refine ⟨?_, ?_, ?_, ?_⟩
    · intro i h
      exact absurd rfl h
    · intro i acc h
      exact absurd rfl h
    · intro i acc h
      exact absurd rfl h
    · intro i h
      exact absurd rfl h
  | succ f ih =>
    intro f' hle
    cases f' with
    | zero => exact absurd hle (by omega)
    | succ f'' =>
      have hle2 : f ≤ f'' := by omega
      obtain ⟨mpft, mtmpl, mtla, mprt⟩ := ih f'' hle2
      refine ⟨?_, ?_, ?_, ?_⟩
      · -- pft
        intro i h
        cases h1 : (pack f).tla i [] with
        | error e1 =>
          cases e1 with
          | err pe =>
            have h1' : (pack f'').tla i [] = .error (.err pe) :=
              (mtla i [] (by rw [h1]; exact errNeFuel pe)).trans h1
            simp only [pft_step, h1, h1']
          | fail pe =>
            have h1' : (pack f'').tla i [] = .error (.fail pe) :=
              (mtla i [] (by rw [h1]; exact failNeFuel pe)).trans h1
            simp only [pft_step, h1, h1']
          | fuel => exact absurd (by simp only [pft_step, h1]) h
        | ok pr =>
          obtain ⟨i1, tl⟩ := pr
          have h1' : (pack f'').tla i [] = .ok (i1, tl) :=
            (mtla i [] (by rw [h1]; exact okNeFuel _)).trans h1
          simp only [pft_step, h1, h1']
          refine mtmpl i1 [tl] ?_
          intro hc
          exact h (by simp only [pft_step, h1, hc])
      · -- tmplAux
        intro i acc h
        cases h1 : charP '|' i with
        | error e1 =>
          cases e1 <;> simp only [tmplAux_step, h1]
        | ok pr =>
          obtain ⟨i1, sep⟩ := pr
          simp only [tmplAux_step, h1]
          by_cases hlen : i1.length = i.length
          · rw [if_pos hlen, if_pos hlen]
          · rw [if_neg hlen, if_neg hlen]
            cases h2 : (pack f).tla i1 [] with
            | error e2 =>
              cases e2 with
              | err pe =>
                have h2' : (pack f'').tla i1 [] = .error (.err pe) :=
                  (mtla i1 [] (by rw [h2]; exact errNeFuel pe)).trans h2
                simp only [h2, h2']
              | fail pe =>
                have h2' : (pack f'').tla i1 [] = .error (.fail pe) :=
                  (mtla i1 [] (by rw [h2]; exact failNeFuel pe)).trans h2
                simp only [h2, h2']
              | fuel =>
                refine absurd ?_ h
                simp only [tmplAux_step, h1]
                rw [if_neg hlen]
                simp only [h2]
            | ok pr2 =>
              obtain ⟨i2, tl⟩ := pr2
              have h2' : (pack f'').tla i1 [] = .ok (i2, tl) :=
                (mtla i1 [] (by rw [h2]; exact okNeFuel _)).trans h2
              simp only [h2, h2']
              refine mtmpl i2 (acc ++ [tl]) ?_
              intro hc
              refine h ?_
              simp only [tmplAux_step, h1]
              rw [if_neg hlen]
              simp only [h2, hc]
      · -- tla
        intro i acc h
        cases hs : parse_string i with
        | ok pr =>
          obtain ⟨r1, s1⟩ := pr
          simp only [tla_step, hs]
          by_cases hlen : r1.length = i.length
          · rw [if_pos hlen, if_pos hlen]
          · rw [if_neg hlen, if_neg hlen]
            refine mtla r1 (acc ++ [Token.text s1]) ?_
            intro hc
            refine h ?_
            simp only [tla_step, hs]
            rw [if_neg hlen]
            exact hc
        | error es =>
          cases es with
          | fail pe => simp only [tla_step, hs]
          | fuel => simp only [tla_step, hs]
          | err pe =>
            cases hp : parse_placeholder i with
            | ok pr =>
              obtain ⟨r1, ph⟩ := pr
              simp only [tla_step, hs, hp]
              by_cases hlen : r1.length = i.length
              · rw [if_pos hlen, if_pos hlen]
              · rw [if_neg hlen, if_neg hlen]
                refine mtla r1 (acc ++ [Token.placeholder ph]) ?_
                intro hc
                refine h ?_
                simp only [tla_step, hs, hp]
                rw [if_neg hlen]
                exact hc
            | error ep =>
              cases ep with
              | fail pe2 => simp only [tla_step, hs, hp]
              | fuel => simp only [tla_step, hs, hp]
              | err pe2 =>
                cases hic : parse_icon i with
                | ok pr =>
                  obtain ⟨r1, s1⟩ := pr
                  simp only [tla_step, hs, hp, hic]
                  by_cases hlen : r1.length = i.length
                  · rw [if_pos hlen, if_pos hlen]
                  · rw [if_neg hlen, if_neg hlen]
                    refine mtla r1 (acc ++ [Token.icon s1]) ?_
                    intro hc
                    refine h ?_
                    simp only [tla_step, hs, hp, hic]
                    rw [if_neg hlen]
                    exact hc
                | error ei =>
                  cases ei with
                  | fail pe3 => simp only [tla_step, hs, hp, hic]
                  | fuel => simp only [tla_step, hs, hp, hic]
                  | err pe3 =>
                    cases hprt : (pack f).prt i with
                    | ok pr =>
                      obtain ⟨r1, t1⟩ := pr
                      have hprt' : (pack f'').prt i = .ok (r1, t1) :=
                        (mprt i (by rw [hprt]; exact okNeFuel _)).trans hprt
                      simp only [tla_step, hs, hp, hic, hprt, hprt']
                      by_cases hlen : r1.length = i.length
                      · rw [if_pos hlen, if_pos hlen]
                      · rw [if_neg hlen, if_neg hlen]
                        refine mtla r1 (acc ++ [Token.recursive t1]) ?_
                        intro hc
                        refine h ?_
                        simp only [tla_step, hs, hp, hic, hprt]
                        rw [if_neg hlen]
                        exact hc
                    | error er =>
                      cases er with
                      | err pe4 =>
                        have hprt' : (pack f'').prt i = .error (.err pe4) :=
                          (mprt i (by rw [hprt]; exact errNeFuel pe4)).trans hprt
                        simp only [tla_step, hs, hp, hic, hprt, hprt']
                      | fail pe4 =>
                        have hprt' : (pack f'').prt i = .error (.fail pe4) :=
                          (mprt i (by rw [hprt]; exact failNeFuel pe4)).trans hprt
                        simp only [tla_step, hs, hp, hic, hprt, hprt']
                      | fuel =>
                        exact absurd (by simp only [tla_step, hs, hp, hic, hprt]) h
      · -- prt
        intro i h
        cases h1 : charP '{' i with
        | error e1 => simp only [prt_step, h1]
        | ok pr =>
          obtain ⟨i1, brace⟩ := pr
          simp only [prt_step, h1]
          cases h2 : (pack f).pft i1 with
          | error e2 =>
            cases e2 with
            | err pe =>
              have h2' : (pack f'').pft i1 = .error (.err pe) :=
                (mpft i1 (by rw [h2]; exact errNeFuel pe)).trans h2
              simp only [h2, h2']
            | fail pe =>
              have h2' : (pack f'').pft i1 = .error (.fail pe) :=
                (mpft i1 (by rw [h2]; exact failNeFuel pe)).trans h2
              simp only [h2, h2']
            | fuel =>
              refine absurd ?_ h
              simp only [prt_step, h1, h2]
              rfl
          | ok pr2 =>
            obtain ⟨i2, tpl⟩ := pr2
            have h2' : (pack f'').pft i1 = .ok (i2, tpl) :=
              (mpft i1 (by rw [h2]; exact okNeFuel _)).trans h2
            simp only [h2, h2']

/-! ### Extension by material starting with `}` -/

theorem dwHead {p : Char → Bool} : ∀ (i : Str) (c : Char),
    (i.dropWhile p).head? = some c → p c = false := by
  intro i
  induction i with
  | nil => intro c hc; exact Option.noConfusion hc
  | cons x t ih =>
    intro c hc
    simp only [List.dropWhile_cons] at hc
    cases hx : p x with
    | true => rw [hx] at hc; simp only [if_pos rfl] at hc; exact ih c hc
    | false =>
      rw [hx] at hc
      simp only [Bool.false_eq_true, if_false, List.head?_cons, Option.some.injEq] at hc
      rw [← hc]
      exact hx

theorem dwAppendStop {p : Char → Bool} : ∀ (xs ys : Str),
    xs.dropWhile p ≠ [] → (xs ++ ys).dropWhile p = xs.dropWhile p ++ ys
  | [], _, h => absurd rfl h
  | c :: xs, ys, h => by
    by_cases hq : p c
    · have h' : xs.dropWhile p ≠ [] := by
        rw [List.dropWhile_cons, if_pos hq] at h
        exact h
      calc (c :: xs ++ ys).dropWhile p
          = (xs ++ ys).dropWhile p := by
            rw [show c :: xs ++ ys = c :: (xs ++ ys) from rfl,
              List.dropWhile_cons, if_pos hq]
        _ = xs.dropWhile p ++ ys := dwAppendStop xs ys h'
        _ = (c :: xs).dropWhile p ++ ys := by
            rw [List.dropWhile_cons, if_pos hq]
    · calc (c :: xs ++ ys).dropWhile p
          = c :: (xs ++ ys) := by
            rw [show c :: xs ++ ys = c :: (xs ++ ys) from rfl,
              List.dropWhile_cons, if_neg hq]
        _ = (c :: xs).dropWhile p ++ ys := by
            rw [List.dropWhile_cons, if_neg hq]
            rfl

theorem dwExt {p : Char → Bool} (hp : p '}' = false) (ex : Str) :
    ∀ i : Str, ((i ++ '}' :: ex).dropWhile p) = i.dropWhile p ++ '}' :: ex := by
  intro i
  induction i with
  | nil =>
    simp only [List.nil_append, List.dropWhile_cons, hp]
    simp
  | cons x t ih =>
    simp only [List.cons_append, List.dropWhile_cons]
    cases hx : p x with
    | true => simp only [if_pos rfl]; exact ih
    | false => simp

theorem charP_ext {c : Char} {i r : Str} {v : Char} (et : Str)
    (h : charP c i = .ok (r, v)) : charP c (i ++ et) = .ok (r ++ et, v) := by
  obtain ⟨hi, hv⟩ := charP_ok h
  rw [hi, hv]
  simp [charP]

theorem charP_fail_ext {c : Char} {i : Str} {e : PError} (ex : Str)
    (hne : ¬('}' = c)) (h : charP c i = .error (.err e)) :
    ∃ e2, charP c (i ++ '}' :: ex) = .error (.err e2) := by
  cases i with
  | nil =>
    refine ⟨.expected c (some '}'), ?_⟩
    simp [charP, hne]
  | cons x t =>
    by_cases hx : x = c
    · rw [show charP c (x :: t) = .ok (t, c) by simp [charP, hx]] at h
      exact absurd h (by simp)
    · refine ⟨.expected c (some x), ?_⟩
      simp [charP, hx]

theorem takeWhile1P_ext {p : Char → Bool} (hp : p '}' = false) {i r v : Str} (ex : Str)
    (h : takeWhile1P p i = .ok (r, v)) :
    takeWhile1P p (i ++ '}' :: ex) = .ok (r ++ '}' :: ex, v) := by
  obtain ⟨hr, hv, hne⟩ := takeWhile1P_ok h
  have hall : ∀ c ∈ v, p c := by
    intro c hc
    rw [hv] at hc
    exact List.mem_takeWhile_imp hc
  have hsplit : i = v ++ r := by
    conv_lhs => rw [twdw p i]
    rw [hv, hr]
  have htw : (i ++ '}' :: ex).takeWhile p = v := by
    rw [hsplit, List.append_assoc, twAppend (r ++ '}' :: ex) hall]
    have : (r ++ '}' :: ex).takeWhile p = [] := by
      cases hcr : r with
      | nil =>
        simp only [List.nil_append, List.takeWhile_cons, hp]
        simp
      | cons c t =>
        have hc : p c = false := by
          refine dwHead i c ?_
          rw [← hr, hcr]
          rfl
        simp only [List.cons_append, List.takeWhile_cons, hc]
        simp
    rw [this, List.append_nil]
  have hdw : (i ++ '}' :: ex).dropWhile p = r ++ '}' :: ex := by
    rw [hsplit, List.append_assoc, dwAppend (r ++ '}' :: ex) hall]
    cases hcr : r with
    | nil =>
      simp only [List.nil_append, List.dropWhile_cons, hp]
      simp
    | cons c t =>
      have hc : p c = false := by
        refine dwHead i c ?_
        rw [← hr, hcr]
        rfl
      simp only [List.cons_append, List.dropWhile_cons, hc]
      simp
  cases hiv : v with
  | nil => exact absurd hiv hne
  | cons c0 t0 =>
    have hc0 : p c0 := hall c0 (by rw [hiv]; simp)
    have hhead : ∃ t1, i ++ '}' :: ex = c0 :: t1 := by
      rw [hsplit, hiv]
      exact ⟨t0 ++ r ++ '}' :: ex, by simp⟩
    obtain ⟨t1, ht1⟩ := hhead
    rw [ht1]
    rw [ht1] at htw hdw
    simp only [takeWhile1P, if_pos hc0]
    rw [htw, hdw, hiv]

theorem takeWhile1P_fail_ext {p : Char → Bool} (hp : p '}' = false) {i : Str}
    {e : PError} (ex : Str) (h : takeWhile1P p i = .error (.err e)) :
    ∃ e2, takeWhile1P p (i ++ '}' :: ex) = .error (.err e2) := by
  cases i with
  | nil =>
    refine ⟨.other ('}' :: ex) .takeWhile1, ?_⟩
    simp only [List.nil_append, takeWhile1P, hp]
    simp
  | cons x t =>
    by_cases hx : p x
    · simp only [takeWhile1P, if_pos hx] at h
      exact absurd h (by simp)
    · refine ⟨.other ((x :: t) ++ '}' :: ex) .takeWhile1, ?_⟩
      have hx' : p x = false := by
        cases hxx : p x with
        | true => exact absurd hxx hx
        | false => rfl
      simp only [List.cons_append, takeWhile1P, hx']
      simp

theorem arg1_ext {i r v : Str} (ex : Str) (h : arg1 i = .ok (r, v)) :
    arg1 (i ++ '}' :: ex) = .ok (r ++ '}' :: ex, v) := by
  cases hb : takeWhile1P bareChar i with
  | ok pr =>
    obtain ⟨r1, v1⟩ := pr
    unfold arg1 at h
    rw [hb] at h
    injection h with h'
    obtain ⟨hr, hv⟩ := Prod.mk.inj h'
    have hb' := takeWhile1P_ext (by decide) ex hb
    unfold arg1
    rw [hb', hr, hv]
  | error e1 =>
    cases e1 with
    | err pe =>
      cases hq : charP '\'' i with
      | error e2 =>
        simp only [arg1, hb, hq] at h
        exact absurd h (by cases e2 <;> simp)
      | ok pr2 =>
        obtain ⟨i1, q⟩ := pr2
        cases hq2 : charP '\'' (i1.dropWhile (fun c => c ≠ '\'')) with
        | error e3 =>
          simp only [arg1, hb, hq, hq2, cutR] at h
          exact absurd h (by cases e3 <;> simp [cutR])
        | ok pr3 =>
          obtain ⟨i2, q2⟩ := pr3
          simp only [arg1, hb, hq, hq2, cutR] at h
          injection h with h'
          obtain ⟨hr, hv⟩ := Prod.mk.inj h'
          obtain ⟨be, hbeq⟩ := takeWhile1P_fail_ext (by decide) ex hb
          have hq' := charP_ext ('}' :: ex) hq
          obtain ⟨hi2eq, -⟩ := charP_ok hq2
          have hstop : i1.dropWhile (fun c => c ≠ '\'') ≠ [] := by
            rw [hi2eq]
            simp
          have hdw' : ((i1 ++ '}' :: ex).dropWhile (fun c => c ≠ '\''))
              = i1.dropWhile (fun c => c ≠ '\'') ++ '}' :: ex :=
            dwAppendStop i1 ('}' :: ex) hstop
          have htw' : ((i1 ++ '}' :: ex).takeWhile (fun c => c ≠ '\''))
              = i1.takeWhile (fun c => c ≠ '\'') :=
            twAppendStop i1 ('}' :: ex) hstop
          have hq2' : charP '\'' ((i1 ++ '}' :: ex).dropWhile (fun c => c ≠ '\''))
              = .ok (i2 ++ '}' :: ex, '\'') := by
            rw [hdw', hi2eq]
            simp [charP]
          simp only [arg1, hbeq, hq', hq2', cutR, htw']
          rw [← hr, ← hv]
    | fail pe =>
      unfold arg1 at h
      rw [hb] at h
      exact absurd h (by simp)
    | fuel =>
      unfold arg1 at h
      rw [hb] at h
      exact absurd h (by simp)

theorem arg1_fail_ext {i : Str} {e : PError} (ex : Str)
    (h : arg1 i = .error (.err e)) :
    ∃ e2, arg1 (i ++ '}' :: ex) = .error (.err e2) := by
  cases hb : takeWhile1P bareChar i with
  | ok pr =>
    obtain ⟨r1, v1⟩ := pr
    unfold arg1 at h
    rw [hb] at h
    exact absurd h (by simp)
  | error e1 =>
    cases e1 with
    | err pe =>
      cases hq : charP '\'' i with
      | ok pr2 =>
        obtain ⟨i1, q⟩ := pr2
        cases hq2 : charP '\'' (i1.dropWhile (fun c => c ≠ '\'')) with
        | error e3 =>
          simp only [arg1, hb, hq, hq2, cutR] at h
          cases e3 <;> simp [cutR] at h
        | ok pr3 =>
          simp only [arg1, hb, hq, hq2, cutR] at h
          exact absurd h (by simp)
      | error e2 =>
        cases e2 with
        | err pe2 =>
          obtain ⟨hbe, hbeq⟩ := takeWhile1P_fail_ext (by decide) ex hb
          obtain ⟨qe, hqeq⟩ := charP_fail_ext ex (by decide) hq
          refine ⟨qe, ?_⟩
          simp only [arg1, hbeq, hqeq]
        | fail pe2 =>
          simp only [arg1, hb, hq] at h
          exact absurd h (by simp)
        | fuel =>
          simp only [arg1, hb, hq] at h
          exact absurd h (by simp)
    | fail pe =>
      unfold arg1 at h
      rw [hb] at h
      exact absurd h (by simp)
    | fuel =>
      unfold arg1 at h
      rw [hb] at h
      exact absurd h (by simp)

theorem parse_arg_ext {i r : Str} {a : Arg} (ex : Str)
    (h : parse_arg i = .ok (r, a)) :
    parse_arg (i ++ '}' :: ex) = .ok (r ++ '}' :: ex, a) := by
  cases h1 : alphanum1 i with
  | error e1 =>
    cases e1 <;> (simp only [parse_arg, h1] at h; exact Except.noConfusion h)
  | ok pr =>
    obtain ⟨i1, key⟩ := pr
    have h1' : alphanum1 (i ++ '}' :: ex) = .ok (i1 ++ '}' :: ex, key) :=
      takeWhile1P_ext (by decide) ex h1
    cases h2 : charP ':' i1 with
    | ok pr2 =>
      obtain ⟨i2, col⟩ := pr2
      have h2' := charP_ext ('}' :: ex) h2
      cases h3 : arg1 i2 with
      | ok pr3 =>
        obtain ⟨i3, v⟩ := pr3
        simp only [parse_arg, h1, h2, h3, cutR] at h
        injection h with h'
        obtain ⟨hr, ha⟩ := Prod.mk.inj h'
        have h3' := arg1_ext ex h3
        simp only [parse_arg, h1', h2', h3', cutR]
        rw [← hr, ← ha]
      | error e3 =>
        cases e3 <;>
          (simp only [parse_arg, h1, h2, h3, cutR] at h; exact Except.noConfusion h)
    | error e2 =>
      cases e2 with
      | err pe =>
        simp only [parse_arg, h1, h2] at h
        injection h with h'
        obtain ⟨hr, ha⟩ := Prod.mk.inj h'
        obtain ⟨e2', h2'⟩ := charP_fail_ext ex (by decide) h2
        simp only [parse_arg, h1', h2']
        rw [← hr, ← ha]
      | fail pe =>
        simp only [parse_arg, h1, h2] at h
        exact Except.noConfusion h
      | fuel =>
        simp only [parse_arg, h1, h2] at h
        exact Except.noConfusion h

theorem parse_arg_fail_ext {i : Str} {e : PError} (ex : Str)
    (h : parse_arg i = .error (.err e)) :
    ∃ e2, parse_arg (i ++ '}' :: ex) = .error (.err e2) := by
  cases h1 : alphanum1 i with
  | ok pr =>
    obtain ⟨i1, key⟩ := pr
    cases h2 : charP ':' i1 with
    | ok pr2 =>
      obtain ⟨i2, col⟩ := pr2
      cases h3 : arg1 i2 with
      | ok pr3 =>
        simp only [parse_arg, h1, h2, h3, cutR] at h
        exact absurd h (by simp)
      | error e3 =>
        cases e3 with
        | err pe3 =>
          simp only [parse_arg, h1, h2, h3, cutR] at h
          injection h with h'
          exact NomErr.noConfusion h'
        | fail pe3 =>
          simp only [parse_arg, h1, h2, h3, cutR] at h
          injection h with h'
          exact NomErr.noConfusion h'
        | fuel =>
          simp only [parse_arg, h1, h2, h3, cutR] at h
          injection h with h'
          exact NomErr.noConfusion h'
    | error e2 =>
      cases e2 with
      | err pe =>
        simp only [parse_arg, h1, h2] at h
        exact absurd h (by simp)
      | fail pe =>
        simp only [parse_arg, h1, h2] at h
        injection h with h'
        exact NomErr.noConfusion h'
      | fuel =>
        simp only [parse_arg, h1, h2] at h
        injection h with h'
        exact NomErr.noConfusion h'
  | error e1 =>
    cases e1 with
    | err pe =>
      obtain ⟨e1', h1'⟩ := takeWhile1P_fail_ext (p := identChar) (by decide) ex h1
      have h1'' : alphanum1 (i ++ '}' :: ex) = .error (.err e1') := h1'
      exact ⟨e1', by simp only [parse_arg, h1'']⟩
    | fail pe =>
      simp only [parse_arg, h1] at h
      injection h with h'
      exact NomErr.noConfusion h'
    | fuel =>
      simp only [parse_arg, h1] at h
      injection h with h'
      exact NomErr.noConfusion h'

theorem argListAux_ext : ∀ (f : Nat) (i : Str) (acc : List Arg) (r : Str)
    (v : List Arg) (ex : Str), argListAux f i acc = .ok (r, v) →
    argListAux f (i ++ '}' :: ex) acc = .ok (r ++ '}' :: ex, v) := by
  intro f
  induction f with
  | zero => intro i acc r v ex h; exact Except.noConfusion h
  | succ f ih =>
    intro i acc r v ex h
    unfold argListAux at h ⊢
    have hdws : ((i ++ '}' :: ex).dropWhile isAsciiWS)
        = i.dropWhile isAsciiWS ++ '}' :: ex := dwExt (by decide) ex i
    cases h2 : charP ',' (i.dropWhile isAsciiWS) with
    | error e2 =>
      cases e2 with
      | err pe =>
        simp only [h2] at h
        injection h with h'
        obtain ⟨hr, hv⟩ := Prod.mk.inj h'
        obtain ⟨e2', h2'⟩ := charP_fail_ext ex (by decide) h2
        rw [hdws]
        simp only [h2']
        rw [← hr, ← hv]
      | fail pe => simp only [h2] at h; exact Except.noConfusion h
      | fuel => simp only [h2] at h; exact Except.noConfusion h
    | ok pr2 =>
      obtain ⟨i1, comma⟩ := pr2
      simp only [h2] at h
      by_cases hlen : i1.length = i.length
      · rw [if_pos hlen] at h
        exact Except.noConfusion h
      · rw [if_neg hlen] at h
        have h2' := charP_ext ('}' :: ex) h2
        rw [hdws]
        simp only [h2']
        have hlen' : ¬((i1 ++ '}' :: ex).length = (i ++ '}' :: ex).length) := by
          simp only [List.length_append]
          omega
        rw [if_neg hlen']
        have hdws1 : ((i1 ++ '}' :: ex).dropWhile isAsciiWS)
            = i1.dropWhile isAsciiWS ++ '}' :: ex := dwExt (by decide) ex i1
        cases h3 : parse_arg (i1.dropWhile isAsciiWS) with
        | error e3 =>
          cases e3 with
          | err pe =>
            simp only [h3] at h
            injection h with h'
            obtain ⟨hr, hv⟩ := Prod.mk.inj h'
            obtain ⟨e3', h3'⟩ := parse_arg_fail_ext ex h3
            rw [hdws1]
            simp only [h3']
            rw [← hr, ← hv]
          | fail pe => simp only [h3] at h; exact Except.noConfusion h
          | fuel => simp only [h3] at h; exact Except.noConfusion h
        | ok pr3 =>
          obtain ⟨i2, a⟩ := pr3
          simp only [h3] at h
          have h3' := parse_arg_ext ex h3
          rw [hdws1]
          simp only [h3']
          exact ih i2 (acc ++ [a]) r v ex h

theorem argListAux_mono : ∀ (f f' : Nat), f ≤ f' → ∀ (i : Str) (acc : List Arg),
    argListAux f i acc ≠ .error .fuel →
    argListAux f' i acc = argListAux f i acc := by
  intro f
  induction f with
  | zero => intro f' _ i acc h; exact absurd rfl h
  | succ f ih =>
    intro f' hle i acc h
    cases f' with
    | zero => exact absurd hle (by omega)
    | succ f'' =>
      have hle2 : f ≤ f'' := by omega
      unfold argListAux at h ⊢
      cases h2 : charP ',' (i.dropWhile isAsciiWS) with
      | error e2 => cases e2 <;> simp only [h2]
      | ok pr2 =>
        obtain ⟨i1, comma⟩ := pr2
        simp only [h2] at h ⊢
        by_cases hlen : i1.length = i.length
        · rw [if_pos hlen, if_pos hlen]
        · rw [if_neg hlen, if_neg hlen]
          rw [if_neg hlen] at h
          cases h3 : parse_arg (i1.dropWhile isAsciiWS) with
          | error e3 => cases e3 <;> simp only [h3]
          | ok pr3 =>
            obtain ⟨i2, a⟩ := pr3
            simp only [h3] at h ⊢
            exact ih f'' hle2 i2 (acc ++ [a]) h

theorem argsInner_ext {fuel : Nat} {i r : Str} {v : List Arg} (ex : Str)
    (h : argsInner fuel i = .ok (r, v)) :
    argsInner fuel (i ++ '}' :: ex) = .ok (r ++ '}' :: ex, v) := by
  unfold argsInner at h ⊢
  have hdws : ((i ++ '}' :: ex).dropWhile isAsciiWS)
      = i.dropWhile isAsciiWS ++ '}' :: ex := dwExt (by decide) ex i
  cases h1 : parse_arg (i.dropWhile isAsciiWS) with
  | error e1 =>
    cases e1 with
    | err pe =>
      simp only [h1] at h
      injection h with h'
      obtain ⟨hr, hv⟩ := Prod.mk.inj h'
      obtain ⟨e1', h1'⟩ := parse_arg_fail_ext ex h1
      rw [hdws]
      simp only [h1']
      rw [← hr, ← hv]
    | fail pe => simp only [h1] at h; exact Except.noConfusion h
    | fuel => simp only [h1] at h; exact Except.noConfusion h
  | ok pr =>
    obtain ⟨i1, a⟩ := pr
    simp only [h1] at h
    have h1' := parse_arg_ext ex h1
    rw [hdws]
    simp only [h1']
    exact argListAux_ext fuel i1 [a] r v ex h

theorem argsInner_mono {f f' : Nat} (hle : f ≤ f') {i : Str}
    (h : argsInner f i ≠ .error .fuel) : argsInner f' i = argsInner f i := by
  unfold argsInner at h ⊢
  cases h1 : parse_arg (i.dropWhile isAsciiWS) with
  | error e1 => cases e1 <;> simp only [h1]
  | ok pr =>
    obtain ⟨i1, a⟩ := pr
    simp only [h1] at h ⊢
    exact argListAux_mono f f' hle i1 [a] h

theorem parse_args_ext {i r : Str} {v : List Arg} (ex : Str)
    (h : parse_args i = .ok (r, v)) :
    parse_args (i ++ '}' :: ex) = .ok (r ++ '}' :: ex, v) := by
  unfold parse_args at h ⊢
  cases h1 : charP '(' i with
  | error e1 => simp only [h1] at h; exact Except.noConfusion h
  | ok pr =>
    obtain ⟨i1, paren⟩ := pr
    simp only [h1] at h
    have h1' := charP_ext ('}' :: ex) h1
    simp only [h1']
    cases h2 : argsInner (i1.length + 1) i1 with
    | error e2 =>
      cases e2 <;> (simp only [h2, cutR] at h; exact Except.noConfusion h)
    | ok pr2 =>
      obtain ⟨i2, args⟩ := pr2
      simp only [h2] at h
      have h2a : argsInner (i1.length + 1) (i1 ++ '}' :: ex)
          = .ok (i2 ++ '}' :: ex, args) := argsInner_ext ex h2
      have h2b : argsInner ((i1 ++ '}' :: ex).length + 1) (i1 ++ '}' :: ex)
          = .ok (i2 ++ '}' :: ex, args) := by
        rw [argsInner_mono (f := i1.length + 1)
          (by simp only [List.length_append]; omega)
          (by rw [h2a]; exact okNeFuel _), h2a]
      simp only [h2b]
      cases h3 : charP ')' (i2.dropWhile isAsciiWS) with
      | error e3 =>
        cases e3 <;> (simp only [h3, cutR] at h; exact Except.noConfusion h)
      | ok pr3 =>
        obtain ⟨i3, paren2⟩ := pr3
        simp only [h3, cutR] at h
        injection h with h'
        obtain ⟨hr, hv⟩ := Prod.mk.inj h'
        have hdws : ((i2 ++ '}' :: ex).dropWhile isAsciiWS)
            = i2.dropWhile isAsciiWS ++ '}' :: ex := dwExt (by decide) ex i2
        have h3' := charP_ext ('}' :: ex) h3
        rw [hdws]
        simp only [h3', cutR]
        rw [← hr, ← hv]

theorem cutR_no_err {α : Type} (r : PResult α) (e : PError) :
    cutR r ≠ .error (.err e) := by
  cases r with
  | ok p => intro hc; exact Except.noConfusion hc
  | error e1 =>
    cases e1 with
    | err pe => intro hc; injection hc with h'; exact NomErr.noConfusion h'
    | fail pe => intro hc; injection hc with h'; exact NomErr.noConfusion h'
    | fuel => intro hc; injection hc with h'; exact NomErr.noConfusion h'

theorem parse_args_fail_ext {i : Str} {e : PError} (ex : Str)
    (h : parse_args i = .error (.err e)) :
    ∃ e2, parse_args (i ++ '}' :: ex) = .error (.err e2) := by
  unfold parse_args at h ⊢
  cases h1 : charP '(' i with
  | ok pr =>
    obtain ⟨i1, paren⟩ := pr
    simp only [h1] at h
    exact absurd h (cutR_no_err _ e)
  | error e1 =>
    cases e1 with
    | err pe =>
      obtain ⟨e1', h1'⟩ := charP_fail_ext ex (by decide) h1
      exact ⟨e1', by simp only [h1']⟩
    | fail pe =>
      simp only [h1] at h
      injection h with h'
      exact NomErr.noConfusion h'
    | fuel =>
      simp only [h1] at h
      injection h with h'
      exact NomErr.noConfusion h'

theorem parse_formatter_ext {i r : Str} {v : Formatter} (ex : Str)
    (h : parse_formatter i = .ok (r, v)) :
    parse_formatter (i ++ '}' :: ex) = .ok (r ++ '}' :: ex, v) := by
  unfold parse_formatter at h ⊢
  cases h1 : charP '.' i with
  | error e1 => simp only [h1] at h; exact Except.noConfusion h
  | ok pr =>
    obtain ⟨i1, dot⟩ := pr
    simp only [h1] at h
    have h1' := charP_ext ('}' :: ex) h1
    simp only [h1']
    cases h2 : alphanum1 i1 with
    | error e2 =>
      cases e2 <;> (simp only [h2, cutR] at h; exact Except.noConfusion h)
    | ok pr2 =>
      obtain ⟨i2, name⟩ := pr2
      simp only [h2] at h
      have h2' : alphanum1 (i1 ++ '}' :: ex) = .ok (i2 ++ '}' :: ex, name) :=
        takeWhile1P_ext (by decide) ex h2
      simp only [h2']
      cases h3 : optR i2 (parse_args i2) with
      | error e3 =>
        cases e3 <;> (simp only [h3, cutR] at h; exact Except.noConfusion h)
      | ok pr3 =>
        obtain ⟨i3, args⟩ := pr3
        simp only [h3, cutR] at h
        injection h with h'
        obtain ⟨hr, hv⟩ := Prod.mk.inj h'
        have h3' : optR (i2 ++ '}' :: ex) (parse_args (i2 ++ '}' :: ex))
            = .ok (i3 ++ '}' :: ex, args) := by
          cases hsub : parse_args i2 with
          | ok prs =>
            obtain ⟨rs, vs⟩ := prs
            rw [hsub] at h3
            simp only [optR] at h3
            injection h3 with h3i
            obtain ⟨hr3, hv3⟩ := Prod.mk.inj h3i
            rw [parse_args_ext ex hsub]
            simp only [optR]
            rw [hr3, hv3]
          | error es =>
            cases es with
            | err pe =>
              rw [hsub] at h3
              simp only [optR] at h3
              injection h3 with h3i
              obtain ⟨hr3, hv3⟩ := Prod.mk.inj h3i
              obtain ⟨e2', hsub'⟩ := parse_args_fail_ext ex hsub
              rw [hsub']
              simp only [optR]
              rw [hr3, hv3]
            | fail pe =>
              rw [hsub] at h3
              simp only [optR] at h3
              exact Except.noConfusion h3
            | fuel =>
              rw [hsub] at h3
              simp only [optR] at h3
              exact Except.noConfusion h3
        simp only [h3', cutR]
        rw [← hr, ← hv]

theorem parse_formatter_fail_ext {i : Str} {e : PError} (ex : Str)
    (h : parse_formatter i = .error (.err e)) :
    ∃ e2, parse_formatter (i ++ '}' :: ex) = .error (.err e2) := by
  unfold parse_formatter at h ⊢
  cases h1 : charP '.' i with
  | ok pr =>
    obtain ⟨i1, dot⟩ := pr
    simp only [h1] at h
    exact absurd h (cutR_no_err _ e)
  | error e1 =>
    cases e1 with
    | err pe =>
      obtain ⟨e1', h1'⟩ := charP_fail_ext ex (by decide) h1
      exact ⟨e1', by simp only [h1']⟩
    | fail pe =>
      simp only [h1] at h
      injection h with h'
      exact NomErr.noConfusion h'
    | fuel =>
      simp only [h1] at h
      injection h with h'
      exact NomErr.noConfusion h'

theorem parse_placeholder_ext {i r : Str} {v : Placeholder} (ex : Str)
    (h : parse_placeholder i = .ok (r, v)) :
    parse_placeholder (i ++ '}' :: ex) = .ok (r ++ '}' :: ex, v) := by
  unfold parse_placeholder at h ⊢
  cases h1 : charP '$' i with
  | error e1 => simp only [h1] at h; exact Except.noConfusion h
  | ok pr =>
    obtain ⟨i1, dollar⟩ := pr
    simp only [h1] at h
    have h1' := charP_ext ('}' :: ex) h1
    simp only [h1']
    cases h2 : alphanum1 i1 with
    | error e2 =>
      cases e2 <;> (simp only [h2, cutR] at h; exact Except.noConfusion h)
    | ok pr2 =>
      obtain ⟨i2, name⟩ := pr2
      simp only [h2] at h
      have h2' : alphanum1 (i1 ++ '}' :: ex) = .ok (i2 ++ '}' :: ex, name) :=
        takeWhile1P_ext (by decide) ex h2
      simp only [h2']
      cases h3 : optR i2 (parse_formatter i2) with
      | error e3 =>
        cases e3 <;> (simp only [h3, cutR] at h; exact Except.noConfusion h)
      | ok pr3 =>
        obtain ⟨i3, fmt⟩ := pr3
        simp only [h3, cutR] at h
        injection h with h'
        obtain ⟨hr, hv⟩ := Prod.mk.inj h'
        have h3' : optR (i2 ++ '}' :: ex) (parse_formatter (i2 ++ '}' :: ex))
            = .ok (i3 ++ '}' :: ex, fmt) := by
          cases hsub : parse_formatter i2 with
          | ok prs =>
            obtain ⟨rs, vs⟩ := prs
            rw [hsub] at h3
            simp only [optR] at h3
            injection h3 with h3i
            obtain ⟨hr3, hv3⟩ := Prod.mk.inj h3i
            rw [parse_formatter_ext ex hsub]
            simp only [optR]
            rw [hr3, hv3]
          | error es =>
            cases es with
            | err pe =>
              rw [hsub] at h3
              simp only [optR] at h3
              injection h3 with h3i
              obtain ⟨hr3, hv3⟩ := Prod.mk.inj h3i
              obtain ⟨e2', hsub'⟩ := parse_formatter_fail_ext ex hsub
              rw [hsub']
              simp only [optR]
              rw [hr3, hv3]
            | fail pe =>
              rw [hsub] at h3
              simp only [optR] at h3
              exact Except.noConfusion h3
            | fuel =>
              rw [hsub] at h3
              simp only [optR] at h3
              exact Except.noConfusion h3
        simp only [h3', cutR]
        rw [← hr, ← hv]

theorem parse_icon_ext {i r v : Str} (ex : Str)
    (h : parse_icon i = .ok (r, v)) :
    parse_icon (i ++ '}' :: ex) = .ok (r ++ '}' :: ex, v) := by
  unfold parse_icon at h ⊢
  cases h1 : charP '^' i with
  | error e1 => simp only [h1] at h; exact Except.noConfusion h
  | ok pr =>
    obtain ⟨i1, caret⟩ := pr
    simp only [h1] at h
    have h1' := charP_ext ('}' :: ex) h1
    simp only [h1']
    cases h2 : tagP (("icon_").data) i1 with
    | error e2 =>
      cases e2 <;> (simp only [h2, cutR] at h; exact Except.noConfusion h)
    | ok pr2 =>
      obtain ⟨i2, tg⟩ := pr2
      simp only [h2] at h
      have hi1 : i1 = (("icon_").data) ++ i2 := tagP_ok h2
      have h2' : tagP (("icon_").data) (i1 ++ '}' :: ex)
          = .ok (i2 ++ '}' :: ex, ("icon_").data) := by
        rw [hi1, List.append_assoc]
        unfold tagP
        rw [if_pos (List.isPrefixOf_iff_prefix.mpr ⟨i2 ++ '}' :: ex, rfl⟩)]
        rw [List.drop_left]
      simp only [h2']
      cases h3 : alphanum1 i2 with
      | error e3 =>
        cases e3 <;> (simp only [h3, cutR] at h; exact Except.noConfusion h)
      | ok pr3 =>
        obtain ⟨i3, name⟩ := pr3
        simp only [h3, cutR] at h
        injection h with h'
        obtain ⟨hr, hv⟩ := Prod.mk.inj h'
        have h3' : alphanum1 (i2 ++ '}' :: ex) = .ok (i3 ++ '}' :: ex, name) :=
          takeWhile1P_ext (by decide) ex h3
        simp only [h3', cutR]
        rw [← hr, ← hv]

theorem escTransGo_rbrace (ex acc : Str) :
    escTransGo ('}' :: ex) false acc = .ok ('}' :: ex, acc) := by
  cases ex with
  | nil =>
    simp only [escTransGo]
    rw [if_neg (show ¬('}' = '\\') by decide),
      if_neg (show ¬(textChar '}' = true) by decide), if_neg Bool.false_ne_true]
  | cons x tx =>
    simp only [escTransGo]
    rw [if_neg (show ¬('}' = '\\') by decide),
      if_neg (show ¬(textChar '}' = true) by decide), if_neg Bool.false_ne_true]

theorem escTransGo_ext : ∀ (n : Nat) (i : Str), i.length ≤ n →
    ∀ (b : Bool) (acc r s : Str) (ex : Str), escTransGo i b acc = .ok (r, s) →
    (b = true → i ≠ []) →
    escTransGo (i ++ '}' :: ex) b acc = .ok (r ++ '}' :: ex, s) := by
  intro n
  induction n with
  | zero =>
    intro i hlen b acc r s ex h hb
    have hi : i = [] := List.length_eq_zero.mp (Nat.le_zero.mp hlen)
    subst hi
    have hbf : b = false := by
      cases b with
      | false => rfl
      | true => exact absurd rfl (hb rfl)
    subst hbf
    simp only [escTransGo] at h
    injection h with h'
    obtain ⟨hr, hs⟩ := Prod.mk.inj h'
    rw [List.nil_append, escTransGo_rbrace, ← hr, ← hs]
    simp
  | succ n ih =>
    intro i hlen b acc r s ex h hb
    cases i with
    | nil =>
      have hbf : b = false := by
        cases b with
        | false => rfl
        | true => exact absurd rfl (hb rfl)
      subst hbf
      simp only [escTransGo] at h
      injection h with h'
      obtain ⟨hr, hs⟩ := Prod.mk.inj h'
      rw [List.nil_append, escTransGo_rbrace, ← hr, ← hs]
      simp
    | cons c rest =>
      cases rest with
      | nil =>
        simp only [escTransGo] at h
        by_cases hbs : c = '\\'
        · rw [if_pos hbs] at h
          exact Except.noConfusion h
        · rw [if_neg hbs] at h
          by_cases htc : textChar c
          · rw [if_pos htc] at h
            injection h with h'
            obtain ⟨hr, hs⟩ := Prod.mk.inj h'
            show escTransGo (c :: ('}' :: ex)) b acc = _
            simp only [escTransGo]
            rw [if_neg hbs, if_pos htc, escTransGo_rbrace, ← hr, ← hs]
            simp
          · rw [if_neg htc] at h
            cases b with
            | true => exact Except.noConfusion h
            | false =>
              rw [if_neg Bool.false_ne_true] at h
              injection h with h'
              obtain ⟨hr, hs⟩ := Prod.mk.inj h'
              show escTransGo (c :: ('}' :: ex)) false acc = _
              simp only [escTransGo]
              rw [if_neg hbs, if_neg htc, if_neg Bool.false_ne_true,
                ← hr, ← hs]
              simp
      | cons c2 rest2 =>
        simp only [escTransGo] at h
        by_cases hbs : c = '\\'
        · rw [if_pos hbs] at h
          have hlen2 : rest2.length ≤ n := by
            simp only [List.length_cons] at hlen
            omega
          have hrec := ih rest2 hlen2 false (acc ++ [c2]) r s ex h
            (fun hc => Bool.noConfusion hc)
          show escTransGo (c :: c2 :: (rest2 ++ '}' :: ex)) b acc = _
          simp only [escTransGo]
          rw [if_pos hbs]
          exact hrec
        · rw [if_neg hbs] at h
          by_cases htc : textChar c
          · rw [if_pos htc] at h
            have hlen2 : (c2 :: rest2).length ≤ n := by
              simp only [List.length_cons] at hlen ⊢
              omega
            have hrec := ih (c2 :: rest2) hlen2 false (acc ++ [c]) r s ex h
              (fun hc => Bool.noConfusion hc)
            show escTransGo (c :: c2 :: (rest2 ++ '}' :: ex)) b acc = _
            simp only [escTransGo]
            rw [if_neg hbs, if_pos htc]
            exact hrec
          · rw [if_neg htc] at h
            cases b with
            | true => exact Except.noConfusion h
            | false =>
              rw [if_neg Bool.false_ne_true] at h
              injection h with h'
              obtain ⟨hr, hs⟩ := Prod.mk.inj h'
              show escTransGo (c :: c2 :: (rest2 ++ '}' :: ex)) false acc = _
              simp only [escTransGo]
              rw [if_neg hbs, if_neg htc, if_neg Bool.false_ne_true,
                ← hr, ← hs]
              simp

theorem parse_string_ext {i r s : Str} (ex : Str)
    (h : parse_string i = .ok (r, s)) :
    parse_string (i ++ '}' :: ex) = .ok (r ++ '}' :: ex, s) := by
  cases i with
  | nil => exact Except.noConfusion h
  | cons c rest =>
    have := escTransGo_ext (c :: rest).length (c :: rest) (Nat.le_refl _)
      true [] r s ex h (fun _ => by simp)
    show escTransGo ((c :: rest) ++ '}' :: ex) true [] = _
    exact this

/-- `parse_string` fails recoverably on input whose head is a special
non-backslash character. -/
theorem parse_string_err_head {c : Char} (r2 : Str) (h1 : textChar c = false)
    (h2 : ¬(c = '\\')) :
    parse_string (c :: r2) = .error (.err (.other (c :: r2) .escapedTransform)) := by
  show escTransGo (c :: r2) true [] = _
  cases r2 with
  | nil =>
    simp only [escTransGo]
    rw [if_neg h2, if_neg (by rw [h1]; exact Bool.false_ne_true), if_pos trivial]
  | cons x t =>
    simp only [escTransGo]
    rw [if_neg h2, if_neg (by rw [h1]; exact Bool.false_ne_true), if_pos trivial]

theorem charP_fail_head {c0 c : Char} (r2 : Str) (h : ¬(c0 = c)) :
    charP c (c0 :: r2) = .error (.err (.expected c (some c0))) := by
  simp only [charP, if_neg h]

/-! ## Unconditional consumption: every parser's remainder is a suffix of its
input.  Unlike the `_count` family these need no quote-freeness, so they feed
the fuel-independent `many0` analysis used by the nesting claim. -/

theorem sufTrans {i i1 r w1 w2 : Str} (h1 : i = w1 ++ i1) (h2 : i1 = w2 ++ r) :
    ∃ w, i = w ++ r :=
  ⟨w1 ++ w2, by rw [h1, h2, List.append_assoc]⟩

theorem arg1_suf {i r v : Str} (h : arg1 i = .ok (r, v)) :
    ∃ w, i = w ++ r := by
  cases hb : takeWhile1P bareChar i with
  | ok pr =>
    obtain ⟨r1, v1⟩ := pr
    unfold arg1 at h
    rw [hb] at h
    injection h with h'
    obtain ⟨hr, -⟩ := Prod.mk.inj h'
    obtain ⟨hr1, -, -⟩ := takeWhile1P_ok hb
    refine ⟨i.takeWhile bareChar, ?_⟩
    rw [← hr, hr1]
    exact twdw bareChar i
  | error e =>
    cases e with
    | err pe =>
      cases hq : charP '\'' i with
      | error e2 =>
        simp only [arg1, hb, hq] at h
        exact absurd h (by cases e2 <;> simp)
      | ok pr2 =>
        obtain ⟨i1, q⟩ := pr2
        obtain ⟨hi, -⟩ := charP_ok hq
        cases hq2 : charP '\'' (i1.dropWhile (fun c => c ≠ '\'')) with
        | error e3 =>
          simp only [arg1, hb, hq, hq2, cutR] at h
          exact absurd h (by cases e3 <;> simp)
        | ok pr3 =>
          obtain ⟨i2, q2⟩ := pr3
          simp only [arg1, hb, hq, hq2, cutR] at h
          injection h with h'
          obtain ⟨hr, -⟩ := Prod.mk.inj h'
          obtain ⟨hdw, -⟩ := charP_ok hq2
          refine ⟨'\'' :: (i1.takeWhile (fun c => c ≠ '\'') ++ ['\'']), ?_⟩
          have hi1 : i1 = i1.takeWhile (fun c => c ≠ '\'') ++ '\'' :: i2 := by
            conv_lhs => rw [twdw (fun c => c ≠ '\'') i1]
            rw [hdw]
          rw [← hr, hi]
          conv_lhs => rw [hi1]
          simp only [List.cons_append, List.append_assoc, List.singleton_append,
            List.nil_append]
    | fail pe =>
      unfold arg1 at h
      rw [hb] at h
      exact absurd h (by simp)
    | fuel =>
      unfold arg1 at h
      rw [hb] at h
      exact absurd h (by simp)

theorem parse_arg_suf {i r : Str} {a : Arg} (h : parse_arg i = .ok (r, a)) :
    ∃ w, i = w ++ r := by
  cases h1 : alphanum1 i with
  | error e1 =>
    cases e1 <;> (simp only [parse_arg, h1] at h; exact Except.noConfusion h)
  | ok pr =>
    obtain ⟨i1, key⟩ := pr
    obtain ⟨hr1, -, -⟩ := takeWhile1P_ok h1
    have hw1 : i = i.takeWhile identChar ++ i1 := by
      rw [hr1]
      exact twdw identChar i
    cases h2 : charP ':' i1 with
    | ok pr2 =>
      obtain ⟨i2, col⟩ := pr2
      cases h3 : arg1 i2 with
      | ok pr3 =>
        obtain ⟨i3, v⟩ := pr3
        simp only [parse_arg, h1, h2, h3, cutR] at h
        injection h with h'
        obtain ⟨hr, -⟩ := Prod.mk.inj h'
        obtain ⟨hi1, -⟩ := charP_ok h2
        obtain ⟨w3, hw3⟩ := arg1_suf h3
        obtain ⟨w12, hw12⟩ := sufTrans hw1 (by rw [hi1]; rfl :
          i1 = [':'] ++ i2)
        rw [← hr]
        exact sufTrans hw12 hw3
      | error e3 =>
        cases e3 <;>
          (simp only [parse_arg, h1, h2, h3, cutR] at h; exact Except.noConfusion h)
    | error e2 =>
      cases e2 with
      | err pe =>
        simp only [parse_arg, h1, h2] at h
        injection h with h'
        obtain ⟨hr, -⟩ := Prod.mk.inj h'
        rw [← hr]
        exact ⟨i.takeWhile identChar, hw1⟩
      | fail pe =>
        simp only [parse_arg, h1, h2] at h
        exact Except.noConfusion h
      | fuel =>
        simp only [parse_arg, h1, h2] at h
        exact Except.noConfusion h

theorem argListAux_suf : ∀ (f : Nat) (i : Str) (acc : List Arg) (r : Str)
    (v : List Arg), argListAux f i acc = .ok (r, v) →
    ∃ w, i = w ++ r := by
  intro f
  induction f with
  | zero => intro i acc r v h; exact Except.noConfusion h
  | succ f ih =>
    intro i acc r v h
    unfold argListAux at h
    cases h2 : charP ',' (i.dropWhile isAsciiWS) with
    | error e2 =>
      cases e2 with
      | err pe =>
        simp only [h2] at h
        injection h with h'
        obtain ⟨hr, -⟩ := Prod.mk.inj h'
        exact ⟨[], by rw [← hr]; rfl⟩
      | fail pe => simp only [h2] at h; exact Except.noConfusion h
      | fuel => simp only [h2] at h; exact Except.noConfusion h
    | ok pr2 =>
      obtain ⟨i1, comma⟩ := pr2
      simp only [h2] at h
      by_cases hlen : i1.length = i.length
      · rw [if_pos hlen] at h
        exact Except.noConfusion h
      · rw [if_neg hlen] at h
        obtain ⟨hdwc, -⟩ := charP_ok h2
        have hw01 : i = (i.takeWhile isAsciiWS ++ [',']) ++ i1 := by
          conv_lhs => rw [twdw isAsciiWS i]
          rw [hdwc]
          simp
        cases h3 : parse_arg (i1.dropWhile isAsciiWS) with
        | error e3 =>
          cases e3 with
          | err pe =>
            simp only [h3] at h
            injection h with h'
            obtain ⟨hr, -⟩ := Prod.mk.inj h'
            exact ⟨[], by rw [← hr]; rfl⟩
          | fail pe => simp only [h3] at h; exact Except.noConfusion h
          | fuel => simp only [h3] at h; exact Except.noConfusion h
        | ok pr3 =>
          obtain ⟨i2, a⟩ := pr3
          simp only [h3] at h
          obtain ⟨wa, hwa⟩ := parse_arg_suf h3
          obtain ⟨w2, hw2⟩ := sufTrans (twdw isAsciiWS i1) hwa
          obtain ⟨w02, hw02⟩ := sufTrans hw01 hw2
          obtain ⟨wrec, hwrec⟩ := ih i2 (acc ++ [a]) r v h
          exact sufTrans hw02 hwrec

theorem argsInner_suf {fuel : Nat} {i r : Str} {v : List Arg}
    (h : argsInner fuel i = .ok (r, v)) :
    ∃ w, i = w ++ r := by
  unfold argsInner at h
  cases h1 : parse_arg (i.dropWhile isAsciiWS) with
  | error e1 =>
    cases e1 with
    | err pe =>
      simp only [h1] at h
      injection h with h'
      obtain ⟨hr, -⟩ := Prod.mk.inj h'
      exact ⟨[], by rw [← hr]; rfl⟩
    | fail pe => simp only [h1] at h; exact Except.noConfusion h
    | fuel => simp only [h1] at h; exact Except.noConfusion h
  | ok pr =>
    obtain ⟨i1, a⟩ := pr
    simp only [h1] at h
    obtain ⟨wa, hwa⟩ := parse_arg_suf h1
    obtain ⟨w0, hw0⟩ := sufTrans (twdw isAsciiWS i) hwa
    obtain ⟨wrec, hwrec⟩ := argListAux_suf fuel i1 [a] r v h
    exact sufTrans hw0 hwrec

theorem parse_args_suf {i r : Str} {v : List Arg}
    (h : parse_args i = .ok (r, v)) :
    ∃ w, i = w ++ r := by
  unfold parse_args at h
  cases h1 : charP '(' i with
  | error e1 => simp only [h1] at h; exact Except.noConfusion h
  | ok pr =>
    obtain ⟨i1, paren⟩ := pr
    simp only [h1] at h
    obtain ⟨hi, -⟩ := charP_ok h1
    cases h2 : argsInner (i1.length + 1) i1 with
    | error e2 =>
      cases e2 <;> (simp only [h2, cutR] at h; exact Except.noConfusion h)
    | ok pr2 =>
      obtain ⟨i2, args⟩ := pr2
      simp only [h2] at h
      obtain ⟨w2, hw2⟩ := argsInner_suf h2
      cases h3 : charP ')' (i2.dropWhile isAsciiWS) with
      | error e3 =>
        cases e3 <;> (simp only [h3, cutR] at h; exact Except.noConfusion h)
      | ok pr3 =>
        obtain ⟨i3, paren2⟩ := pr3
        simp only [h3, cutR] at h
        injection h with h'
        obtain ⟨hr, -⟩ := Prod.mk.inj h'
        obtain ⟨hdw, -⟩ := charP_ok h3
        obtain ⟨wb, hwb⟩ := sufTrans (twdw isAsciiWS i2) (by rw [hdw]; rfl :
          i2.dropWhile isAsciiWS = [')'] ++ i3)
        obtain ⟨wa, hwa⟩ := sufTrans (by rw [hi]; rfl : i = ['('] ++ i1) hw2
        rw [← hr]
        exact sufTrans hwa hwb

theorem optR_suf {α : Type} {i0 : Str} {sub : PResult α} {r : Str} {o : Option α}
    (hsub : ∀ r' v', sub = .ok (r', v') → ∃ w, i0 = w ++ r')
    (h : optR i0 sub = .ok (r, o)) :
    ∃ w, i0 = w ++ r := by
  cases sub with
  | ok pr =>
    obtain ⟨r', v'⟩ := pr
    simp only [optR] at h
    injection h with h'
    obtain ⟨hr, -⟩ := Prod.mk.inj h'
    rw [← hr]
    exact hsub r' v' rfl
  | error e =>
    cases e with
    | err pe =>
      simp only [optR] at h
      injection h with h'
      obtain ⟨hr, -⟩ := Prod.mk.inj h'
      exact ⟨[], by rw [← hr]; rfl⟩
    | fail pe => simp only [optR] at h; exact Except.noConfusion h
    | fuel => simp only [optR] at h; exact Except.noConfusion h

theorem parse_formatter_suf {i r : Str} {v : Formatter}
    (h : parse_formatter i = .ok (r, v)) :
    ∃ w, i = w ++ r := by
  unfold parse_formatter at h
  cases h1 : charP '.' i with
  | error e1 => simp only [h1] at h; exact Except.noConfusion h
  | ok pr =>
    obtain ⟨i1, dot⟩ := pr
    simp only [h1] at h
    obtain ⟨hi, -⟩ := charP_ok h1
    cases h2 : alphanum1 i1 with
    | error e2 =>
      cases e2 <;> (simp only [h2, cutR] at h; exact Except.noConfusion h)
    | ok pr2 =>
      obtain ⟨i2, name⟩ := pr2
      simp only [h2] at h
      obtain ⟨hr2, -, -⟩ := takeWhile1P_ok h2
      cases h3 : optR i2 (parse_args i2) with
      | error e3 =>
        cases e3 <;> (simp only [h3, cutR] at h; exact Except.noConfusion h)
      | ok pr3 =>
        obtain ⟨i3, args⟩ := pr3
        simp only [h3, cutR] at h
        injection h with h'
        obtain ⟨hr, -⟩ := Prod.mk.inj h'
        obtain ⟨w3, hw3⟩ := optR_suf (fun r' v' hs => parse_args_suf hs) h3
        obtain ⟨wa, hwa⟩ := sufTrans
          (by rw [hr2]; exact twdw identChar i1 : i1 = i1.takeWhile identChar ++ i2) hw3
        rw [← hr]
        exact sufTrans (by rw [hi]; rfl : i = ['.'] ++ i1) hwa

theorem parse_placeholder_suf {i r : Str} {v : Placeholder}
    (h : parse_placeholder i = .ok (r, v)) :
    ∃ w, i = w ++ r ∧ w ≠ [] := by
  unfold parse_placeholder at h
  cases h1 : charP '$' i with
  | error e1 => simp only [h1] at h; exact Except.noConfusion h
  | ok pr =>
    obtain ⟨i1, dollar⟩ := pr
    simp only [h1] at h
    obtain ⟨hi, -⟩ := charP_ok h1
    cases h2 : alphanum1 i1 with
    | error e2 =>
      cases e2 <;> (simp only [h2, cutR] at h; exact Except.noConfusion h)
    | ok pr2 =>
      obtain ⟨i2, name⟩ := pr2
      simp only [h2] at h
      obtain ⟨hr2, -, -⟩ := takeWhile1P_ok h2
      cases h3 : optR i2 (parse_formatter i2) with
      | error e3 =>
        cases e3 <;> (simp only [h3, cutR] at h; exact Except.noConfusion h)
      | ok pr3 =>
        obtain ⟨i3, fmt⟩ := pr3
        simp only [h3, cutR] at h
        injection h with h'
        obtain ⟨hr, -⟩ := Prod.mk.inj h'
        obtain ⟨w3, hw3⟩ := optR_suf (fun r' v' hs => parse_formatter_suf hs) h3
        obtain ⟨wa, hwa⟩ := sufTrans
          (by rw [hr2]; exact twdw identChar i1 : i1 = i1.takeWhile identChar ++ i2) hw3
        rw [← hr]
        exact ⟨'$' :: wa, by rw [hi, hwa]; rfl, by simp⟩

/-- Unconditional analogue of the grammar bookkeeping in `pack_count`: every
remainder is a suffix of the input, `parse_recursive_template` consumes at
least the opening brace, and the token loop never fails recoverably (nom's
`many0` must-consume check never fires because every token parser consumes). -/
theorem pack_len : ∀ f : Nat,
    (∀ i r v, (pack f).pft i = .ok (r, v) → ∃ w, i = w ++ r)
    ∧ (∀ i acc r v, (pack f).tmplAux i acc = .ok (r, v) → ∃ w, i = w ++ r)
    ∧ (∀ i acc,
      (∀ r v, (pack f).tla i acc = .ok (r, v) → ∃ w, i = w ++ r)
      ∧ (∀ e, (pack f).tla i acc ≠ .error (.err e)))
    ∧ (∀ i r v, (pack f).prt i = .ok (r, v) → ∃ w, i = w ++ r ∧ w ≠ []) := by
  intro f
  induction f with
  | zero =>
    refine ⟨?_, ?_, ?_, ?_⟩
    · intro i r v h
      exact Except.noConfusion h
    · intro i acc r v h
      exact Except.noConfusion h
    · intro i acc
      refine ⟨fun r v h => Except.noConfusion h, fun e heq => ?_⟩
      injection heq with h'
      exact NomErr.noConfusion h'
    · intro i r v h
      exact Except.noConfusion h
  | succ f ih =>
    obtain ⟨ihpft, ihtmpl, ihtla, ihprt⟩ := ih
    refine ⟨?_, ?_, ?_, ?_⟩
    · -- pft
      intro i r v h
      rw [pft_step] at h
      cases h1 : (pack f).tla i [] with
      | error e1 =>
        cases e1 with
        | err pe =>
          simp only [h1] at h
          injection h with h'
          obtain ⟨hr, -⟩ := Prod.mk.inj h'
          exact ⟨[], by rw [← hr]; rfl⟩
        | fail pe => simp only [h1] at h; exact Except.noConfusion h
        | fuel => simp only [h1] at h; exact Except.noConfusion h
      | ok pr =>
        obtain ⟨i1, tl⟩ := pr
        simp only [h1] at h
        obtain ⟨w1, hw1⟩ := (ihtla i []).1 i1 tl h1
        obtain ⟨w2, hw2⟩ := ihtmpl i1 [tl] r v h
        exact sufTrans hw1 hw2
    · -- tmplAux
      intro i acc r v h
      rw [tmplAux_step] at h
      cases h1 : charP '|' i with
      | error e1 =>
        cases e1 with
        | err pe =>
          simp only [h1] at h
          injection h with h'
          obtain ⟨hr, -⟩ := Prod.mk.inj h'
          exact ⟨[], by rw [← hr]; rfl⟩
        | fail pe => simp only [h1] at h; exact Except.noConfusion h
        | fuel => simp only [h1] at h; exact Except.noConfusion h
      | ok pr =>
        obtain ⟨i1, sep⟩ := pr
        obtain ⟨hi, -⟩ := charP_ok h1
        simp only [h1] at h
        by_cases hlen : i1.length = i.length
        · rw [if_pos hlen] at h
          exact Except.noConfusion h
        · rw [if_neg hlen] at h
          cases h2 : (pack f).tla i1 [] with
          | error e2 =>
            cases e2 with
            | err pe =>
              simp only [h2] at h
              injection h with h'
              obtain ⟨hr, -⟩ := Prod.mk.inj h'
              exact ⟨[], by rw [← hr]; rfl⟩
            | fail pe => simp only [h2] at h; exact Except.noConfusion h
            | fuel => simp only [h2] at h; exact Except.noConfusion h
          | ok pr2 =>
            obtain ⟨i2, tl⟩ := pr2
            simp only [h2] at h
            obtain ⟨w2, hw2⟩ := (ihtla i1 []).1 i2 tl h2
            obtain ⟨w3, hw3⟩ := ihtmpl i2 (acc ++ [tl]) r v h
            obtain ⟨w23, hw23⟩ := sufTrans hw2 hw3
            exact sufTrans (by rw [hi]; rfl : i = ['|'] ++ i1) hw23
    · -- tla
      intro i acc
      constructor
      · intro r v h
        rw [tla_step] at h
        cases hs : parse_string i with
        | ok pr =>
          obtain ⟨r1, s1⟩ := pr
          simp only [hs] at h
          by_cases hlen : r1.length = i.length
          · rw [if_pos hlen] at h
            exact Except.noConfusion h
          · rw [if_neg hlen] at h
            obtain ⟨w1, hw1, -, -⟩ := parse_string_count hs
            obtain ⟨w2, hw2⟩ := (ihtla r1 (acc ++ [Token.text s1])).1 r v h
            exact sufTrans hw1 hw2
        | error es =>
          cases es with
          | fail pe => simp only [hs] at h; exact Except.noConfusion h
          | fuel => simp only [hs] at h; exact Except.noConfusion h
          | err pe =>
            cases hp : parse_placeholder i with
            | ok pr =>
              obtain ⟨r1, ph⟩ := pr
              simp only [hs, hp] at h
              by_cases hlen : r1.length = i.length
              · rw [if_pos hlen] at h
                exact Except.noConfusion h
              · rw [if_neg hlen] at h
                obtain ⟨w1, hw1, -⟩ := parse_placeholder_suf hp
                obtain ⟨w2, hw2⟩ := (ihtla r1 (acc ++ [Token.placeholder ph])).1 r v h
                exact sufTrans hw1 hw2
            | error ep =>
              cases ep with
              | fail pe2 => simp only [hs, hp] at h; exact Except.noConfusion h
              | fuel => simp only [hs, hp] at h; exact Except.noConfusion h
              | err pe2 =>
                cases hic : parse_icon i with
                | ok pr =>
                  obtain ⟨r1, s1⟩ := pr
                  simp only [hs, hp, hic] at h
                  by_cases hlen : r1.length = i.length
                  · rw [if_pos hlen] at h
                    exact Except.noConfusion h
                  · rw [if_neg hlen] at h
                    obtain ⟨w1, hw1, -, -⟩ := parse_icon_count hic
                    obtain ⟨w2, hw2⟩ := (ihtla r1 (acc ++ [Token.icon s1])).1 r v h
                    exact sufTrans hw1 hw2
                | error ei =>
                  cases ei with
                  | fail pe3 =>
                    simp only [hs, hp, hic] at h
                    exact Except.noConfusion h
                  | fuel =>
                    simp only [hs, hp, hic] at h
                    exact Except.noConfusion h
                  | err pe3 =>
                    cases hpr : (pack f).prt i with
                    | ok pr =>
                      obtain ⟨r1, t1⟩ := pr
                      simp only [hs, hp, hic, hpr] at h
                      by_cases hlen : r1.length = i.length
                      · rw [if_pos hlen] at h
                        exact Except.noConfusion h
                      · rw [if_neg hlen] at h
                        obtain ⟨w1, hw1, -⟩ := ihprt i r1 t1 hpr
                        obtain ⟨w2, hw2⟩ :=
                          (ihtla r1 (acc ++ [Token.recursive t1])).1 r v h
                        exact sufTrans hw1 hw2
                    | error er =>
                      cases er with
                      | fail pe4 =>
                        simp only [hs, hp, hic, hpr] at h
                        exact Except.noConfusion h
                      | fuel =>
                        simp only [hs, hp, hic, hpr] at h
                        exact Except.noConfusion h
                      | err pe4 =>
                        simp only [hs, hp, hic, hpr] at h
                        injection h with h'
                        obtain ⟨hr, -⟩ := Prod.mk.inj h'
                        exact ⟨[], by rw [← hr]; rfl⟩
      · intro e heq
        rw [tla_step] at heq
        cases hs : parse_string i with
        | ok pr =>
          obtain ⟨r1, s1⟩ := pr
          simp only [hs] at heq
          obtain ⟨w1, hw1, -, hne1⟩ := parse_string_count hs
          have hw1len : i.length = w1.length + r1.length := by
            rw [hw1, List.length_append]
          have hpos : 0 < w1.length := List.length_pos.mpr hne1
          by_cases hlen : r1.length = i.length
          · omega
          · rw [if_neg hlen] at heq
            exact (ihtla r1 (acc ++ [Token.text s1])).2 e heq
        | error es =>
          cases es with
          | fail pe =>
            simp only [hs] at heq
            injection heq with h'
            exact NomErr.noConfusion h'
          | fuel =>
            simp only [hs] at heq
            injection heq with h'
            exact NomErr.noConfusion h'
          | err pe =>
            cases hp : parse_placeholder i with
            | ok pr =>
              obtain ⟨r1, ph⟩ := pr
              simp only [hs, hp] at heq
              obtain ⟨w1, hw1, hne1⟩ := parse_placeholder_suf hp
              have hw1len : i.length = w1.length + r1.length := by
                rw [hw1, List.length_append]
              have hpos : 0 < w1.length := List.length_pos.mpr hne1
              by_cases hlen : r1.length = i.length
              · omega
              · rw [if_neg hlen] at heq
                exact (ihtla r1 (acc ++ [Token.placeholder ph])).2 e heq
            | error ep =>
              cases ep with
              | fail pe2 =>
                simp only [hs, hp] at heq
                injection heq with h'
                exact NomErr.noConfusion h'
              | fuel =>
                simp only [hs, hp] at heq
                injection heq with h'
                exact NomErr.noConfusion h'
              | err pe2 =>
                cases hic : parse_icon i with
                | ok pr =>
                  obtain ⟨r1, s1⟩ := pr
                  simp only [hs, hp, hic] at heq
                  obtain ⟨w1, hw1, -, hne1⟩ := parse_icon_count hic
                  have hw1len : i.length = w1.length + r1.length := by
                    rw [hw1, List.length_append]
                  have hpos : 0 < w1.length := List.length_pos.mpr hne1
                  by_cases hlen : r1.length = i.length
                  · omega
                  · rw [if_neg hlen] at heq
                    exact (ihtla r1 (acc ++ [Token.icon s1])).2 e heq
                | error ei =>
                  cases ei with
                  | fail pe3 =>
                    simp only [hs, hp, hic] at heq
                    injection heq with h'
                    exact NomErr.noConfusion h'
                  | fuel =>
                    simp only [hs, hp, hic] at heq
                    injection heq with h'
                    exact NomErr.noConfusion h'
                  | err pe3 =>
                    cases hpr : (pack f).prt i with
                    | ok pr =>
                      obtain ⟨r1, t1⟩ := pr
                      simp only [hs, hp, hic, hpr] at heq
                      obtain ⟨w1, hw1, hne1⟩ := ihprt i r1 t1 hpr
                      have hw1len : i.length = w1.length + r1.length := by
                        rw [hw1, List.length_append]
                      have hpos : 0 < w1.length := List.length_pos.mpr hne1
                      by_cases hlen : r1.length = i.length
                      · omega
                      · rw [if_neg hlen] at heq
                        exact (ihtla r1 (acc ++ [Token.recursive t1])).2 e heq
                    | error er =>
                      cases er with
                      | fail pe4 =>
                        simp only [hs, hp, hic, hpr] at heq
                        injection heq with h'
                        exact NomErr.noConfusion h'
                      | fuel =>
                        simp only [hs, hp, hic, hpr] at heq
                        injection heq with h'
                        exact NomErr.noConfusion h'
                      | err pe4 =>
                        simp only [hs, hp, hic, hpr] at heq
                        exact Except.noConfusion heq
    · -- prt
      intro i r v h
      rw [prt_step] at h
      cases h1 : charP '{' i with
      | error e1 => simp only [h1] at h; exact Except.noConfusion h
      | ok pr =>
        obtain ⟨i1, brace⟩ := pr
        simp only [h1] at h
        obtain ⟨hi, -⟩ := charP_ok h1
        cases h2 : (pack f).pft i1 with
        | error e2 =>
          cases e2 <;> (simp only [h2, cutR] at h; exact Except.noConfusion h)
        | ok pr2 =>
          obtain ⟨i2, tpl⟩ := pr2
          simp only [h2] at h
          cases h3 : charP '}' i2 with
          | error e3 =>
            cases e3 <;> (simp only [h3, cutR] at h; exact Except.noConfusion h)
          | ok pr3 =>
            obtain ⟨i3, brace2⟩ := pr3
            simp only [h3, cutR] at h
            injection h with h'
            obtain ⟨hr, -⟩ := Prod.mk.inj h'
            obtain ⟨hi2, -⟩ := charP_ok h3
            obtain ⟨w2, hw2⟩ := ihpft i1 i2 tpl h2
            obtain ⟨wb, hwb⟩ := sufTrans hw2 (by rw [hi2]; rfl : i2 = ['}'] ++ i3)
            rw [← hr]
            exact ⟨'{' :: wb, by rw [hi, hwb]; rfl, by simp⟩

/-- The token loop of `parse_token_list` never fails recoverably. -/
theorem tla_no_err (f : Nat) (i : Str) (acc : List Token) (e : PError) :
    (pack f).tla i acc ≠ .error (.err e) :=
  ((pack_len f).2.2.1 i acc).2 e

/-- The separator loop leaves its input untouched or starts by consuming a
pipe. -/
theorem tmplAux_ok_head : ∀ (f : Nat) (i : Str) (acc : FormatTemplate)
    (r : Str) (v : FormatTemplate), (pack f).tmplAux i acc = .ok (r, v) →
    i = r ∨ ∃ r2, i = '|' :: r2 := by
  intro f i acc r v h
  cases f with
  | zero => exact Except.noConfusion h
  | succ f =>
    rw [tmplAux_step] at h
    cases h1 : charP '|' i with
    | error e1 =>
      cases e1 with
      | err pe =>
        simp only [h1] at h
        injection h with h'
        obtain ⟨hr, -⟩ := Prod.mk.inj h'
        exact Or.inl hr
      | fail pe => simp only [h1] at h; exact Except.noConfusion h
      | fuel => simp only [h1] at h; exact Except.noConfusion h
    | ok pr =>
      obtain ⟨i1, sep⟩ := pr
      obtain ⟨hi, -⟩ := charP_ok h1
      exact Or.inr ⟨i1, hi⟩

theorem parse_placeholder_err_head {c : Char} (r2 : Str) (h : ¬(c = '$')) :
    parse_placeholder (c :: r2) = .error (.err (.expected '$' (some c))) := by
  unfold parse_placeholder
  rw [charP_fail_head r2 h]

theorem parse_icon_err_head {c : Char} (r2 : Str) (h : ¬(c = '^')) :
    parse_icon (c :: r2) = .error (.err (.expected '^' (some c))) := by
  unfold parse_icon
  rw [charP_fail_head r2 h]

theorem prt_err_head {c : Char} (f : Nat) (r2 : Str) (h : ¬(c = '{')) :
    (pack (f + 1)).prt (c :: r2) = .error (.err (.expected '{' (some c))) := by
  rw [prt_step]
  rw [charP_fail_head r2 h]

/-- When all four token alternatives fail recoverably, the token loop exits
with the input as the remainder. -/
theorem tla_exit (f : Nat) (j : Str) (acc : List Token) (e1 e2 e3 e4 : PError)
    (h1 : parse_string j = .error (.err e1))
    (h2 : parse_placeholder j = .error (.err e2))
    (h3 : parse_icon j = .error (.err e3))
    (h4 : (pack f).prt j = .error (.err e4)) :
    (pack (f + 1)).tla j acc = .ok (j, acc) := by
  rw [tla_step]
  simp only [h1, h2, h3, h4]

theorem parse_placeholder_ok_head {i r : Str} {v : Placeholder}
    (h : parse_placeholder i = .ok (r, v)) : ∃ t, i = '$' :: t := by
  unfold parse_placeholder at h
  cases h1 : charP '$' i with
  | error e1 => rw [h1] at h; exact Except.noConfusion h
  | ok pr =>
    obtain ⟨i1, d⟩ := pr
    obtain ⟨hi, -⟩ := charP_ok h1
    exact ⟨i1, hi⟩

theorem parse_icon_ok_head {i r v : Str}
    (h : parse_icon i = .ok (r, v)) : ∃ t, i = '^' :: t := by
  unfold parse_icon at h
  cases h1 : charP '^' i with
  | error e1 => rw [h1] at h; exact Except.noConfusion h
  | ok pr =>
    obtain ⟨i1, d⟩ := pr
    obtain ⟨hi, -⟩ := charP_ok h1
    exact ⟨i1, hi⟩

theorem prt_ok_head {f : Nat} {i r : Str} {v : FormatTemplate}
    (h : (pack f).prt i = .ok (r, v)) : ∃ t, i = '{' :: t := by
  cases f with
  | zero => exact Except.noConfusion h
  | succ f =>
    rw [prt_step] at h
    cases h1 : charP '{' i with
    | error e1 => rw [h1] at h; exact Except.noConfusion h
    | ok pr =>
      obtain ⟨i1, d⟩ := pr
      obtain ⟨hi, -⟩ := charP_ok h1
      exact ⟨i1, hi⟩

/-- All four token alternatives fail recoverably on input headed by a
character that starts none of them. -/
theorem tla_exit_special (g : Nat) (c : Char) (t : Str) (acc : List Token)
    (h1 : textChar c = false) (h2 : ¬(c = '\\')) (h3 : ¬(c = '$'))
    (h4 : ¬(c = '^')) (h5 : ¬(c = '{')) :
    (pack (g + 2)).tla (c :: t) acc = .ok (c :: t, acc) :=
  tla_exit (g + 1) (c :: t) acc _ _ _ _
    (parse_string_err_head t h1 h2)
    (parse_placeholder_err_head t h3)
    (parse_icon_err_head t h4)
    (prt_err_head g t h5)

/-- Appending `'}' :: ex` to the input does not disturb a successful run of
any of the four grammar parsers, provided the run's remainder is empty or
starts with a character (`}` — or `|` for the token loop) that the parser
would stop at again: exactly the situation of a brace-delimited sub-template
followed by its closing brace. -/
theorem pack_ext : ∀ (f : Nat) (ex : Str),
    (∀ i r v, (pack f).pft i = .ok (r, v) →
      (r = [] ∨ ∃ r2, r = '}' :: r2) →
      (pack f).pft (i ++ '}' :: ex) = .ok (r ++ '}' :: ex, v))
    ∧ (∀ i acc r v, (pack f).tmplAux i acc = .ok (r, v) →
      (r = [] ∨ ∃ r2, r = '}' :: r2) →
      (pack f).tmplAux (i ++ '}' :: ex) acc = .ok (r ++ '}' :: ex, v))
    ∧ (∀ i acc r v, (pack f).tla i acc = .ok (r, v) →
      (r = [] ∨ (∃ r2, r = '}' :: r2) ∨ (∃ r2, r = '|' :: r2)) →
      (pack f).tla (i ++ '}' :: ex) acc = .ok (r ++ '}' :: ex, v))
    ∧ (∀ i r v, (pack f).prt i = .ok (r, v) →
      (pack f).prt (i ++ '}' :: ex) = .ok (r ++ '}' :: ex, v)) := by
  intro f ex
  induction f with
  | zero =>
    exact ⟨fun i r v h _ => Except.noConfusion h,
      fun i acc r v h _ => Except.noConfusion h,
      fun i acc r v h _ => Except.noConfusion h,
      fun i r v h => Except.noConfusion h⟩
  | succ f ih =>
    obtain ⟨ihpft, ihtmpl, ihtla, ihprt⟩ := ih
    refine ⟨?_, ?_, ?_, ?_⟩
    · -- pft
      intro i r v h hsc
      rw [pft_step] at h
      cases h1 : (pack f).tla i [] with
      | error e1 =>
        cases e1 with
        | err pe => exact absurd h1 (tla_no_err f i [] pe)
        | fail pe => simp only [h1] at h; exact Except.noConfusion h
        | fuel => simp only [h1] at h; exact Except.noConfusion h
      | ok pr =>
        obtain ⟨i1, tl⟩ := pr
        simp only [h1] at h
        have hsc1 : i1 = [] ∨ (∃ r2, i1 = '}' :: r2) ∨ (∃ r2, i1 = '|' :: r2) := by
          rcases tmplAux_ok_head f i1 [tl] r v h with heq | ⟨r2, hr2⟩
          · rw [heq]
            rcases hsc with hnil | ⟨r3, hr3⟩
            · exact Or.inl hnil
            · exact Or.inr (Or.inl ⟨r3, hr3⟩)
          · exact Or.inr (Or.inr ⟨r2, hr2⟩)
        have h1' := ihtla i [] i1 tl h1 hsc1
        have h2' := ihtmpl i1 [tl] r v h hsc
        rw [pft_step]
        simp only [h1', h2']
    · -- tmplAux
      intro i acc r v h hsc
      rw [tmplAux_step] at h
      cases h1 : charP '|' i with
      | error e1 =>
        cases e1 with
        | err pe =>
          simp only [h1] at h
          injection h with h'
          obtain ⟨hr, hv⟩ := Prod.mk.inj h'
          rw [tmplAux_step, ← hr, ← hv]
          cases i with
          | nil =>
            rw [List.nil_append]
            simp only [charP_fail_head ex (show ¬('}' = '|') by decide)]
          | cons c t =>
            have hc : ¬(c = '|') := by
              intro hcc
              subst hcc
              simp only [charP, if_pos rfl] at h1
              exact Except.noConfusion h1
            rw [List.cons_append]
            simp only [charP_fail_head (t ++ '}' :: ex) hc]
        | fail pe => simp only [h1] at h; exact Except.noConfusion h
        | fuel => simp only [h1] at h; exact Except.noConfusion h
      | ok pr =>
        obtain ⟨i1, sep⟩ := pr
        obtain ⟨hi, -⟩ := charP_ok h1
        simp only [h1] at h
        by_cases hlen : i1.length = i.length
        · rw [if_pos hlen] at h
          exact Except.noConfusion h
        · rw [if_neg hlen] at h
          cases h2 : (pack f).tla i1 [] with
          | error e2 =>
            cases e2 with
            | err pe => exact absurd h2 (tla_no_err f i1 [] pe)
            | fail pe => simp only [h2] at h; exact Except.noConfusion h
            | fuel => simp only [h2] at h; exact Except.noConfusion h
          | ok pr2 =>
            obtain ⟨i2, tl⟩ := pr2
            simp only [h2] at h
            have hsc2 : i2 = [] ∨ (∃ r2, i2 = '}' :: r2) ∨ (∃ r2, i2 = '|' :: r2) := by
              rcases tmplAux_ok_head f i2 (acc ++ [tl]) r v h with heq | ⟨r2, hr2⟩
              · rw [heq]
                rcases hsc with hnil | ⟨r3, hr3⟩
                · exact Or.inl hnil
                · exact Or.inr (Or.inl ⟨r3, hr3⟩)
              · exact Or.inr (Or.inr ⟨r2, hr2⟩)
            have h2' := ihtla i1 [] i2 tl h2 hsc2
            have h3' := ihtmpl i2 (acc ++ [tl]) r v h hsc
            rw [tmplAux_step, hi, List.cons_append]
            have hcp : charP '|' ('|' :: (i1 ++ '}' :: ex))
                = .ok (i1 ++ '}' :: ex, '|') := rfl
            simp only [hcp]
            rw [if_neg (by simp only [List.length_cons]; omega)]
            simp only [h2', h3']
    · -- tla
      intro i acc r v h hsc
      rw [tla_step] at h
      cases hs : parse_string i with
      | ok pr =>
        obtain ⟨r1, s1⟩ := pr
        simp only [hs] at h
        by_cases hlen : r1.length = i.length
        · rw [if_pos hlen] at h
          exact Except.noConfusion h
        · rw [if_neg hlen] at h
          have hs' := parse_string_ext ex hs
          have hrec := ihtla r1 (acc ++ [Token.text s1]) r v h hsc
          rw [tla_step]
          simp only [hs']
          rw [if_neg (by simp only [List.length_append]; omega)]
          exact hrec
      | error es =>
        cases es with
        | fail pe => simp only [hs] at h; exact Except.noConfusion h
        | fuel => simp only [hs] at h; exact Except.noConfusion h
        | err pe =>
          cases hp : parse_placeholder i with
          | ok pr =>
            obtain ⟨r1, ph⟩ := pr
            simp only [hs, hp] at h
            by_cases hlen : r1.length = i.length
            · rw [if_pos hlen] at h
              exact Except.noConfusion h
            · rw [if_neg hlen] at h
              obtain ⟨t1, hi⟩ := parse_placeholder_ok_head hp
              have hp' := parse_placeholder_ext ex hp
              have hrec := ihtla r1 (acc ++ [Token.placeholder ph]) r v h hsc
              have hs2 : parse_string (i ++ '}' :: ex)
                  = .error (.err (.other (i ++ '}' :: ex) .escapedTransform)) := by
                rw [hi, List.cons_append]
                exact parse_string_err_head _ (by decide) (by decide)
              rw [tla_step]
              simp only [hs2, hp']
              rw [if_neg (by simp only [List.length_append]; omega)]
              exact hrec
          | error ep =>
            cases ep with
            | fail pe2 => simp only [hs, hp] at h; exact Except.noConfusion h
            | fuel => simp only [hs, hp] at h; exact Except.noConfusion h
            | err pe2 =>
              cases hic : parse_icon i with
              | ok pr =>
                obtain ⟨r1, s1⟩ := pr
                simp only [hs, hp, hic] at h
                by_cases hlen : r1.length = i.length
                · rw [if_pos hlen] at h
                  exact Except.noConfusion h
                · rw [if_neg hlen] at h
                  obtain ⟨t1, hi⟩ := parse_icon_ok_head hic
                  have hic' := parse_icon_ext ex hic
                  have hrec := ihtla r1 (acc ++ [Token.icon s1]) r v h hsc
                  have hs2 : parse_string (i ++ '}' :: ex)
                      = .error (.err (.other (i ++ '}' :: ex) .escapedTransform)) := by
                    rw [hi, List.cons_append]
                    exact parse_string_err_head _ (by decide) (by decide)
                  have hp2 : parse_placeholder (i ++ '}' :: ex)
                      = .error (.err (.expected '$' (some '^'))) := by
                    rw [hi, List.cons_append]
                    exact parse_placeholder_err_head _ (by decide)
                  rw [tla_step]
                  simp only [hs2, hp2, hic']
                  rw [if_neg (by simp only [List.length_append]; omega)]
                  exact hrec
              | error ei =>
                cases ei with
                | fail pe3 => simp only [hs, hp, hic] at h; exact Except.noConfusion h
                | fuel => simp only [hs, hp, hic] at h; exact Except.noConfusion h
                | err pe3 =>
                  cases hpr : (pack f).prt i with
                  | ok pr =>
                    obtain ⟨r1, t1⟩ := pr
                    simp only [hs, hp, hic, hpr] at h
                    by_cases hlen : r1.length = i.length
                    · rw [if_pos hlen] at h
                      exact Except.noConfusion h
                    · rw [if_neg hlen] at h
                      obtain ⟨t2, hi⟩ := prt_ok_head hpr
                      have hpr' := ihprt i r1 t1 hpr
                      have hrec := ihtla r1 (acc ++ [Token.recursive t1]) r v h hsc
                      have hs2 : parse_string (i ++ '}' :: ex)
                          = .error (.err (.other (i ++ '}' :: ex) .escapedTransform)) := by
                        rw [hi, List.cons_append]
                        exact parse_string_err_head _ (by decide) (by decide)
                      have hp2 : parse_placeholder (i ++ '}' :: ex)
                          = .error (.err (.expected '$' (some '{'))) := by
                        rw [hi, List.cons_append]
                        exact parse_placeholder_err_head _ (by decide)
                      have hic2 : parse_icon (i ++ '}' :: ex)
                          = .error (.err (.expected '^' (some '{'))) := by
                        rw [hi, List.cons_append]
                        exact parse_icon_err_head _ (by decide)
                      rw [tla_step]
                      simp only [hs2, hp2, hic2, hpr']
                      rw [if_neg (by simp only [List.length_append]; omega)]
                      exact hrec
                  | error er =>
                    cases er with
                    | fail pe4 =>
                      simp only [hs, hp, hic, hpr] at h
                      exact Except.noConfusion h
                    | fuel =>
                      simp only [hs, hp, hic, hpr] at h
                      exact Except.noConfusion h
                    | err pe4 =>
                      simp only [hs, hp, hic, hpr] at h
                      injection h with h'
                      obtain ⟨hr, hv⟩ := Prod.mk.inj h'
                      cases f with
                      | zero =>
                        injection hpr with h''
                        exact NomErr.noConfusion h''
                      | succ g =>
                        rw [← hr] at hsc
                        rw [← hr, ← hv]
                        rcases hsc with hnil | ⟨r2, hr2⟩ | ⟨r2, hr2⟩
                        · rw [hnil, List.nil_append]
                          exact tla_exit_special g '}' ex acc (by decide)
                            (by decide) (by decide) (by decide) (by decide)
                        · rw [hr2, List.cons_append]
                          exact tla_exit_special g '}' (r2 ++ '}' :: ex) acc
                            (by decide) (by decide) (by decide) (by decide) (by decide)
                        · rw [hr2, List.cons_append]
                          exact tla_exit_special g '|' (r2 ++ '}' :: ex) acc
                            (by decide) (by decide) (by decide) (by decide) (by decide)
    · -- prt
      intro i r v h
      rw [prt_step] at h
      cases h1 : charP '{' i with
      | error e1 => simp only [h1] at h; exact Except.noConfusion h
      | ok pr =>
        obtain ⟨i1, brace⟩ := pr
        obtain ⟨hi, -⟩ := charP_ok h1
        simp only [h1] at h
        cases h2 : (pack f).pft i1 with
        | error e2 =>
          cases e2 <;> (simp only [h2, cutR] at h; exact Except.noConfusion h)
        | ok pr2 =>
          obtain ⟨i2, tpl⟩ := pr2
          simp only [h2] at h
          cases h3 : charP '}' i2 with
          | error e3 =>
            cases e3 <;> (simp only [h3, cutR] at h; exact Except.noConfusion h)
          | ok pr3 =>
            obtain ⟨i3, b2⟩ := pr3
            simp only [h3, cutR] at h
            injection h with h'
            obtain ⟨hr, hv⟩ := Prod.mk.inj h'
            obtain ⟨hi2, -⟩ := charP_ok h3
            have h2' := ihpft i1 i2 tpl h2 (Or.inr ⟨i3, hi2⟩)
            rw [← hr, ← hv, prt_step, hi, List.cons_append]
            have hcp : charP '{' ('{' :: (i1 ++ '}' :: ex))
                = .ok (i1 ++ '}' :: ex, '{') := rfl
            simp only [hcp, h2']
            rw [hi2, List.cons_append]
            have hcp2 : charP '}' ('}' :: (i3 ++ '}' :: ex))
                = .ok (i3 ++ '}' :: ex, '}') := rfl
            simp only [hcp2, cutR]

/-- Wrapping a token-list run: if the inner template run stops exactly at the
closing brace, the whole `{...}` parses as one `Recursive` token consuming
everything. -/
theorem pft_rec_assemble (g : Nat) (t : Str) (tpl : FormatTemplate)
    (h : (pack (g + 1)).pft (t ++ ['}']) = .ok (['}'], tpl)) :
    (pack (g + 4)).pft ('{' :: (t ++ ['}'])) = .ok ([], [[Token.recursive tpl]]) := by
  have hprt : (pack (g + 2)).prt ('{' :: (t ++ ['}'])) = .ok ([], tpl) := by
    show (pack ((g + 1) + 1)).prt ('{' :: (t ++ ['}'])) = .ok ([], tpl)
    rw [prt_step]
    have hcp : charP '{' ('{' :: (t ++ ['}'])) = .ok (t ++ ['}'], '{') := rfl
    have hcp2 : charP '}' (['}'] : Str) = .ok ([], '}') := rfl
    simp only [hcp, h, hcp2, cutR]
  have htla : (pack (g + 3)).tla ('{' :: (t ++ ['}'])) []
      = .ok ([], [Token.recursive tpl]) := by
    show (pack ((g + 2) + 1)).tla ('{' :: (t ++ ['}'])) []
      = .ok ([], [Token.recursive tpl])
    rw [tla_step]
    have hstr : parse_string ('{' :: (t ++ ['}']))
        = .error (.err (.other ('{' :: (t ++ ['}'])) .escapedTransform)) :=
      parse_string_err_head _ (by decide) (by decide)
    have hph : parse_placeholder ('{' :: (t ++ ['}']))
        = .error (.err (.expected '$' (some '{'))) :=
      parse_placeholder_err_head _ (by decide)
    have hicon : parse_icon ('{' :: (t ++ ['}']))
        = .error (.err (.expected '^' (some '{'))) :=
      parse_icon_err_head _ (by decide)
    simp only [hstr, hph, hicon, hprt]
    rw [if_neg (by simp only [List.length_nil, List.length_cons]; omega)]
    rw [List.nil_append]
    exact tla_nil g [Token.recursive tpl]
  show (pack ((g + 3) + 1)).pft ('{' :: (t ++ ['}'])) = .ok ([], [[Token.recursive tpl]])
  rw [pft_step]
  simp only [htla]
  show (pack ((g + 2) + 1)).tmplAux [] [[Token.recursive tpl]]
    = .ok ([], [[Token.recursive tpl]])
  exact tmplAux_nil (g + 2) [[Token.recursive tpl]]

/-! ## Claim C6: nesting -/

/-- C6: if `parse_full` succeeds on `t`, then on `"\x7b" ++ t ++ "\x7d"` it
succeeds with exactly one alternative consisting of the single token
`Recursive r`, where `r` is the template `parse_full` returns for `t`. -/
theorem c6_nesting (t : Str) (tpl : FormatTemplate) (h : parse_full t = .ok tpl) :
    parse_full ('{' :: (t ++ ['}'])) = .ok [[Token.recursive tpl]] := by
  have hp : (pack (defaultFuel t)).pft t = .ok ([], tpl) := by
    unfold parse_full at h
    cases hq : parse_format_template (defaultFuel t) t with
    | ok pr =>
      obtain ⟨rest, tpl2⟩ := pr
      rw [hq] at h
      cases rest with
      | nil =>
        have ht2 : tpl2 = tpl := by simpa using h
        rw [← ht2]
        exact hq
      | cons c rest2 => simp at h
    | error e =>
      rw [hq] at h
      cases e <;> simp at h
  have hext := (pack_ext (defaultFuel t) []).1 t [] tpl hp (Or.inl rfl)
  rw [List.nil_append] at hext
  have hne : (pack (defaultFuel t)).pft (t ++ ['}']) ≠ .error .fuel := by
    rw [hext]
    exact okNeFuel _
  have h9 : (pack (4 * t.length + 8 + 1)).pft (t ++ ['}']) = .ok (['}'], tpl) := by
    rw [(pack_mono (defaultFuel t) (4 * t.length + 8 + 1)
      (by unfold defaultFuel; omega)).1 (t ++ ['}']) hne]
    exact hext
  have hasm := pft_rec_assemble (4 * t.length + 8) t tpl h9
  have hlen : defaultFuel ('{' :: (t ++ ['}'])) = 4 * t.length + 8 + 4 := by
    unfold defaultFuel
    simp only [List.length_nil, List.length_cons, List.length_append]
    omega
  unfold parse_full parse_format_template
  rw [hlen, hasm]

/-- Witness for C6 at `t = "x"`: `"\x7bx\x7d"` parses to one `Recursive`
token wrapping the template of `"x"`. -/
theorem c6_witness :
    parse_full (("{x}").data) = .ok [[Token.recursive [[Token.text ['x']]]]] :=
  c6_nesting (("x").data) [[Token.text ['x']]] rfl

end FmtParse